import Mathlib

set_option maxRecDepth 4000

/-!
Shallow embedding of the FSE (Finite State Entropy) byte codec from fse.c,
together with theorems settling the specification claims.

Conventions:
* machine bytes and unsigned integers are `Nat` with explicit reductions
  `% 2^32` (`u32`) or `% 2^16` (`u16`) where the C code can wrap;
* C `int` values that can go negative in reachable states are `Int`;
* buffers are `List Nat` (byte lists) or `Nat → Nat` (count arrays, mirroring
  in-place updates with `Function.update`);
* fallible or potentially non-terminating C code becomes `Option`-valued,
  with `none` for an error return (-1), out-of-bounds access, division by
  zero, or exhausted loop fuel (the fuel is an explicit argument so that
  theorems can quantify over it; a loop that the C code never exits is
  modelled by a function that is `none` for every fuel).
-/

/-- `FSE_MAX_NB_SYMBOLS_CHAR`: 256 (from `FSE_MAX_NB_SYMBOLS = 286`, capped). -/
def FSE_MAX_NB_SYMBOLS_CHAR : Nat := 256

/-- `FSE_MAX_TABLELOG = FSE_MEMORY_USAGE - 2 = 12`. -/
def FSE_MAX_TABLELOG : Nat := 12

/-- `FSE_MIN_TABLELOG = 5`. -/
def FSE_MIN_TABLELOG : Nat := 5

/-- `FSE_VIRTUAL_LOG = 30`. -/
def FSE_VIRTUAL_LOG : Nat := 30

/-- `FSE_VIRTUAL_RANGE = 1 << 30`. -/
def FSE_VIRTUAL_RANGE : Nat := 2 ^ 30

/-- Reduction of a `Nat` to a 32-bit unsigned value. -/
def u32 (x : Nat) : Nat := x % 2 ^ 32

/-- Reduction of a `Nat` to a 16-bit unsigned value. -/
def u16 (x : Nat) : Nat := x % 2 ^ 16

/-- The 32-bit value of `x - 1` computed on a `U32`: for `x = 0` this wraps to
`2^32 - 1` (the C code passes `total-1`, an `int`, into a `U32` parameter). -/
def u32pred (x : Nat) : Nat := u32 (x + (2 ^ 32 - 1))

/-- Structural base-2 logarithm (so that the kernel can evaluate it; equal to
`Nat.log2` whenever `v < 2 ^ fuel`, see `highbitAux_eq_log2`). -/
def highbitAux : Nat → Nat → Nat
  | 0, _ => 0
  | fuel + 1, v => if v < 2 then 0 else highbitAux fuel (v / 2) + 1

/-- `FSE_highbit`: index of the highest set bit of a `U32`.  The software
(De Bruijn) fallback in the source maps `0` to `0`, as `Nat.log2` does. -/
def FSE_highbit (v : Nat) : Nat := highbitAux 32 (u32 v)

/-- Little-endian 32-bit load `*(U32*)(&l[i])`; bytes past the end of the
modelled buffer read as `0`. -/
def load32 (l : List Nat) (i : Nat) : Nat :=
  l.getD i 0 + l.getD (i + 1) 0 * 2 ^ 8 + l.getD (i + 2) 0 * 2 ^ 16 +
    l.getD (i + 3) 0 * 2 ^ 24

/-- The trimming loop of `FSE_count`:
`while (!count[maxNbSymbols-1]) maxNbSymbols--;`.
If every entry below the cap is zero the C loop reads `count[-1]`
(out of bounds), modelled as `none`. -/
def countTrim (count : Nat → Nat) : Nat → Option Nat
  | 0 => none
  | m + 1 => if count m = 0 then countTrim count m else some (m + 1)

/-- `FSE_count`.  The four interleaved counting arrays `Counting1..4` of the
source are an instruction-level-parallelism device; their element-wise sum,
which is all the function ever returns, is the plain occurrence count of each
symbol over the whole input, modelled here directly as `List.count`.
Returns `(trimmed nbSymbols, the filled count buffer)`. -/
def FSE_count (source : List Nat) (maxNbSymbols : Nat) :
    Option (Nat × (Nat → Nat)) :=
  if FSE_MAX_NB_SYMBOLS_CHAR < maxNbSymbols then none
  else
    let m := if maxNbSymbols = 0 then FSE_MAX_NB_SYMBOLS_CHAR else maxNbSymbols
    if source.length = 0 then none
    else
      let cnt : Nat → Nat := fun s => source.count s
      match countTrim cnt m with
      | none => none
      | some n => some (n, fun s => if s < m then cnt s else 0)

/-- Result of `FSE_normalizeCount`: C return value `-1` (unsupported size),
`0` (single-symbol distribution), or the final `tableLog` together with the
normalized buffer. -/
inductive NormResult where
  | err : NormResult
  | single : NormResult
  | ok : Nat → (Nat → Nat) → NormResult

/-- `tableLog` of a normalization result, if it succeeded. -/
def normLog? : Option NormResult → Option Nat
  | some (NormResult.ok L _) => some L
  | _ => none

/-- Normalized count of symbol `s`, if normalization succeeded. -/
def normN? (r : Option NormResult) (s : Nat) : Option Nat :=
  match r with
  | some (NormResult.ok _ N) => some (N s)
  | _ => none

/-- The pre-shift pass of `FSE_normalizeCount` (huge totals):
`for (s=0; s<nbSymbols; s++) vTotal += count[s] = (count[s]+base) >> shift;`
Arguments: remaining symbols, current symbol, buffer, accumulated `vTotal`. -/
def preShiftGo (shift base : Nat) :
    Nat → Nat → (Nat → Nat) → Nat → ((Nat → Nat) × Nat)
  | 0, _, cnt, vT => (cnt, vT)
  | r + 1, s, cnt, vT =>
    let c := u32 (cnt s + base) / 2 ^ shift
    preShiftGo shift base r (s + 1) (Function.update cnt s c) (vT + c)

/-- The `minBase` refinement loop of `FSE_normalizeCount`:
`do { minBase += add; add = (add*nbSymbols) >> tableLog; } while (add);`
(all in `U32`).  The loop does not terminate for every input (see the C1
theorem), hence the fuel; `none` models non-termination. -/
def minBaseLoop (nbSymbols tableLog : Nat) :
    Nat → Nat → Nat → Option Nat
  | 0, _, _ => none
  | fuel + 1, minBase, add =>
    let mb := u32 (minBase + add)
    let a := u32 (add * nbSymbols) / 2 ^ tableLog
    if a = 0 then some mb else minBaseLoop nbSymbols tableLog fuel mb a

/-- The pass adding `minBase` to every nonzero count:
`for (s...) if (count[s]) { normalizedCounter[s] = count[s] + minBase;
vTotal += minBase; }` (the counter buffer aliases `count` in place). -/
def addMinBaseGo (minBase : Nat) :
    Nat → Nat → (Nat → Nat) → Nat → ((Nat → Nat) × Nat)
  | 0, _, cnt, vT => (cnt, vT)
  | r + 1, s, cnt, vT =>
    if cnt s ≠ 0 then
      addMinBaseGo minBase r (s + 1)
        (Function.update cnt s (u32 (cnt s + minBase))) (vT + minBase)
    else
      addMinBaseGo minBase r (s + 1) cnt vT

/-- The main distribution loop of `FSE_normalizeCount`.  Arguments: remaining
symbols, current symbol, `cumulativeRest`, buffer.  Returns `none` on the
early `return 0` (single-symbol case). -/
def normLoop (vTotal step scale : Nat) :
    Nat → Nat → Nat → (Nat → Nat) → Option (Nat → Nat)
  | 0, _, _, cnt => some cnt
  | r + 1, s, rest, cnt =>
    if cnt s = u32 vTotal then none
    else if 0 < cnt s then
      let prod := u32 (cnt s * step)
      let size0 := prod / 2 ^ scale
      let rest0 := prod - size0 * 2 ^ scale
      let rest1 := rest + rest0
      let size := size0 + rest1 / 2 ^ scale
      let rest2 := rest1 % 2 ^ scale
      normLoop vTotal step scale r (s + 1) rest2 (Function.update cnt s size)
    else
      normLoop vTotal step scale r (s + 1) rest cnt

/-- The `tableLog` adjustment at the head of `FSE_normalizeCount`: default
the `0` hint to `FSE_MAX_TABLELOG`, tighten down to the source entropy bound,
up to the symbol-count bound, and clamp to at least `FSE_MIN_TABLELOG`
(the `> FSE_MAX_TABLELOG` error check stays in the caller). -/
def adjustTableLog (tableLog0 total nbSymbols : Nat) : Nat :=
  let tableLog1 := if tableLog0 = 0 then FSE_MAX_TABLELOG else tableLog0
  let tableLog2 :=
    if FSE_highbit (u32pred total) + 1 < tableLog1 then
      FSE_highbit (u32pred total) + 1
    else tableLog1
  let tableLog3 :=
    if tableLog2 < FSE_highbit nbSymbols + 1 then
      FSE_highbit (nbSymbols - 1) + 1
    else tableLog2
  if tableLog3 < FSE_MIN_TABLELOG then FSE_MIN_TABLELOG else tableLog3

/-- `FSE_normalizeCount`.  The normalized-count buffer aliases the raw-count
buffer (in-place), exactly as the compression path calls it; `vTotal` is kept
as an unbounded `Nat` (it is an `int` in C and only grows in reachable
states).  `fuel` bounds the `minBase` loop; `none` models non-termination of
that loop or the division by zero reached when `vTotal = 0`. -/
def FSE_normalizeCount (fuel tableLog0 : Nat) (count : Nat → Nat)
    (total nbSymbols : Nat) : Option NormResult :=
  let tableLog := adjustTableLog tableLog0 total nbSymbols
  if FSE_MAX_TABLELOG < tableLog then some NormResult.err
  else
    let maxLog := FSE_VIRTUAL_LOG - tableLog
    let srcLog := FSE_highbit (u32pred total) + 1
    let p1 : (Nat → Nat) × Nat :=
      if maxLog < srcLog then
        preShiftGo (srcLog - maxLog) (2 ^ (srcLog - maxLog) - 1)
          nbSymbols 0 count 0
      else (count, total)
    let afterMin : Option ((Nat → Nat) × Nat) :=
      if 2 ^ tableLog < total then
        match minBaseLoop nbSymbols tableLog fuel (u32 total)
            (u32 (u32 total * nbSymbols) / 2 ^ tableLog) with
        | none => none
        | some mb =>
          some (addMinBaseGo (mb / 2 ^ tableLog) nbSymbols 0 p1.1 p1.2)
      else some p1
    match afterMin with
    | none => none
    | some (cnt2, vTotal) =>
      if vTotal = 0 then none
      else
        let scale := FSE_VIRTUAL_LOG - tableLog
        let vStep := 2 ^ scale
        let step := FSE_VIRTUAL_RANGE / vTotal
        let error := FSE_VIRTUAL_RANGE - step * vTotal
        let cumulativeRest := if vStep < error then error else (vStep + error) / 2
        match normLoop vTotal step scale nbSymbols 0 cumulativeRest cnt2 with
        | none => some NormResult.single
        | some cnt3 => some (NormResult.ok tableLog cnt3)

/-- `FSE_TABLESTEP(tableSize) = (tableSize>>1) + (tableSize>>3) + 3`. -/
def FSE_TABLESTEP (tableSize : Nat) : Nat :=
  tableSize / 2 + tableSize / 8 + 3

/-- The write sequence of the two nested spreading loops of
`FSE_spreadSymbols8`: for `s = 0..nbSymbols-1`, symbol `s` is written
`normalizedCounter[s]` times. -/
def spreadWriteList (N : Nat → Nat) (nbSymbols : Nat) : List Nat :=
  (List.range nbSymbols).flatMap fun s => List.replicate (N s) s

/-- One pass of the spreading writes: each symbol of the list is stored at
`position`, which then advances by `step` masked to the table
(`position = (position + step) & tableMask`). -/
def spreadGo (step tableMask : Nat) :
    List Nat → (Nat → Nat) → Nat → ((Nat → Nat) × Nat)
  | [], tbl, pos => (tbl, pos)
  | s :: rest, tbl, pos =>
    spreadGo step tableMask rest (Function.update tbl pos s)
      ((pos + step) % (tableMask + 1))

/-- `FSE_spreadSymbols8` (the default, non-`SPREADFUNC` build): spreads the
symbols into `tableSymbolByte` (whose prior contents `tbl0` are arbitrary)
and fails with `-1` (`none`) unless the final cursor returned to 0.
`(pos + step) & tableMask` is `(pos + step) % tableSize` since the table size
is a power of two. -/
def FSE_spreadSymbols8 (tbl0 : Nat → Nat) (N : Nat → Nat)
    (nbSymbols tableLog : Nat) : Option (Nat → Nat) :=
  let tableSize := 2 ^ tableLog
  let step := FSE_TABLESTEP tableSize
  let p := spreadGo step (tableSize - 1) (spreadWriteList N nbSymbols) tbl0 0
  if p.2 ≠ 0 then none else some p.1

/-- The `threshold`/`nbBits` degradation loop shared by `FSE_writeHeader` and
`FSE_readHeader`: `while (remaining < threshold) { nbBits--; threshold >>= 1; }`.
When `remaining < 0` the C loop never exits (`threshold` sticks at 0), which
is modelled by `none`; the fuel (callers pass `threshold + 1`, enough for
every halving down to 0) makes the recursion structural. -/
def degrade : Nat → Int → Nat → Nat → Option (Nat × Nat)
  | 0, _, _, _ => none
  | fuel + 1, remaining, threshold, nbBits =>
    if remaining < (threshold : Int) then
      if threshold = 0 then none
      else degrade fuel remaining (threshold / 2) (nbBits - 1)
    else some (threshold, nbBits)

/-- 16-bit spill of the header writer:
`if (bitCount>16) { *(U16*)out = (U16)bitStream; out += 2; bitStream >>= 16;
bitCount -= 16; }` (little-endian byte order). -/
def flush16 (out : List Nat) (bs bc : Nat) : List Nat × Nat × Nat :=
  if 16 < bc then (out ++ [bs % 2 ^ 8, bs / 2 ^ 8 % 2 ^ 8], bs / 2 ^ 16, bc - 16)
  else (out, bs, bc)

/-- Zero-run blocks of 24 in the header writer:
`while (charnum >= start+24) { start+=24; bitStream += 0xFFFF<<bitCount;
*(U16*)out = (U16)bitStream; out+=2; bitStream >>= 16; }`
(`gap` is `charnum - start`; returns the new output, bitstream and gap). -/
def emit24 : Nat → Nat → List Nat → Nat → Nat → List Nat × Nat × Nat
  | 0, _, out, bs, gap => (out, bs, gap)
  | fuel + 1, bc, out, bs, gap =>
    if 24 ≤ gap then
      let bs1 := u32 (bs + u32 (65535 * 2 ^ bc))
      emit24 fuel bc (out ++ [bs1 % 2 ^ 8, bs1 / 2 ^ 8 % 2 ^ 8])
        (bs1 / 2 ^ 16) (gap - 24)
    else (out, bs, gap)

/-- Zero-run blocks of 3 in the header writer:
`while (charnum >= start+3) { start+=3; bitStream += 3<<bitCount;
bitCount += 2; }` (returns bitstream, bit count and remaining gap). -/
def emit3 : Nat → Nat → Nat → Nat → Nat × Nat × Nat
  | 0, bs, bc, gap => (bs, bc, gap)
  | fuel + 1, bs, bc, gap =>
    if 3 ≤ gap then emit3 fuel (u32 (bs + u32 (3 * 2 ^ bc))) (bc + 2) (gap - 3)
    else (bs, bc, gap)

/-- State of the `FSE_writeHeader` main loop. -/
structure WHState where
  out : List Nat
  bs : Nat
  bc : Nat
  charnum : Nat
  prev0 : Bool
  remaining : Int
  threshold : Nat
  nbBits : Nat

/-- One `while (remaining > 0)` iteration body of `FSE_writeHeader`, fueled.
The zero-run scan `while (!normalizedCounter[charnum++]); charnum--;` is the
first index `≥ charnum` holding a nonzero count; if no such index exists
inside the buffer the C code reads out of bounds, modelled as `none`, and
likewise for the count read `normalizedCounter[charnum++]` itself. -/
def writeHLoop (N : List Nat) : Nat → WHState → Option WHState
  | 0, _ => none
  | fuel + 1, st =>
    if st.remaining ≤ 0 then some st
    else
      let z : Option (List Nat × Nat × Nat × Nat) :=
        if st.prev0 then
          match (N.drop st.charnum).findIdx? (fun c => c ≠ 0) with
          | none => none
          | some j =>
            let ch := st.charnum + j
            let e1 := emit24 (ch - st.charnum + 1) st.bc st.out st.bs
              (ch - st.charnum)
            let e2 := emit3 (e1.2.2 + 1) e1.2.1 st.bc e1.2.2
            let bs3 := u32 (e2.1 + u32 (e2.2.2 * 2 ^ e2.2.1))
            let f := flush16 e1.1 bs3 (e2.2.1 + 2)
            some (f.1, f.2.1, f.2.2, ch)
        else some (st.out, st.bs, st.bc, st.charnum)
      match z with
      | none => none
      | some (out1, bs1, bc1, ch) =>
        match N.get? ch with
        | none => none
        | some count =>
          let max : Int := 2 * st.threshold - 1 - st.remaining
          let remaining1 : Int := st.remaining - count
          let emitted : Int :=
            if (st.threshold : Int) ≤ count then count + max else count
          let bs2 := u32 (bs1 + u32 (emitted.toNat * 2 ^ bc1))
          let bc2 := bc1 + st.nbBits - (if emitted < max then 1 else 0)
          match degrade (st.threshold + 1) remaining1 st.threshold
              st.nbBits with
          | none => none
          | some (threshold1, nbBits1) =>
            let f := flush16 out1 bs2 bc2
            writeHLoop N fuel
              { out := f.1, bs := f.2.1, bc := f.2.2, charnum := ch + 1,
                prev0 := decide (emitted = 0), remaining := remaining1,
                threshold := threshold1, nbBits := nbBits1 }

/-- `FSE_writeHeader`.  Returns the output buffer together with the reported
byte length (the final `*(U16*)out` stores two bytes in memory, of which
`(bitCount+7)/8 ∈ {0,1,2}` are counted in the return value; both bytes are
kept in the modelled buffer exactly as in memory).  The loop fuel
`N.length + 2` is always sufficient because every iteration advances
`charnum` by at least one and fails on any read past `N`. -/
def FSE_writeHeader (N : List Nat) (nbSymbols tableLog : Nat) :
    Option (List Nat × Nat) :=
  if FSE_MAX_TABLELOG < tableLog then none
  else if tableLog < FSE_MIN_TABLELOG then none
  else
    let tableSize : Nat := 2 ^ tableLog
    let st0 : WHState :=
      { out := [], bs := 2 + (tableLog - FSE_MIN_TABLELOG) * 2 ^ 2, bc := 6,
        charnum := 0, prev0 := false, remaining := (tableSize : Int),
        threshold := tableSize, nbBits := tableLog + 1 }
    match writeHLoop N (N.length + 2) st0 with
    | none => none
    | some st =>
      if st.remaining < 0 then none
      else if nbSymbols < st.charnum then none
      else
        some (st.out ++ [st.bs % 2 ^ 8, st.bs / 2 ^ 8 % 2 ^ 8],
          st.out.length + (st.bc + 7) / 8)

/-- Zero-run 24-blocks of the header reader:
`while ((bitStream & 0xFFFF) == 0xFFFF) { n0 += 24; ip += 2;
bitStream = (*(U32*)ip) >> bitCount; }`; fueled (on a corrupt stream the C
loop walks off the buffer). Returns `(bitStream, ip, n0)`. -/
def read24s (buf : List Nat) (bc : Nat) :
    Nat → Nat → Nat → Nat → Option (Nat × Nat × Nat)
  | 0, _, _, _ => none
  | fuel + 1, bs, ip, n0 =>
    if bs % 2 ^ 16 = 65535 then
      read24s buf bc fuel (load32 buf (ip + 2) / 2 ^ bc) (ip + 2) (n0 + 24)
    else some (bs, ip, n0)

/-- Zero-run 3-blocks of the header reader:
`while ((bitStream & 3) == 3) { n0 += 3; bitStream >>= 2; bitCount += 2; }`.
Returns `(bitStream, bitCount, n0)`. -/
def read3s : Nat → Nat → Nat → Nat → Nat × Nat × Nat
  | 0, bs, bc, n0 => (bs, bc, n0)
  | fuel + 1, bs, bc, n0 =>
    if bs % 4 = 3 then read3s fuel (bs / 4) (bc + 2) (n0 + 3)
    else (bs, bc, n0)

/-- State of the `FSE_readHeader` main loop: input cursor, bit position,
current 32-bit window, decoded counts so far (`charnum` is their number),
and the shared `remaining`/`threshold`/`nbBits` state machine. -/
structure RHState where
  ip : Nat
  bc : Nat
  bs : Nat
  counts : List Nat
  prev0 : Bool
  remaining : Int
  threshold : Nat
  nbBits : Nat

/-- One `while (remaining > 0)` iteration of `FSE_readHeader`, fueled (the C
loop need not terminate on corrupt streams). -/
def readHLoop (buf : List Nat) : Nat → RHState → Option RHState
  | 0, _ => none
  | fuel + 1, st =>
    if st.remaining ≤ 0 then some st
    else
      let z : Option RHState :=
        if st.prev0 then
          match read24s buf st.bc (buf.length + 2) st.bs st.ip
              st.counts.length with
          | none => none
          | some (bs1, ip1, n0a) =>
            let r3 := read3s 17 bs1 st.bc n0a
            let n0 := r3.2.2 + r3.1 % 4
            let bc2 := r3.2.1 + 2
            let counts1 :=
              st.counts ++ List.replicate (n0 - st.counts.length) 0
            let ip2 := ip1 + bc2 / 8
            let bc3 := bc2 % 8
            some
              { ip := ip2, bc := bc3, bs := load32 buf ip2 / 2 ^ bc3,
                counts := counts1, prev0 := st.prev0,
                remaining := st.remaining, threshold := st.threshold,
                nbBits := st.nbBits }
        else some st
      match z with
      | none => none
      | some st1 =>
        let max : Int := 2 * st1.threshold - 1 - st1.remaining
        let small := ((st1.bs % st1.threshold : Nat) : Int) < max
        let count : Int :=
          if small then (st1.bs % st1.threshold : Nat)
          else
            let c : Int := (st1.bs % (2 * st1.threshold) : Nat)
            if (st1.threshold : Int) ≤ c then c - max else c
        let bc1 := st1.bc + st1.nbBits - (if small then 1 else 0)
        let remaining1 := st1.remaining - count
        let stored := (count.emod (2 ^ 32)).toNat
        match degrade (st1.threshold + 1) remaining1 st1.threshold
            st1.nbBits with
        | none => none
        | some (threshold1, nbBits1) =>
          let ip1 := st1.ip + bc1 / 8
          let bc2 := bc1 % 8
          readHLoop buf fuel
            { ip := ip1, bc := bc2, bs := load32 buf ip1 / 2 ^ bc2,
              counts := st1.counts ++ [stored], prev0 := decide (count = 0),
              remaining := remaining1, threshold := threshold1,
              nbBits := nbBits1 }

/-- `FSE_readHeader`.  Returns `(normalizedCounter contents, tableLog,
consumed bytes)`; `nbSymbols` is the length of the returned list.  `fuel`
bounds the main loop (the C code diverges on some corrupt streams). -/
def FSE_readHeader (buf : List Nat) (fuel : Nat) :
    Option (List Nat × Nat × Nat) :=
  let b0 := load32 buf 0
  let nbBits := b0 / 4 % 2 ^ 4 + FSE_MIN_TABLELOG
  let tableLog := nbBits
  let remaining : Nat := 2 ^ nbBits
  let st0 : RHState :=
    { ip := 0, bc := 6, bs := b0 / 2 ^ 6, counts := [], prev0 := false,
      remaining := (remaining : Int), threshold := remaining,
      nbBits := nbBits + 1 }
  match readHLoop buf fuel st0 with
  | none => none
  | some st =>
    if st.remaining < 0 then none
    else if FSE_MAX_TABLELOG < st.nbBits then none
    else some (st.counts, tableLog, st.ip + (if 0 < st.bc then 1 else 0))

/-- Per-symbol compression transform record (`FSE_symbolCompressionTransform`). -/
structure SymbolTT where
  deltaFindState : Int
  maxState : Nat
  minBitsOut : Nat

/-- The CTable blob `[tableLog u16][nbSymbols u16][nextState u16; 1<<tableLog]
[symbolTT; nbSymbols]`, modelled as a record. -/
structure CTable where
  tableLog : Nat
  nbSymbols : Nat
  stateTable : Nat → Nat
  symbolTT : Nat → SymbolTT

/-- The state-table fill loop of `FSE_buildCTable`:
`for (i=0; i<tableSize; i++) { BYTE s = tableSymbolByte[i];
tableU16[cumul[s]++] = (U16)(tableSize+i); }`. -/
def ctableFill (spreadTbl : Nat → Nat) (tableSize : Nat) :
    Nat → Nat → (Nat → Nat) → (Nat → Nat) → ((Nat → Nat) × (Nat → Nat))
  | 0, _, cumul, tbl => (cumul, tbl)
  | r + 1, i, cumul, tbl =>
    let s := spreadTbl i
    ctableFill spreadTbl tableSize r (i + 1)
      (Function.update cumul s (cumul s + 1))
      (Function.update tbl (cumul s) (u16 (tableSize + i)))

/-- The symbol-transform build loop of `FSE_buildCTable` (threading `total`).
For `N[s] = 0` the record is left untouched (arbitrary stack contents in C,
fixed here as the all-zero record). -/
def symbolTTGo (N : Nat → Nat) (tableLog : Nat) :
    Nat → Nat → Int → (Nat → SymbolTT) → (Nat → SymbolTT)
  | 0, _, _, tt => tt
  | r + 1, s, total, tt =>
    if N s = 0 then symbolTTGo N tableLog r (s + 1) total tt
    else if N s = 1 then
      symbolTTGo N tableLog r (s + 1) (total + 1)
        (Function.update tt s
          { minBitsOut := tableLog, deltaFindState := total - 1,
            maxState := u16 (2 ^ tableLog * 2 - 1) })
    else
      let mbo := tableLog - 1 - FSE_highbit (N s - 1)
      symbolTTGo N tableLog r (s + 1) (total + N s)
        (Function.update tt s
          { minBitsOut := mbo, deltaFindState := total - (N s : Int),
            maxState := u16 (N s * 2 ^ (mbo + 1) - 1) })

/-- The cumulative start positions of `FSE_buildCTable`:
`cumul[0] = 0; for (i=1; i<nbSymbols; i++) cumul[i] = cumul[i-1] + N[i-1];
cumul[nbSymbols] = tableSize + 1;`. -/
def cumulFn (N : Nat → Nat) (nbSymbols tableSize : Nat) : Nat → Nat :=
  fun i =>
    if i = nbSymbols then tableSize + 1
    else (Finset.range i).sum fun t => N t

/-- `FSE_buildCTable`.  The `tableSymbolByte` scratch array starts with
arbitrary stack contents, fixed as zeros here (all table cells used by
reachable states are written by the spread). -/
def FSE_buildCTable (N : Nat → Nat) (nbSymbols tableLog : Nat) :
    Option CTable :=
  let tableSize := 2 ^ tableLog
  match FSE_spreadSymbols8 (fun _ => 0) N nbSymbols tableLog with
  | none => none
  | some spreadTbl =>
    let f := ctableFill spreadTbl tableSize tableSize 0
      (cumulFn N nbSymbols tableSize) (fun _ => 0)
    some
      { tableLog := tableLog, nbSymbols := nbSymbols, stateTable := f.2,
        symbolTT := symbolTTGo N tableLog nbSymbols 0 0
          (fun _ => { minBitsOut := 0, deltaFindState := 0, maxState := 0 }) }

/-- Forward bit container (`bitContainer_forward_t`, declared in fse.h which
is not under src/): accumulator plus bit position. -/
structure BitCfwd where
  bits : Nat
  bitPos : Nat

/-- Modelled from the spec: `FSE_addBits` is declared in fse.h, which is
missing from src/.  Spec 4.7: appends the low `nbBits` of `value` to the
container (shift left by the bit position and OR in). -/
def FSE_addBits (bc : BitCfwd) (value nbBits : Nat) : BitCfwd :=
  { bits := bc.bits ||| value % 2 ^ nbBits * 2 ^ bc.bitPos,
    bitPos := bc.bitPos + nbBits }

/-- Modelled from the spec: `FSE_flushBits` is declared in fse.h, which is
missing from src/.  Spec 4.7: writes the whole bytes of the container to the
output, leaving the residual bits in position.  (The C version stores a full
machine word and advances the pointer by `bitPos/8`; the byte suffix beyond
the flushed prefix is materialized when the stream is closed.) -/
def FSE_flushBits (out : List Nat) (bc : BitCfwd) : List Nat × BitCfwd :=
  let nb := bc.bitPos / 8
  (out ++ (List.range nb).map fun k => bc.bits / 2 ^ (8 * k) % 2 ^ 8,
    { bits := bc.bits / 2 ^ (8 * nb), bitPos := bc.bitPos % 8 })

/-- `FSE_encodeByte`.  `nbBitsOut -= (int)((symbolTT[symbol].maxState -
*state) >> 31)` is the branchless form of adding one bit when
`state > maxState` (signed shift of a negative difference yields `-1`).
A negative state-table index (unreachable for well-formed tables) reads
as index 0. -/
def FSE_encodeByte (state : Nat) (bc : BitCfwd) (symbol : Nat)
    (ct : CTable) : Nat × BitCfwd :=
  let tt := ct.symbolTT symbol
  let nbBitsOut :=
    if tt.maxState < state then tt.minBitsOut + 1 else tt.minBitsOut
  let bc1 := FSE_addBits bc state nbBitsOut
  (ct.stateTable ((state / 2 ^ nbBitsOut + tt.deltaFindState).toNat), bc1)

/-- Little-endian bytes of a 32-bit value. -/
def bytes4 (v : Nat) : List Nat :=
  [v % 2 ^ 8, v / 2 ^ 8 % 2 ^ 8, v / 2 ^ 16 % 2 ^ 8, v / 2 ^ 24 % 2 ^ 8]

/-- `FSE_closeCompressionStream` for the byte codec: flushes the live states
(high state first, `tableLog` bits each, fall-through order 4,3,2,1), rounds
the container up to a byte, and prepends the 32-bit stream descriptor
`(byteLen << 3) | finalBitPos | (nbStates-1) << 30`.  Returns the stream
region bytes (descriptor included) and the C return value (its length). -/
def FSE_closeCompressionStream (out : List Nat) (bc : BitCfwd)
    (nbStates s1 s2 s3 s4 tableLog : Nat) : Option (List Nat × Nat) :=
  let states : Option (List Nat) :=
    match nbStates with
    | 1 => some [s1]
    | 2 => some [s2, s1]
    | 3 => some [s3, s2, s1]
    | 4 => some [s4, s3, s2, s1]
    | _ => none
  match states with
  | none => none
  | some l =>
    let f := l.foldl
      (fun (p : List Nat × BitCfwd) s =>
        FSE_flushBits p.1 (FSE_addBits p.2 s tableLog))
      (out, bc)
    let extra := if 0 < f.2.bitPos then 1 else 0
    let pLen := 4 + f.1.length + extra
    let bitPos := if f.2.bitPos = 0 then 0 else 8 - f.2.bitPos
    let descriptor := u32 (pLen * 8 + bitPos + (nbStates - 1) * 2 ^ 30)
    some (bytes4 descriptor ++ f.1 ++
      (if 0 < f.2.bitPos then [f.2.bits % 2 ^ 8] else []), pLen)

/-- The catch-up phase of `FSE_compress_usingCTable_generic`
(`(sourceSize - nbStreams) % nbSymbolsPerLoop` single-state encodes).
Symbols arrive already reversed (the C code walks `*--ip`). -/
def encCatchup (ct : CTable) :
    Nat → List Nat → List Nat → BitCfwd → Nat →
      (List Nat × List Nat × BitCfwd × Nat)
  | 0, rest, out, bc, s1 => (rest, out, bc, s1)
  | _ + 1, [], out, bc, s1 => ([], out, bc, s1)
  | k + 1, x :: rest, out, bc, s1 =>
    let e := FSE_encodeByte s1 bc x ct
    let f := FSE_flushBits out e.2
    encCatchup ct k rest f.1 f.2 e.1

/-- The two-state hot loop of `FSE_compress_usingCTable_generic` (ILP on,
64-bit `size_t`, so the mid-pair flush is statically compiled out): encode on
state1, encode on state2, flush.  The input list is the remaining source
reversed; after the catch-up phase its length is even (a stray odd element
would make the C loop read below the buffer; it is consumed on state1 here). -/
def encLoop (ct : CTable) :
    List Nat → List Nat → BitCfwd → Nat → Nat →
      (List Nat × BitCfwd × Nat × Nat)
  | [], out, bc, s1, s2 => (out, bc, s1, s2)
  | [x], out, bc, s1, s2 =>
    let e := FSE_encodeByte s1 bc x ct
    let f := FSE_flushBits out e.2
    (f.1, f.2, e.1, s2)
  | x :: y :: rest, out, bc, s1, s2 =>
    let e1 := FSE_encodeByte s1 bc x ct
    let e2 := FSE_encodeByte s2 e1.2 y ct
    let f := FSE_flushBits out e2.2
    encLoop ct rest f.1 f.2 e1.1 e2.1

/-- `FSE_compress_usingCTable` (generic version with `ilp = FSE_ILP = 1`,
hence two interleaved states).  `state1` starts at `tableSize + last byte`,
`state2` at `tableSize + second-to-last byte` (cheap last-symbol storage);
inputs of fewer than two bytes would read below the source buffer (`none`).
Returns the stream region bytes (descriptor included) and the C return
value. -/
def FSE_compress_usingCTable (src : List Nat) (ct : CTable) :
    Option (List Nat × Nat) :=
  match src.reverse with
  | a :: b :: rest =>
    let state0 := 2 ^ ct.tableLog
    let nbCatchup := (src.length - 2) % 2
    let c := encCatchup ct nbCatchup rest [] { bits := 0, bitPos := 0 }
      (state0 + a)
    let e := encLoop ct c.1 c.2.1 c.2.2.1 c.2.2.2 (state0 + b)
    FSE_closeCompressionStream e.1 e.2.1 2 e.2.2.1 e.2.2.2 0 0 ct.tableLog
  | _ => none

/-- `FSE_writeSingleChar`: the 2-byte single-symbol frame. -/
def FSE_writeSingleChar (symbol : Nat) : List Nat × Nat := ([1, symbol], 2)

/-- `FSE_noCompression`: the raw frame (header byte 0, then the source). -/
def FSE_noCompression (src : List Nat) : List Nat × Nat :=
  (0 :: src, src.length + 1)

/-- `FSE_compress2`.  Returns the frame bytes and the reported length.
`fuel` feeds `FSE_normalizeCount` (whose `minBase` loop can diverge).  The
floating-point `stats_block_*` instrumentation globals are skipped.  The
header buffer's two trailing scratch bytes beyond the reported header length
are overwritten by the stream region, as in C where both are written at
`ostart + headerLength`. -/
def FSE_compress2 (fuel : Nat) (src : List Nat)
    (nbSymbols0 tableLog0 : Nat) : Option (List Nat × Nat) :=
  if src.length ≤ 1 then some (FSE_noCompression src)
  else
    let nbSymbols1 :=
      if nbSymbols0 = 0 then FSE_MAX_NB_SYMBOLS_CHAR else nbSymbols0
    let tableLog1 := if tableLog0 = 0 then FSE_MAX_TABLELOG else tableLog0
    match FSE_count src nbSymbols1 with
    | none => none
    | some (n, cnt) =>
      if n = 1 then some (FSE_writeSingleChar (src.headD 0))
      else
        match FSE_normalizeCount fuel tableLog1 cnt src.length n with
        | none => none
        | some NormResult.err => none
        | some NormResult.single => some (FSE_writeSingleChar (src.headD 0))
        | some (NormResult.ok tableLog N) =>
          match FSE_writeHeader ((List.range n).map N) n tableLog with
          | none => none
          | some (hdr, hlen) =>
            match FSE_buildCTable N n tableLog with
            | none => none
            | some ct =>
              match FSE_compress_usingCTable src ct with
              | none => none
              | some (body, blen) =>
                if src.length - 1 ≤ hlen + blen then
                  some (FSE_noCompression src)
                else some (hdr.take hlen ++ body, hlen + blen)

/-- `FSE_compress`: `FSE_compress2` with the default symbol cap and
`tableLog`. -/
def FSE_compress (fuel : Nat) (src : List Nat) : Option (List Nat × Nat) :=
  FSE_compress2 fuel src FSE_MAX_NB_SYMBOLS_CHAR FSE_MAX_TABLELOG

/-- An `FSE_decode_t` entry. -/
structure DecodeT where
  newState : Nat
  symbol : Nat
  nbBits : Nat

/-- Byte of a buffer at a (possibly negative) pointer offset.  The decoder
rewinds its input pointer; C reads whatever memory sits there, modelled as
`0` outside the buffer. -/
def byteAtI (l : List Nat) (i : Int) : Nat :=
  if i < 0 then 0 else l.getD i.toNat 0

/-- Little-endian 32-bit load at a pointer offset. -/
def load32i (l : List Nat) (i : Int) : Nat :=
  byteAtI l i + byteAtI l (i + 1) * 2 ^ 8 + byteAtI l (i + 2) * 2 ^ 16 +
    byteAtI l (i + 3) * 2 ^ 24

/-- The decode-table fill loop of `FSE_buildDTable`: per position `i`,
`nextState = symbolNext[s]++`, `nbBits = tableLog - highbit(nextState)`,
`newState = (U16)((nextState << nbBits) - tableSize)`. -/
def dtableFill (spreadTbl : Nat → Nat) (tableLog : Nat) :
    Nat → Nat → (Nat → Nat) → (Nat → DecodeT) → ((Nat → Nat) × (Nat → DecodeT))
  | 0, _, nextS, tbl => (nextS, tbl)
  | r + 1, i, nextS, tbl =>
    let s := spreadTbl i
    let ns := nextS s
    let nb := tableLog - FSE_highbit ns
    let entry : DecodeT :=
      { newState := (((ns * 2 ^ nb : Int) - 2 ^ tableLog).emod (2 ^ 16)).toNat,
        symbol := s, nbBits := nb }
    dtableFill spreadTbl tableLog r (i + 1) (Function.update nextS s (ns + 1))
      (Function.update tbl i entry)

/-- `FSE_buildDTable`.  The `tableSymbolByte` scratch and the `symbolNext`
entries beyond `nbSymbols` hold arbitrary stack contents, fixed as zeros. -/
def FSE_buildDTable (N : Nat → Nat) (nbSymbols tableLog : Nat) :
    Option (Nat → DecodeT) :=
  if FSE_MAX_NB_SYMBOLS_CHAR < nbSymbols then none
  else if FSE_MAX_TABLELOG < tableLog then none
  else
    match FSE_spreadSymbols8 (fun _ => 0) N nbSymbols tableLog with
    | none => none
    | some spreadTbl =>
      let nextS0 : Nat → Nat := fun s => if s < nbSymbols then N s else 0
      some (dtableFill spreadTbl tableLog (2 ^ tableLog) 0 nextS0
        (fun _ => { newState := 0, symbol := 0, nbBits := 0 })).2

/-- Backward bit container (`bitContainer_backward_t`, declared in fse.h
which is not under src/): 32-bit window plus consumed-bit count. -/
structure BitCbwd where
  bitContainer : Nat
  bitsConsumed : Nat

/-- `FSE_readBits`:
`value = ((bitC->bitContainer << bitC->bitsConsumed) >> 1) >> (31-nbBits);`
(`U32` shift wraps), then `bitsConsumed += nbBits`. -/
def FSE_readBits (bc : BitCbwd) (nbBits : Nat) : Nat × BitCbwd :=
  let value := u32 (bc.bitContainer * 2 ^ bc.bitsConsumed) / 2 / 2 ^ (31 - nbBits)
  (value, { bitContainer := bc.bitContainer, bitsConsumed := bc.bitsConsumed + nbBits })

/-- `FSE_updateBitStream`: rewind the input pointer by the consumed whole
bytes, reload the 32-bit window, keep the residual bit count. -/
def FSE_updateBitStream (buf : List Nat) (bc : BitCbwd) (ip : Int) :
    BitCbwd × Int :=
  let ip1 := ip - (bc.bitsConsumed / 8 : Nat)
  ({ bitContainer := load32i buf ip1, bitsConsumed := bc.bitsConsumed % 8 }, ip1)

/-- `FSE_decodeSymbol`: table lookup, bit read, state transition.  Returns
`(symbol, new state, container)`. -/
def FSE_decodeSymbol (state : Nat) (bc : BitCbwd) (dt : Nat → DecodeT) :
    Nat × Nat × BitCbwd :=
  let e := dt state
  let r := FSE_readBits bc e.nbBits
  (e.symbol, e.newState + r.1, r.2)

/-- `FSE_getNbStates`: top two bits of the stream descriptor, plus one. -/
def FSE_getNbStates (buf : List Nat) (p : Int) : Nat :=
  load32i buf p / 2 ^ 30 + 1

/-- Result of `FSE_initDecompressionStream_generic`: end-of-stream offset,
input cursor, container, state count and the four states. -/
structure DecInit where
  iend : Int
  ip : Int
  bc : BitCbwd
  nbStates : Nat
  s1 : Nat
  s2 : Nat
  s3 : Nat
  s4 : Nat

/-- `FSE_initDecompressionStream_generic`: parse the 32-bit descriptor at
`p`, optionally bounds-check the stream length against `maxCompressedSize`
(safe variant), position the cursor on the last four payload bytes and read
the initial states (`tableLog` bits each, refilling in between).  Unread
states keep the C stack's arbitrary contents, fixed as `0`. -/
def FSE_initDecompressionStream_generic (buf : List Nat) (p : Int)
    (tableLog : Nat) (maxCompressedSize : Nat) (safe : Bool) :
    Option DecInit :=
  let descriptor := load32i buf p
  let nbStates := descriptor / 2 ^ 30 + 1
  let d := descriptor % 2 ^ 30
  let bitsConsumed0 := d % 8
  let dBytes : Nat := d / 8
  let iend : Int := p + (dBytes : Int)
  if safe ∧ (p + maxCompressedSize : Int) < iend then none
  else
    let ip : Int := iend - 4
    let bc0 : BitCbwd :=
      { bitContainer := load32i buf ip, bitsConsumed := bitsConsumed0 }
    let r1 := FSE_readBits bc0 tableLog
    let u1 := FSE_updateBitStream buf r1.2 ip
    let st1 :=
      if 2 ≤ nbStates then
        let r2 := FSE_readBits u1.1 tableLog
        let u2 := FSE_updateBitStream buf r2.2 u1.2
        (u2.1, u2.2, r2.1)
      else (u1.1, u1.2, 0)
    let st2 :=
      if 3 ≤ nbStates then
        let r3 := FSE_readBits st1.1 tableLog
        let u3 := FSE_updateBitStream buf r3.2 st1.2.1
        (u3.1, u3.2, r3.1)
      else (st1.1, st1.2.1, 0)
    let st3 :=
      if 4 ≤ nbStates then
        let r4 := FSE_readBits st2.1 tableLog
        let u4 := FSE_updateBitStream buf r4.2 st2.2.1
        (u4.1, u4.2, r4.1)
      else (st2.1, st2.2.1, 0)
    some
      { iend := iend, ip := st3.2.1, bc := st3.1, nbStates := nbStates,
        s1 := r1.1, s2 := st1.2.2, s3 := st2.2.2, s4 := st3.2.2 }

/-- The decoder hot loop of `FSE_decompressStreams_usingDTable_generic`:
while the output cursor is below `olimit` (and, in safe mode, the input
cursor has not moved below the stream start), decode on state2 (two-state
streams; the mid-pair refill is statically compiled out for
`FSE_MAX_TABLELOG = 12`), then on state1, then refill.  `fuel` dominates the
remaining output count, so it never runs out in reachable states. -/
def decHotLoop (buf : List Nat) (dt : Nat → DecodeT) (safe : Bool)
    (nbStates : Nat) (cStart olimit : Int) :
    Nat → List Nat → Int → Int → BitCbwd → Nat → Nat →
      (List Nat × Int × Int × BitCbwd × Nat × Nat)
  | 0, out, op, ip, bc, s1, s2 => (out, op, ip, bc, s1, s2)
  | fuel + 1, out, op, ip, bc, s1, s2 =>
    if op < olimit ∧ (safe → cStart ≤ ip) then
      let p1 : List Nat × Nat × BitCbwd :=
        if nbStates = 2 then
          let d2 := FSE_decodeSymbol s2 bc dt
          (out ++ [d2.1], d2.2.1, d2.2.2)
        else (out, s2, bc)
      let d1 := FSE_decodeSymbol s1 p1.2.2 dt
      let u := FSE_updateBitStream buf d1.2.2 ip
      decHotLoop buf dt safe nbStates cStart olimit fuel
        (p1.1 ++ [d1.1]) (op + nbStates) u.2 u.1 d1.2.1 p1.2.1
    else (out, op, ip, bc, s1, s2)

/-- The trailing single-state loop of
`FSE_decompressStreams_usingDTable_generic`. -/
def decTailLoop (buf : List Nat) (dt : Nat → DecodeT) (safe : Bool)
    (cStart oend : Int) :
    Nat → List Nat → Int → Int → BitCbwd → Nat →
      (List Nat × Int × Int × BitCbwd × Nat)
  | 0, out, op, ip, bc, s1 => (out, op, ip, bc, s1)
  | fuel + 1, out, op, ip, bc, s1 =>
    if op < oend ∧ (safe → cStart ≤ ip) then
      let d1 := FSE_decodeSymbol s1 bc dt
      let u := FSE_updateBitStream buf d1.2.2 ip
      decTailLoop buf dt safe cStart oend fuel (out ++ [d1.1]) (op + 1) u.2
        u.1 d1.2.1
    else (out, op, ip, bc, s1)

/-- `FSE_decompressStreams_usingDTable_generic`: stream init, the two hot
loops, the cheap trailing-symbol stores, and the final
`ip == compressed && bitsConsumed == 0` consistency check.
`(originalSize - nbStates) % nbStates` is computed on C `int`s; its truncated
remainder is the euclidean one whenever `nbStates ≤ originalSize`, and the
whole quantity is modelled on `Int` with euclidean `%`. -/
def FSE_decompressStreams_usingDTable_generic (origSize : Nat)
    (buf : List Nat) (p : Int) (maxCompressedSize : Nat)
    (dt : Nat → DecodeT) (tableLog : Nat) (safe : Bool) (_nbStates0 : Nat) :
    Option (List Nat × Int) :=
  match FSE_initDecompressionStream_generic buf p tableLog maxCompressedSize
      safe with
  | none => none
  | some ini =>
    let nbStates := ini.nbStates
    let oend : Int := (origSize : Int) - nbStates
    let olimit : Int := oend - ((origSize : Int) - nbStates) % nbStates
    let h := decHotLoop buf dt safe nbStates p olimit (origSize + 1) [] 0
      ini.ip ini.bc ini.s1 ini.s2
    let t := decTailLoop buf dt safe p oend (origSize + 1) h.1 h.2.1 h.2.2.1
      h.2.2.2.1 h.2.2.2.2.1
    let out1 :=
      if 2 ≤ nbStates then t.1 ++ [h.2.2.2.2.2 % 2 ^ 8, t.2.2.2.2 % 2 ^ 8]
      else t.1 ++ [t.2.2.2.2 % 2 ^ 8]
    if t.2.2.1 ≠ p ∨ t.2.2.2.1.bitsConsumed ≠ 0 then none
    else some (out1, ini.iend - p)

/-- `FSE_decompress_usingDTable_generic`: dispatch on the descriptor's state
count; only one- and two-state streams are implemented
(`return -1; // should not happend`). -/
def FSE_decompress_usingDTable_generic (origSize : Nat) (buf : List Nat)
    (p : Int) (maxCompressedSize : Nat) (dt : Nat → DecodeT)
    (tableLog : Nat) (safe : Bool) : Option (List Nat × Int) :=
  let nbStates := FSE_getNbStates buf p
  if nbStates = 2 then
    FSE_decompressStreams_usingDTable_generic origSize buf p
      maxCompressedSize dt tableLog safe 2
  else if nbStates = 1 then
    FSE_decompressStreams_usingDTable_generic origSize buf p
      maxCompressedSize dt tableLog safe 1
  else none

/-- `FSE_decompressRaw`: copy `osize` bytes following the header byte. -/
def FSE_decompressRaw (osize : Nat) (frame : List Nat) : List Nat × Nat :=
  ((List.range osize).map (fun i => frame.getD (1 + i) 0), osize + 1)

/-- `FSE_decompressSingleSymbol`: `memset` of the repeated symbol. -/
def FSE_decompressSingleSymbol (osize : Nat) (symbol : Nat) :
    List Nat × Nat :=
  (List.replicate osize symbol, 2)

/-- `FSE_decompress_generic`: frame-mode dispatch on the first byte, then
header parse, decode-table build and stream decode.  `rhFuel` feeds the
header reader's loop (which the C code cannot bound on corrupt streams).
Returns the produced output and the consumed byte count. -/
def FSE_decompress_generic (origSize : Nat) (frame : List Nat)
    (maxCompressedSize : Nat) (safe : Bool) (rhFuel : Nat) :
    Option (List Nat × Nat) :=
  if safe ∧ maxCompressedSize < 2 then none
  else
    let b0 := frame.getD 0 0
    if b0 = 0 then some (FSE_decompressRaw origSize frame)
    else if b0 = 1 then
      some (FSE_decompressSingleSymbol origSize (frame.getD 1 0))
    else if b0 % 4 ≠ 2 then none
    else
      match FSE_readHeader frame rhFuel with
      | none => none
      | some (counts, tableLog, hlen) =>
        match FSE_buildDTable (fun s => counts.getD s 0) counts.length
            tableLog with
        | none => none
        | some dt =>
          match FSE_decompress_usingDTable_generic origSize frame hlen
              maxCompressedSize dt tableLog safe with
          | none => none
          | some (out, consumed) => some (out, hlen + consumed.toNat)

/-- `FSE_decompress` (unsafe variant: `maxCompressedSize = 0`, no checks). -/
def FSE_decompress (origSize : Nat) (frame : List Nat) (rhFuel : Nat) :
    Option (List Nat × Nat) :=
  FSE_decompress_generic origSize frame 0 false rhFuel

/-- `FSE_decompress_safe`. -/
def FSE_decompress_safe (origSize : Nat) (frame : List Nat)
    (maxCompressedSize rhFuel : Nat) : Option (List Nat × Nat) :=
  FSE_decompress_generic origSize frame maxCompressedSize true rhFuel

/-- A 33-byte input over 32 distinct symbol values (bytes 0..31, with byte 0
repeated once): the input on which `FSE_compress2` with `tableLog = 5`
never terminates. -/
def C1src : List Nat := List.range 32 ++ [0]

/-- The raw-count buffer `FSE_count` produces for `C1src` with the default
symbol cap. -/
def C1cnt : Nat → Nat :=
  fun s => if s < 256 then C1src.count s else 0

/-- The count vector `[1029125, 6, 963704]` on which normalization starves
symbol 1 (raw count 6) down to weight 0. -/
def C2cnt : Nat → Nat := fun s => [1029125, 6, 963704].getD s 0

/-- Little-endian numeric value of a byte buffer: the whole buffer viewed
as one natural number, byte `j` carrying binary weight `2^(8j)`. -/
def bytesVal : List Nat → Nat
  | [] => 0
  | b :: rest => b + 256 * bytesVal rest

/-- Numeric value of everything the header writer has produced so far: the
flushed bytes plus the pending `bitStream` on top of them. -/
def totalVal (st : WHState) : Nat :=
  bytesVal st.out + st.bs * 2 ^ (8 * st.out.length)

/-- Total number of bits the header writer has produced so far (flushed
bytes plus the pending `bitCount` bits). -/
def totalBits (st : WHState) : Nat := 8 * st.out.length + st.bc

/-- Structural invariant of the `FSE_writeHeader` loop state on a
normalized-count vector `N` summing to `2^L`. -/
structure InvW (N : List Nat) (L : Nat) (st : WHState) : Prop where
  hbs : st.bs < 2 ^ st.bc
  hbc : st.bc ≤ 16
  hout : ∀ b ∈ st.out, b < 256
  hch : st.charnum ≤ N.length
  hrem : st.remaining = (2 ^ L : Int) - ((N.take st.charnum).sum : Int)
  hthr : 1 ≤ st.remaining → 2 * st.threshold = 2 ^ st.nbBits ∧
    (st.threshold : Int) ≤ st.remaining ∧
    st.remaining ≤ 2 * (st.threshold : Int) - 1
  hnb : st.nbBits ≤ L + 1
  hzero : st.remaining ≤ 0 → st.threshold = 0 ∧ st.nbBits = 0

/-- The header-reader state that corresponds to a writer state: same
decoded count prefix, same `remaining`/`threshold`/`nbBits` machine, same
total bit position, and a valid 32-bit window into the final buffer `B`. -/
structure MatchWR (N B : List Nat) (w : WHState) (r : RHState) : Prop where
  hcounts : r.counts = N.take w.charnum
  hprev : r.prev0 = w.prev0
  hrem : r.remaining = w.remaining
  hthr : r.threshold = w.threshold
  hnb : r.nbBits = w.nbBits
  hpos : 8 * r.ip + r.bc = totalBits w
  hbc : r.bc < 8
  hbs : r.bs = load32 B r.ip / 2 ^ r.bc

/-!  ## Theorems  -/

/-- C10: calling compress with `sourceSize = 0` does not return an error: it
returns 1 and writes the single header byte `0x00` (an empty raw-mode
frame), via the `sourceSize <= 1` early-out into `FSE_noCompression`,
whatever the symbol cap, `tableLog` and normalization fuel. -/
theorem C10_compress_empty (fuel nbSymbols0 tableLog0 : Nat) :
    FSE_compress2 fuel [] nbSymbols0 tableLog0 = some ([0], 1) := rfl

/-- C9: when the 32-bit stream descriptor's top-two-bit state-count field
encodes `nbStates - 1 ∈ {2, 3}` (3 or 4 interleaved states), the decode
dispatch returns the error `-1` (`none`, no output), even though the
descriptor format and `FSE_initDecompressionStream_generic` admit up to 4
states. -/
theorem C9_three_four_states_error (origSize : Nat) (buf : List Nat)
    (p : Int) (maxCS : Nat) (dt : Nat → DecodeT) (tableLog : Nat)
    (safe : Bool)
    (h : load32i buf p / 2 ^ 30 = 2 ∨ load32i buf p / 2 ^ 30 = 3) :
    FSE_decompress_usingDTable_generic origSize buf p maxCS dt tableLog
      safe = none := by
  unfold FSE_decompress_usingDTable_generic FSE_getNbStates
  rcases h with h | h <;> rw [h] <;> rfl

/-- Witness for C9 at a concrete 4-byte descriptor `0xC0000000`
(state-count field 3, i.e. 4 states). -/
theorem C9_witness :
    (load32i [0, 0, 0, 192] 0 / 2 ^ 30 = 2 ∨
      load32i [0, 0, 0, 192] 0 / 2 ^ 30 = 3) ∧
    FSE_decompress_usingDTable_generic 5 [0, 0, 0, 192] 0 0
      (fun _ => { newState := 0, symbol := 0, nbBits := 0 }) 5 false = none :=
  ⟨Or.inr (by decide),
    C9_three_four_states_error 5 [0, 0, 0, 192] 0 0
      (fun _ => { newState := 0, symbol := 0, nbBits := 0 }) 5 false
      (Or.inr (by decide))⟩

/-- C2 (code bug): on the in-place call
`FSE_normalizeCount(C, 6, C, 1992835, 3)` with raw counts
`C = [1029125, 6, 963704]` (total `1992835 = sum C`), normalization returns
`tableLog 6` and the weights `[33, 0, 31]`: the sum is `64 = 2^6` as claimed,
but symbol 1, whose raw count 6 is positive, receives normalized weight 0,
contradicting the claim (and the source comment "Ensure minimum step is 1"). -/
theorem C2_zero_weight :
    C2cnt 0 + C2cnt 1 + C2cnt 2 = 1992835 ∧ 0 < C2cnt 1 ∧
    normLog? (FSE_normalizeCount 20 6 C2cnt 1992835 3) = some 6 ∧
    normN? (FSE_normalizeCount 20 6 C2cnt 1992835 3) 0 = some 33 ∧
    normN? (FSE_normalizeCount 20 6 C2cnt 1992835 3) 1 = some 0 ∧
    normN? (FSE_normalizeCount 20 6 C2cnt 1992835 3) 2 = some 31 := by
  refine ⟨by decide, by decide, ?_, ?_, ?_, ?_⟩ <;> decide

set_option maxHeartbeats 4000000 in
/-- C5 (code bug): `compress([0x00, 0x01])` produces the raw frame
`F = [0x00, 0x00, 0x01]` (the encoded candidate is larger than
`sourceSize - 1`, so the raw fallback triggers), yet `decompress_safe` on the
truncation `F[0..2)` with `maxCompressedSize = 2` does not return an error:
the raw-mode branch performs no bound check at all, reads one byte past the
bound and returns 3. -/
theorem C5_truncation_not_detected :
    FSE_compress 1 [0, 1] = some ([0, 0, 1], 3) ∧
    ∀ rhFuel, FSE_decompress_safe 2 (List.take 2 [0, 0, 1]) 2 rhFuel =
      some ([0, 0], 3) :=
  ⟨by decide, fun _ => rfl⟩

set_option maxHeartbeats 4000000 in
set_option maxRecDepth 100000 in
/-- C8: compressing 1000 bytes all equal to `0x41` returns 2 and writes the
single-symbol frame `[0x01, 0x41]` (the count pass finds 66 symbol slots, and
normalization hits its single-symbol early return), and decompressing that
frame with `originalSize = 1000` reproduces the input; independent of the
normalization and header-reader fuels. -/
theorem C8_single_symbol_frame (fuel rhFuel : Nat) :
    FSE_compress fuel (List.replicate 1000 65) = some ([1, 65], 2) ∧
    FSE_decompress 1000 [1, 65] rhFuel = some (List.replicate 1000 65, 2) := by
  constructor
  · have hcnt : (fun s => (List.replicate 1000 65).count s) =
        fun s => if (65 == s) = true then 1000 else 0 := by
      funext s
      exact List.count_replicate s 65 1000
    unfold FSE_compress FSE_compress2 FSE_count
    rw [hcnt]
    rfl
  · rfl

/-- The `minBase` refinement loop of `FSE_normalizeCount` never terminates
when `nbSymbols = 32 = 2 ^ tableLog` and `add = 33`:
`add = (33 * 32) >> 5 = 33` is a fixed point, so the result is `none` for
every fuel (the C loop runs forever). -/
theorem C1_minBase_diverges (fuel mb : Nat) :
    minBaseLoop 32 5 fuel mb 33 = none := by
  induction fuel generalizing mb with
  | zero => rfl
  | succ n ih =>
    have ha : u32 (33 * 32) / 2 ^ 5 = 33 := by decide
    simp only [minBaseLoop, ha]
    exact ih (u32 (mb + 33))

/-- `FSE_normalizeCount` diverges on the counts of `C1src` with
`total = 33`, `nbSymbols = 32`, `tableLog = 5`. -/
theorem C1_norm_diverges (fuel : Nat) :
    FSE_normalizeCount fuel 5 C1cnt 33 32 = none := by
  unfold FSE_normalizeCount
  norm_num [adjustTableLog, FSE_highbit, u32pred, u32, highbitAux,
    FSE_MIN_TABLELOG, FSE_MAX_TABLELOG, FSE_VIRTUAL_LOG]
  rw [C1_minBase_diverges]

/-- C1 (code bug): for the 33-byte input `C1src` (32 distinct byte values)
and the supported `tableLog = 5`, `FSE_compress2` never returns: its
normalization step loops forever, for every fuel, so
`decompress(compress(B)) = B` fails for this buffer. -/
theorem C1_compress_diverges (fuel : Nat) :
    FSE_compress2 fuel C1src 0 5 = none := by
  have hl : C1src.length = 33 := by decide
  have hc : FSE_count C1src FSE_MAX_NB_SYMBOLS_CHAR = some (32, C1cnt) := rfl
  unfold FSE_compress2
  rw [hl]
  norm_num
  rw [hc]
  norm_num
  rw [C1_norm_diverges]

/-- `highbitAux` upper characterization: `v < 2 ^ (highbitAux fuel v + 1)`
whenever `v < 2 ^ fuel`. -/
theorem highbitAux_lt {fuel v : Nat} (h : v < 2 ^ fuel) :
    v < 2 ^ (highbitAux fuel v + 1) := by
  induction fuel generalizing v with
  | zero =>
    interval_cases v
    decide
  | succ n ih =>
    show v < 2 ^ ((if v < 2 then 0 else highbitAux n (v / 2) + 1) + 1)
    split
    · omega
    · have h2 : v / 2 < 2 ^ n := by
        have := Nat.pow_succ 2 n
        omega
      have := ih h2
      have : v / 2 + 1 ≤ 2 ^ (highbitAux n (v / 2) + 1) := this
      calc v < 2 * (v / 2) + 2 := by omega
        _ ≤ 2 * 2 ^ (highbitAux n (v / 2) + 1) := by omega
        _ = 2 ^ (highbitAux n (v / 2) + 1 + 1) := by ring
  
/-- The final clamp of `adjustTableLog` never goes below the minimum. -/
theorem min_le_clamp (x : Nat) :
    FSE_MIN_TABLELOG ≤ if x < FSE_MIN_TABLELOG then FSE_MIN_TABLELOG else x := by
  split <;> omega

/-- The adjusted `tableLog` is at least `FSE_MIN_TABLELOG`. -/
theorem adjustTableLog_ge_min (t0 total n : Nat) :
    FSE_MIN_TABLELOG ≤ adjustTableLog t0 total n := by
  simp only [adjustTableLog]
  exact min_le_clamp _

/-- Every symbol value stays representable: `nbSymbols ≤ 2 ^ tableLog` after
the adjustment, for `2 ≤ nbSymbols < 2^31` (the C `int` range). -/
theorem le_pow_adjustTableLog (t0 total n : Nat) (h2 : 2 ≤ n)
    (hn : n < 2 ^ 31) : n ≤ 2 ^ adjustTableLog t0 total n := by
  have hu32 : u32 n = n := Nat.mod_eq_of_lt (by
    have : (2:Nat) ^ 31 < 2 ^ 32 := by norm_num
    omega)
  have hu32p : u32 (n - 1) = n - 1 := Nat.mod_eq_of_lt (by
    have : (2:Nat) ^ 31 < 2 ^ 32 := by norm_num
    omega)
  have hb1 : n - 1 < 2 ^ (FSE_highbit (n - 1) + 1) := by
    unfold FSE_highbit
    rw [hu32p]
    exact highbitAux_lt (by
      have : (2:Nat) ^ 31 < 2 ^ 32 := by norm_num
      omega)
  have hb2 : n < 2 ^ (FSE_highbit n + 1) := by
    unfold FSE_highbit
    rw [hu32]
    exact highbitAux_lt (by
      have : (2:Nat) ^ 31 < 2 ^ 32 := by norm_num
      omega)
  simp only [adjustTableLog]
  set t1 := if t0 = 0 then FSE_MAX_TABLELOG else t0 with ht1
  set hbT := FSE_highbit (u32pred total) + 1 with hbt
  set t2 := if hbT < t1 then hbT else t1 with ht2
  set t3 := if t2 < FSE_highbit n + 1 then FSE_highbit (n - 1) + 1 else t2
    with ht3
  have hkey : n ≤ 2 ^ t3 := by
    rw [ht3]
    by_cases hc : t2 < FSE_highbit n + 1
    · rw [if_pos hc]
      omega
    · rw [if_neg hc]
      push_neg at hc
      have : (2:Nat) ^ (FSE_highbit n + 1) ≤ 2 ^ t2 :=
        Nat.pow_le_pow_right (by norm_num) hc
      omega
  by_cases h5 : t3 < FSE_MIN_TABLELOG
  · rw [if_pos h5]
    have : (2:Nat) ^ t3 ≤ 2 ^ FSE_MIN_TABLELOG :=
      Nat.pow_le_pow_right (by norm_num) (by omega)
    omega
  · rw [if_neg h5]
    exact hkey

/-- C7: whenever `FSE_normalizeCount` returns a `tableLog` value `L > 0`
(neither the error `-1` nor the single-symbol `0`), `L` lies in
`[FSE_MIN_TABLELOG, FSE_MAX_TABLELOG] = [5, 12]` and satisfies
`L ≥ ceil(log2 nbSymbols)` (`Nat.clog 2`), for every count vector, total,
hint (including the auto hint 0), fuel, and `2 ≤ nbSymbols < 2^31` (the C
`int` range of the `nbSymbols` argument). -/
theorem C7_tableLog_bounds (fuel t0 : Nat) (cnt : Nat → Nat)
    (total n : Nat) (h2 : 2 ≤ n) (hn : n < 2 ^ 31) (L : Nat) (N : Nat → Nat)
    (h : FSE_normalizeCount fuel t0 cnt total n = some (NormResult.ok L N)) :
    FSE_MIN_TABLELOG ≤ L ∧ L ≤ FSE_MAX_TABLELOG ∧ Nat.clog 2 n ≤ L := by
  simp only [FSE_normalizeCount] at h
  have hL : L = adjustTableLog t0 total n ∧
      ¬ (FSE_MAX_TABLELOG < adjustTableLog t0 total n) := by
    split at h
    · cases h
    · refine ⟨?_, by assumption⟩
      split at h
      · cases h
      · split at h
        · cases h
        · split at h
          · cases h
          · cases h
            rfl
  obtain ⟨hLeq, hle⟩ := hL
  subst hLeq
  refine ⟨adjustTableLog_ge_min t0 total n, by omega, ?_⟩
  exact (Nat.le_pow_iff_clog_le (by norm_num)).mp
    (le_pow_adjustTableLog t0 total n h2 hn)

/-- Witness for C7 at `fuel = 1`, hint `0`, counts `[1, 1]`, `total = 2`,
`nbSymbols = 2` (normalization returns `tableLog = 5`). -/
theorem C7_witness :
    FSE_MIN_TABLELOG ≤ 5 ∧ 5 ≤ FSE_MAX_TABLELOG ∧ Nat.clog 2 2 ≤ 5 :=
  C7_tableLog_bounds 1 0 (fun s => [1, 1].getD s 0) 2 2 (by norm_num)
    (by norm_num) 5 _ rfl

/-- Characterization of the `FSE_count` trimming loop: as long as some entry
below the cap is nonzero, it returns one past the largest nonzero index. -/
theorem countTrim_spec (c : Nat → Nat) :
    ∀ m, (∃ i, i < m ∧ c i ≠ 0) →
      ∃ n, countTrim c m = some n ∧ 0 < n ∧ n ≤ m ∧ c (n - 1) ≠ 0 ∧
        ∀ j, n ≤ j → j < m → c j = 0 := by
  intro m
  induction m with
  | zero =>
    rintro ⟨i, hi, -⟩
    omega
  | succ m ih =>
    rintro ⟨i, hi, hc⟩
    by_cases hm : c m = 0
    · have hex : ∃ i, i < m ∧ c i ≠ 0 := by
        refine ⟨i, ?_, hc⟩
        rcases Nat.lt_succ_iff_lt_or_eq.mp hi with h | h
        · exact h
        · subst h; exact absurd hm hc
      obtain ⟨n, h1, h2, h3, h4, h5⟩ := ih hex
      refine ⟨n, ?_, h2, by omega, h4, ?_⟩
      · simp only [countTrim, hm, if_pos]
        exact h1
      · intro j hj hjm
        rcases Nat.lt_succ_iff_lt_or_eq.mp hjm with h | h
        · exact h5 j hj h
        · subst h; exact hm
    · exact ⟨m + 1, by simp only [countTrim, hm, if_neg]; rfl, by omega,
        le_refl _, by simpa using hm, by omega⟩

/-- C6 (amended): for a nonempty input, a cap at most 256, and at least one
input byte below the effective cap (`0` selects the default cap 256),
`FSE_count` succeeds, fills the count buffer with the per-symbol occurrence
frequencies below the cap, and returns `nbSymbols'` = one past the largest
symbol with positive frequency (trailing zeros trimmed); it errors on
`srcSize = 0` or a cap above 256. -/
theorem C6_count_spec :
    (∀ cap : Nat, FSE_count [] cap = none) ∧
    (∀ (src : List Nat) (cap : Nat), FSE_MAX_NB_SYMBOLS_CHAR < cap →
      FSE_count src cap = none) ∧
    ∀ (src : List Nat) (cap : Nat),
      cap ≤ FSE_MAX_NB_SYMBOLS_CHAR → src ≠ [] →
      (∃ b ∈ src, b < (if cap = 0 then FSE_MAX_NB_SYMBOLS_CHAR else cap)) →
      ∃ n cnt, FSE_count src cap = some (n, cnt) ∧ 0 < n ∧
        n ≤ (if cap = 0 then FSE_MAX_NB_SYMBOLS_CHAR else cap) ∧
        (∀ s, s < (if cap = 0 then FSE_MAX_NB_SYMBOLS_CHAR else cap) →
          cnt s = src.count s) ∧
        0 < cnt (n - 1) ∧ (∀ j, n ≤ j → cnt j = 0) := by
  refine ⟨?_, ?_, ?_⟩
  · intro cap
    simp only [FSE_count]
    by_cases h : FSE_MAX_NB_SYMBOLS_CHAR < cap
    · rw [if_pos h]
    · rw [if_neg h, if_pos (show ([] : List Nat).length = 0 from rfl)]
  · intro src cap h
    simp only [FSE_count]
    rw [if_pos h]
  intro src cap hcap hne hsome
  obtain ⟨b, hb, hblt⟩ := hsome
  have hex : ∃ i, i < (if cap = 0 then FSE_MAX_NB_SYMBOLS_CHAR else cap) ∧
      (fun s => src.count s) i ≠ 0 := by
    refine ⟨b, hblt, ?_⟩
    have hpos := List.count_pos_iff.mpr hb
    show src.count b ≠ 0
    omega
  obtain ⟨n, h1, h2, h3, h4, h5⟩ :=
    countTrim_spec (fun s => src.count s)
      (if cap = 0 then FSE_MAX_NB_SYMBOLS_CHAR else cap) hex
  refine ⟨n, fun s =>
    if s < (if cap = 0 then FSE_MAX_NB_SYMBOLS_CHAR else cap) then
      src.count s else 0, ?_, h2, h3, ?_, ?_, ?_⟩
  · simp only [FSE_count, if_neg (by omega : ¬ FSE_MAX_NB_SYMBOLS_CHAR < cap),
      if_neg (by simpa [List.length_eq_zero] using hne :
        ¬ src.length = 0)]
    rw [h1]
  · intro s hs
    exact if_pos hs
  · show 0 < if n - 1 < (if cap = 0 then FSE_MAX_NB_SYMBOLS_CHAR else cap)
      then src.count (n - 1) else 0
    rw [if_pos (by omega)]
    have h4b : src.count (n - 1) ≠ 0 := h4
    omega
  · intro j hj
    show (if j < (if cap = 0 then FSE_MAX_NB_SYMBOLS_CHAR else cap)
      then src.count j else 0) = 0
    by_cases hjm : j < (if cap = 0 then FSE_MAX_NB_SYMBOLS_CHAR else cap)
    · rw [if_pos hjm]
      exact h5 j hj hjm
    · exact if_neg hjm

/-- Witness for C6 (amended): the error cases at `srcSize = 0` (cap 8) and
cap 300, and the success case at `src = [3, 3, 7]`, cap 8, where the count
fills `[0,0,0,2,0,0,0,1]` and nbSymbols' = 8. -/
theorem C6_witness :
    FSE_count [] 8 = none ∧
    FSE_count [3, 3, 7] 300 = none ∧
    (∃ n cnt, FSE_count [3, 3, 7] 8 = some (n, cnt) ∧ 0 < n ∧
      n ≤ (if (8:Nat) = 0 then FSE_MAX_NB_SYMBOLS_CHAR else 8) ∧
      (∀ s, s < (if (8:Nat) = 0 then FSE_MAX_NB_SYMBOLS_CHAR else 8) →
        cnt s = [3, 3, 7].count s) ∧
      0 < cnt (n - 1) ∧ (∀ j, n ≤ j → cnt j = 0)) :=
  ⟨C6_count_spec.1 8,
    C6_count_spec.2.1 [3, 3, 7] 300 (by norm_num [FSE_MAX_NB_SYMBOLS_CHAR]),
    C6_count_spec.2.2 [3, 3, 7] 8 (by norm_num [FSE_MAX_NB_SYMBOLS_CHAR])
      (by simp) ⟨3, by simp, by norm_num⟩⟩

/-- C6 counterexample: on input `[1, 1, 2]` with cap 4 the code returns
`nbSymbols' = 3`, but `C[2 - 1] = count of symbol 1 = 2 > 0`, so the
*smallest* `nbSymbols'` with `C[nbSymbols' - 1] > 0` is 2, not 3: the claim's
"smallest" characterization of the trimmed return value is wrong (the code
returns the largest such value). -/
theorem C6_counterexample :
    (FSE_count [1, 1, 2] 4).map Prod.fst = some 3 ∧
    0 < [1, 1, 2].count (2 - 1) ∧ (2 : Nat) < 3 :=
  ⟨rfl, by decide, by decide⟩

/-- List-range sum agrees with the `Finset.range` sum. -/
theorem sum_map_range (f : Nat → Nat) (n : Nat) :
    ((List.range n).map f).sum = ∑ s ∈ Finset.range n, f s := by
  induction n with
  | zero => rfl
  | succ m ih =>
    rw [List.range_succ, List.map_append, List.sum_append,
      Finset.sum_range_succ, ih]
    simp

/-- The spread write sequence has one entry per unit of normalized count. -/
theorem spreadWriteList_length (N : Nat → Nat) (n : Nat) :
    (spreadWriteList N n).length = ∑ s ∈ Finset.range n, N s := by
  unfold spreadWriteList
  rw [List.length_flatMap]
  rw [← sum_map_range (fun s => N s) n]
  congr 1
  apply List.map_congr_left
  intro s _
  simp

/-- The spread cursor after writing `l` starting from `p < T` sits at
`(p + |l| * step) mod T` (with `T = mask + 1`). -/
theorem spreadGo_snd (step mask : Nat) (l : List Nat) :
    ∀ (tbl : Nat → Nat) (p : Nat), p < mask + 1 →
      (spreadGo step mask l tbl p).2 = (p + l.length * step) % (mask + 1) := by
  induction l with
  | nil =>
    intro tbl p hp
    simp [spreadGo, Nat.mod_eq_of_lt hp]
  | cons s l ih =>
    intro tbl p hp
    show (spreadGo step mask l (Function.update tbl p s)
      ((p + step) % (mask + 1))).2 = _
    rw [ih _ _ (Nat.mod_lt _ (by omega))]
    rw [Nat.mod_add_mod, List.length_cons]
    congr 1
    ring

/-- Shift of a write position: starting one step later renumbers the write
indices by one. -/
theorem pos_shift (step mask p j : Nat) :
    ((p + step) % (mask + 1) + j * step) % (mask + 1) =
      (p + (j + 1) * step) % (mask + 1) := by
  rw [Nat.mod_add_mod]
  congr 1
  ring

/-- Frame property of the spreading writes: a cell touched by none of the
write positions keeps its previous contents. -/
theorem spreadGo_untouched (step mask : Nat) (l : List Nat) :
    ∀ (tbl : Nat → Nat) (p q : Nat), p < mask + 1 →
      (∀ j, j < l.length → (p + j * step) % (mask + 1) ≠ q) →
      (spreadGo step mask l tbl p).1 q = tbl q := by
  induction l with
  | nil => intro tbl p q _ _; rfl
  | cons s l ih =>
    intro tbl p q hp hq
    show (spreadGo step mask l (Function.update tbl p s)
      ((p + step) % (mask + 1))).1 q = tbl q
    have hstep : ∀ j, j < l.length →
        ((p + step) % (mask + 1) + j * step) % (mask + 1) ≠ q := by
      intro j hj
      rw [pos_shift]
      exact hq (j + 1) (by simp [List.length_cons]; omega)
    rw [ih _ _ _ (Nat.mod_lt _ (by omega)) hstep]
    have hq0 : p ≠ q := by
      have h0 := hq 0 (by simp)
      simpa [Nat.mod_eq_of_lt hp] using h0
    exact Function.update_noteq (fun he => hq0 he.symm) s tbl

/-- Value written at position `i` of the write sequence: if the later write
positions avoid it, the final table holds the `i`-th element there. -/
theorem spreadGo_written (step mask : Nat) (l : List Nat) :
    ∀ (tbl : Nat → Nat) (p i : Nat), p < mask + 1 → i < l.length →
      (∀ j, j < l.length → j ≠ i →
        (p + j * step) % (mask + 1) ≠ (p + i * step) % (mask + 1)) →
      (spreadGo step mask l tbl p).1 ((p + i * step) % (mask + 1)) =
        l.getD i 0 := by
  induction l with
  | nil =>
    intro tbl p i _ hi _
    simp at hi
  | cons s l ih =>
    intro tbl p i hp hi hdist
    show (spreadGo step mask l (Function.update tbl p s)
      ((p + step) % (mask + 1))).1 _ = _
    match i with
    | 0 =>
      have hpos : (p + 0 * step) % (mask + 1) = p := by
        simp [Nat.mod_eq_of_lt hp]
      rw [hpos]
      have hmiss : ∀ j, j < l.length →
          ((p + step) % (mask + 1) + j * step) % (mask + 1) ≠ p := by
        intro j hj
        rw [pos_shift]
        have := hdist (j + 1) (by simp [List.length_cons]; omega)
          (by omega)
        rw [hpos] at this
        exact this
      rw [spreadGo_untouched step mask l _ _ _ (Nat.mod_lt _ (by omega))
        hmiss]
      simp
    | i' + 1 =>
      have hsh : (p + (i' + 1) * step) % (mask + 1) =
          ((p + step) % (mask + 1) + i' * step) % (mask + 1) :=
        (pos_shift step mask p i').symm
      rw [hsh]
      rw [ih _ _ _ (Nat.mod_lt _ (by omega))
        (by simpa [List.length_cons] using hi) ?dist]
      case dist =>
        intro j hj hne
        rw [pos_shift, pos_shift]
        exact hdist (j + 1) (by simp [List.length_cons]; omega) (by omega)
      rfl

/-- The spread step `(T>>1) + (T>>3) + 3` is odd for table sizes `2^L`,
`L ≥ 4`. -/
theorem FSE_TABLESTEP_odd (L : Nat) (h : 4 ≤ L) :
    FSE_TABLESTEP (2 ^ L) % 2 = 1 := by
  unfold FSE_TABLESTEP
  have h1 : 2 ^ L / 2 = 2 ^ (L - 1) := by
    have e := Nat.pow_div (show 1 ≤ L by omega) (show 0 < 2 by norm_num)
    norm_num at e
    exact e
  have h2 : 2 ^ L / 8 = 2 ^ (L - 3) := by
    have e := Nat.pow_div (show 3 ≤ L by omega) (show 0 < 2 by norm_num)
    norm_num at e
    exact e
  have h3 : (2:Nat) ^ (L - 1) = 2 * 2 ^ (L - 2) := by
    rw [← pow_succ' 2 (L - 2)]
    congr 1
    omega
  have h4 : (2:Nat) ^ (L - 3) = 2 * 2 ^ (L - 4) := by
    rw [← pow_succ' 2 (L - 4)]
    congr 1
    omega
  omega

/-- The spread step is coprime with the power-of-two table size
(the modular walk is a bijection). -/
theorem FSE_TABLESTEP_coprime (L : Nat) (h : 4 ≤ L) :
    Nat.Coprime (2 ^ L) (FSE_TABLESTEP (2 ^ L)) := by
  have hodd := FSE_TABLESTEP_odd L h
  exact Nat.Coprime.pow_left L
    ((Nat.Prime.coprime_iff_not_dvd Nat.prime_two).mpr (by omega))

/-- Injectivity of the write-position map `j ↦ (j * step) mod 2^L`. -/
theorem posMap_inj (L : Nat) (h4 : 4 ≤ L) {i j : Nat} (hi : i < 2 ^ L)
    (hj : j < 2 ^ L)
    (he : i * FSE_TABLESTEP (2 ^ L) % 2 ^ L =
      j * FSE_TABLESTEP (2 ^ L) % 2 ^ L) : i = j := by
  have hco : Nat.gcd (2 ^ L) (FSE_TABLESTEP (2 ^ L)) = 1 :=
    FSE_TABLESTEP_coprime L h4
  have hmod : i ≡ j [MOD 2 ^ L] :=
    Nat.ModEq.cancel_right_of_coprime hco he
  simpa [Nat.ModEq, Nat.mod_eq_of_lt hi, Nat.mod_eq_of_lt hj] using hmod

/-- Counting list entries equal to `s` through index filtering. -/
theorem card_filter_getD (l : List Nat) (s : Nat) :
    ((Finset.range l.length).filter fun j => l.getD j 0 = s).card =
      l.count s := by
  induction l using List.reverseRecOn with
  | nil => simp
  | append_singleton l a ih =>
    rw [List.length_append, List.length_singleton, Finset.range_succ,
      Finset.filter_insert]
    have hA : (l ++ [a]).getD l.length 0 = a := by
      rw [List.getD_append_right l [a] 0 l.length (le_refl _)]
      simp
    have hsame : ((Finset.range l.length).filter
        fun j => (l ++ [a]).getD j 0 = s) =
        (Finset.range l.length).filter fun j => l.getD j 0 = s := by
      apply Finset.filter_congr
      intro j hj
      rw [List.getD_append l [a] 0 j (Finset.mem_range.mp hj)]
    by_cases ha : a = s
    · rw [if_pos (by rw [hA]; exact ha)]
      rw [Finset.card_insert_of_not_mem (by simp), hsame, ih,
        List.count_append]
      simp [ha]
    · rw [if_neg (by rw [hA]; exact ha), hsame, ih, List.count_append]
      simp [List.count_cons, ha]

/-- Every entry of the write sequence is a symbol below `nbSymbols`. -/
theorem spreadWriteList_mem_lt (N : Nat → Nat) (n x : Nat)
    (hx : x ∈ spreadWriteList N n) : x < n := by
  unfold spreadWriteList at hx
  obtain ⟨a, ha, hxa⟩ := List.mem_flatMap.mp hx
  rw [List.eq_of_mem_replicate hxa]
  exact List.mem_range.mp ha

/-- The write sequence contains symbol `s < nbSymbols` exactly `N s` times. -/
theorem count_spreadWriteList (N : Nat → Nat) (n s : Nat) (hs : s < n) :
    (spreadWriteList N n).count s = N s := by
  induction n with
  | zero => omega
  | succ m ih =>
    have hsplit : spreadWriteList N (m + 1) =
        spreadWriteList N m ++ List.replicate (N m) m := by
      unfold spreadWriteList
      rw [List.range_succ, List.flatMap_append]
      simp
    rw [hsplit, List.count_append]
    rcases Nat.lt_succ_iff_lt_or_eq.mp hs with h | h
    · rw [ih h, List.count_replicate]
      have : (m == s) = false := by
        simp only [beq_eq_false_iff_ne, ne_eq]
        omega
      rw [this]
      simp
    · subst h
      have hz : (spreadWriteList N s).count s = 0 := by
        rw [List.count_eq_zero]
        intro hmem
        exact absurd (spreadWriteList_mem_lt N s s hmem) (lt_irrefl s)
      rw [hz, List.count_replicate]
      simp

/-- C4: for every normalized-count vector summing to `2^tableLog` with
`tableLog` in the valid range, `FSE_spreadSymbols8` succeeds (no invalid-input
report), the write cursor (advanced by `(T>>1)+(T>>3)+3` mod `T` at each of
the `T` writes) finishes back at position 0, and each symbol `s < nbSymbols`
occupies exactly `N s` cells of the produced table, whatever junk `tbl0` the
scratch array held. -/
theorem C4_spread_spec (tbl0 N : Nat → Nat) (n L : Nat)
    (h5 : FSE_MIN_TABLELOG ≤ L) (_h12 : L ≤ FSE_MAX_TABLELOG)
    (hsum : ∑ s ∈ Finset.range n, N s = 2 ^ L) :
    ∃ tbl, FSE_spreadSymbols8 tbl0 N n L = some tbl ∧
      (spreadGo (FSE_TABLESTEP (2 ^ L)) (2 ^ L - 1) (spreadWriteList N n)
        tbl0 0).2 = 0 ∧
      ∀ s, s < n →
        ((Finset.range (2 ^ L)).filter fun p => tbl p = s).card = N s := by
  have hL4 : 4 ≤ L := by
    have : FSE_MIN_TABLELOG = 5 := rfl
    omega
  have hT : 0 < 2 ^ L := Nat.pos_pow_of_pos L (by norm_num)
  have hmask : 2 ^ L - 1 + 1 = 2 ^ L := by omega
  have hlen : (spreadWriteList N n).length = 2 ^ L := by
    rw [spreadWriteList_length, hsum]
  set step := FSE_TABLESTEP (2 ^ L) with hstep
  set l := spreadWriteList N n with hl
  have hpos : (spreadGo step (2 ^ L - 1) l tbl0 0).2 = 0 := by
    rw [spreadGo_snd step (2 ^ L - 1) l tbl0 0 (by omega), hmask, hlen]
    simp [Nat.mul_mod_right]
  refine ⟨(spreadGo step (2 ^ L - 1) l tbl0 0).1, ?_, hpos, ?_⟩
  · simp only [FSE_spreadSymbols8]
    rw [← hstep, ← hl]
    rw [if_neg (by rw [hpos]; exact fun h => h rfl)]
  · intro s hs
    set tbl := (spreadGo step (2 ^ L - 1) l tbl0 0).1 with htbl
    have hwritten : ∀ i, i < 2 ^ L →
        tbl (i * step % 2 ^ L) = l.getD i 0 := by
      intro i hi
      have := spreadGo_written step (2 ^ L - 1) l tbl0 0 i (by omega)
        (by omega) ?dist
      case dist =>
        intro j hj hne
        rw [hmask]
        simp only [Nat.zero_add]
        intro he
        exact hne (posMap_inj L hL4 (by omega) hi he)
      rw [hmask] at this
      simpa using this
    have himage : (Finset.range (2 ^ L)).image
        (fun j => j * step % 2 ^ L) = Finset.range (2 ^ L) := by
      apply Finset.eq_of_subset_of_card_le
      · intro x hx
        obtain ⟨j, hj, hjx⟩ := Finset.mem_image.mp hx
        rw [← hjx]
        exact Finset.mem_range.mpr (Nat.mod_lt _ hT)
      · rw [Finset.card_image_of_injOn]
        intro a ha b hb he
        exact posMap_inj L hL4 (Finset.mem_range.mp ha)
          (Finset.mem_range.mp hb) he
    have hinj : Set.InjOn (fun j => j * step % 2 ^ L)
        ↑(Finset.range (2 ^ L)) := by
      intro a ha b hb he
      exact posMap_inj L hL4 (by simpa using ha) (by simpa using hb) he
    have hcard : ((Finset.range (2 ^ L)).filter fun p => tbl p = s).card =
        ((Finset.range (2 ^ L)).filter fun j => l.getD j 0 = s).card := by
      conv_lhs => rw [← himage]
      rw [Finset.filter_image]
      rw [Finset.card_image_of_injOn
        (hinj.mono (Finset.coe_subset.mpr (Finset.filter_subset _ _)))]
      congr 1
      apply Finset.filter_congr
      intro j hj
      rw [hwritten j (Finset.mem_range.mp hj)]
    rw [hcard]
    rw [← hlen, card_filter_getD]
    exact count_spreadWriteList N n s hs

/-- Witness for C4 at `N = [16, 16]`, `nbSymbols = 2`, `tableLog = 5`
(a junk-filled scratch table of zeros). -/
theorem C4_witness :
    ∃ tbl, FSE_spreadSymbols8 (fun _ => 0)
        (fun s => if s < 2 then 16 else 0) 2 5 = some tbl ∧
      (spreadGo (FSE_TABLESTEP (2 ^ 5)) (2 ^ 5 - 1)
        (spreadWriteList (fun s => if s < 2 then 16 else 0) 2)
        (fun _ => 0) 0).2 = 0 ∧
      ∀ s, s < 2 → ((Finset.range (2 ^ 5)).filter
        fun p => tbl p = s).card = (fun s => if s < 2 then 16 else 0) s :=
  C4_spread_spec (fun _ => 0) (fun s => if s < 2 then 16 else 0) 2 5
    (by norm_num [FSE_MIN_TABLELOG]) (by norm_num [FSE_MAX_TABLELOG])
    (by decide)



/-! ### Buffer-value arithmetic -/

theorem bytesVal_append (xs ys : List Nat) :
    bytesVal (xs ++ ys) = bytesVal xs + bytesVal ys * 2 ^ (8 * xs.length) := by
  induction xs with
  | nil => simp [bytesVal]
  | cons b rest ih =>
    show b + 256 * bytesVal (rest ++ ys) =
      b + 256 * bytesVal rest + bytesVal ys * 2 ^ (8 * (rest.length + 1))
    rw [ih, show 8 * (rest.length + 1) = 8 * rest.length + 8 by ring, pow_add]
    ring

theorem bytesVal_lt (xs : List Nat) (h : ∀ b ∈ xs, b < 256) :
    bytesVal xs < 2 ^ (8 * xs.length) := by
  induction xs with
  | nil => simp [bytesVal]
  | cons b rest ih =>
    have hb : b < 256 := h b (by simp)
    have hr : bytesVal rest < 2 ^ (8 * rest.length) :=
      ih (fun x hx => h x (by simp [hx]))
    show b + 256 * bytesVal rest < 2 ^ (8 * (rest.length + 1))
    calc b + 256 * bytesVal rest < 256 * (bytesVal rest + 1) := by omega
      _ ≤ 256 * 2 ^ (8 * rest.length) := by
          exact Nat.mul_le_mul_left 256 hr
      _ = 2 ^ (8 * (rest.length + 1)) := by
          rw [show 8 * (rest.length + 1) = 8 * rest.length + 8 by ring, pow_add]
          ring

theorem totalVal_lt (st : WHState) (hout : ∀ b ∈ st.out, b < 256)
    (hbs : st.bs < 2 ^ st.bc) : totalVal st < 2 ^ totalBits st := by
  unfold totalVal totalBits
  rw [pow_add]
  have h1 := bytesVal_lt st.out hout
  calc bytesVal st.out + st.bs * 2 ^ (8 * st.out.length)
      < 2 ^ (8 * st.out.length) + st.bs * 2 ^ (8 * st.out.length) := by omega
    _ = (st.bs + 1) * 2 ^ (8 * st.out.length) := by ring
    _ ≤ 2 ^ st.bc * 2 ^ (8 * st.out.length) := Nat.mul_le_mul_right _ hbs
    _ = 2 ^ (8 * st.out.length) * 2 ^ st.bc := by ring

theorem getD_tail (B : List Nat) (i : Nat) :
    B.getD (i + 1) 0 = B.tail.getD i 0 := by
  cases B <;> simp

theorem bytesVal_tail (B : List Nat) (h : ∀ b ∈ B, b < 256) :
    bytesVal B / 256 = bytesVal B.tail := by
  match B with
  | [] => rfl
  | b :: rest =>
    have hb : b < 256 := h b (by simp)
    show (b + 256 * bytesVal rest) / 256 = bytesVal rest
    omega

theorem load32_tail (B : List Nat) (i : Nat) :
    load32 B (i + 1) = load32 B.tail i := by
  show B.getD (i + 1) 0 + B.getD (i + 1 + 1) 0 * 2 ^ 8 +
      B.getD (i + 1 + 2) 0 * 2 ^ 16 + B.getD (i + 1 + 3) 0 * 2 ^ 24 = _
  rw [show i + 1 + 1 = (i + 1) + 1 from rfl, show i + 1 + 2 = (i + 2) + 1 by
    omega, show i + 1 + 3 = (i + 3) + 1 by omega,
    getD_tail B i, getD_tail B (i + 1), getD_tail B (i + 2), getD_tail B (i + 3)]
  rfl

theorem load32_eq (B : List Nat) (h : ∀ b ∈ B, b < 256) (ip : Nat) :
    load32 B ip = bytesVal B / 2 ^ (8 * ip) % 2 ^ 32 := by
  induction ip generalizing B with
  | zero =>
    show load32 B 0 = bytesVal B / 1 % 2 ^ 32
    rw [Nat.div_one]
    match B with
    | [] => rfl
    | [a] =>
      have := h a (by simp)
      show a + 0 * 256 + 0 * 65536 + 0 * 16777216 = (a + 256 * 0) % 4294967296
      omega
    | [a, b] =>
      have := h a (by simp)
      have := h b (by simp)
      show a + b * 256 + 0 * 65536 + 0 * 16777216 =
        (a + 256 * (b + 256 * 0)) % 4294967296
      omega
    | [a, b, c] =>
      have := h a (by simp)
      have := h b (by simp)
      have := h c (by simp)
      show a + b * 256 + c * 65536 + 0 * 16777216 =
        (a + 256 * (b + 256 * (c + 256 * 0))) % 4294967296
      omega
    | a :: b :: c :: d :: rest =>
      have := h a (by simp)
      have := h b (by simp)
      have := h c (by simp)
      have := h d (by simp)
      show a + b * 256 + c * 65536 + d * 16777216 =
        (a + 256 * (b + 256 * (c + 256 * (d + 256 * bytesVal rest)))) %
          4294967296
      omega
  | succ n ih =>
    have htail : ∀ b ∈ B.tail, b < 256 := by
      intro b hb
      exact h b (List.mem_of_mem_tail hb)
    rw [load32_tail B n, ih B.tail htail]
    rw [show 8 * (n + 1) = 8 + 8 * n by ring, pow_add,
      ← Nat.div_div_eq_div_mul, show (2 : Nat) ^ 8 = 256 from rfl,
      bytesVal_tail B h]

theorem div_pow_mod_pow (x a b : Nat) (h : b ≤ a) :
    x % 2 ^ a / 2 ^ b = x / 2 ^ b % 2 ^ (a - b) := by
  have e : (2 : Nat) ^ a = 2 ^ b * 2 ^ (a - b) := by
    rw [← pow_add]
    congr 1
    omega
  rw [e, Nat.mod_mul_right_div_self]

theorem window_eq (B : List Nat) (h : ∀ b ∈ B, b < 256) (ip bc : Nat)
    (hbc : bc ≤ 32) :
    load32 B ip / 2 ^ bc = bytesVal B / 2 ^ (8 * ip + bc) % 2 ^ (32 - bc) := by
  rw [load32_eq B h ip, div_pow_mod_pow _ 32 bc hbc,
    Nat.div_div_eq_div_mul, ← pow_add]

theorem window_mod (B : List Nat) (h : ∀ b ∈ B, b < 256) (ip bc k : Nat)
    (hbc : bc ≤ 32) (hk : k ≤ 32 - bc) :
    load32 B ip / 2 ^ bc % 2 ^ k = bytesVal B / 2 ^ (8 * ip + bc) % 2 ^ k := by
  rw [window_eq B h ip bc hbc, Nat.mod_mod_of_dvd _ (pow_dvd_pow 2 hk)]

theorem add_mul_div_pow (a b n : Nat) (ha : a < 2 ^ n) :
    (a + b * 2 ^ n) / 2 ^ n = b := by
  rw [Nat.add_mul_div_right _ _ (Nat.pos_of_ne_zero (by positivity)),
    Nat.div_eq_of_lt ha, Nat.zero_add]

theorem add_mul_mod_pow (a b n : Nat) (ha : a < 2 ^ n) :
    (a + b * 2 ^ n) % 2 ^ n = a := by
  rw [Nat.add_mul_mod_self_right, Nat.mod_eq_of_lt ha]

/-! ### Header-writer building blocks -/

theorem bytesVal_pair (a b : Nat) : bytesVal [a, b] = a + 256 * b := by
  simp [bytesVal]

theorem flush16_spec (out : List Nat) (bs bc : Nat)
    (hbs : bs < 2 ^ bc) (hbc : bc ≤ 32) (hout : ∀ b ∈ out, b < 256) :
    (∀ b ∈ (flush16 out bs bc).1, b < 256) ∧
    (flush16 out bs bc).2.1 < 2 ^ (flush16 out bs bc).2.2 ∧
    (flush16 out bs bc).2.2 ≤ 16 ∧
    bytesVal (flush16 out bs bc).1 +
        (flush16 out bs bc).2.1 * 2 ^ (8 * (flush16 out bs bc).1.length) =
      bytesVal out + bs * 2 ^ (8 * out.length) ∧
    8 * (flush16 out bs bc).1.length + (flush16 out bs bc).2.2 =
      8 * out.length + bc ∧
    out.length ≤ (flush16 out bs bc).1.length := by
  unfold flush16
  split
  case isTrue h16 =>
    dsimp only
    have hY : (2 : Nat) ^ bc ≤ 4294967296 := by
      calc (2 : Nat) ^ bc ≤ 2 ^ 32 := Nat.pow_le_pow_right (by norm_num) hbc
        _ = 4294967296 := by norm_num
    have hpow : (2 : Nat) ^ bc = 65536 * 2 ^ (bc - 16) := by
      rw [show bc = 16 + (bc - 16) by omega, pow_add]
      norm_num
    refine ⟨?_, ?_, by omega, ?_, by simp; omega, by simp⟩
    · intro b hb
      simp only [List.mem_append, List.mem_cons] at hb
      rcases hb with h | h | h | h
      · exact hout b h
      · omega
      · omega
      · cases h
    · show bs / 2 ^ 16 < 2 ^ (bc - 16)
      rw [Nat.div_lt_iff_lt_mul (by norm_num)]
      calc bs < 2 ^ bc := hbs
        _ = 2 ^ (bc - 16) * 2 ^ 16 := by
            rw [← pow_add]
            congr 1
            omega
    · show bytesVal (out ++ [bs % 2 ^ 8, bs / 2 ^ 8 % 2 ^ 8]) +
          bs / 2 ^ 16 * 2 ^ (8 * (out ++ [bs % 2 ^ 8, bs / 2 ^ 8 % 2 ^ 8]).length) =
        bytesVal out + bs * 2 ^ (8 * out.length)
      rw [bytesVal_append, bytesVal_pair]
      simp only [List.length_append, List.length_cons, List.length_nil]
      rw [show 8 * (out.length + (0 + 1 + 1)) = 8 * out.length + 16 by ring,
        pow_add, show (2 : Nat) ^ 16 = 65536 by norm_num]
      have hsplit : bs % 2 ^ 8 + 256 * (bs / 2 ^ 8 % 2 ^ 8) + 65536 * (bs / 2 ^ 16) = bs := by
        omega
      set X := (2 : Nat) ^ (8 * out.length) with hX
      calc bytesVal out + (bs % 2 ^ 8 + 256 * (bs / 2 ^ 8 % 2 ^ 8)) * X +
            bs / 2 ^ 16 * (X * 65536)
          = bytesVal out +
            (bs % 2 ^ 8 + 256 * (bs / 2 ^ 8 % 2 ^ 8) + 65536 * (bs / 2 ^ 16)) * X := by
            ring
        _ = bytesVal out + bs * X := by rw [hsplit]
  case isFalse h16 =>
    dsimp only
    exact ⟨hout, hbs, by omega, rfl, rfl, le_refl _⟩

theorem emit24_step (f bc : Nat) (out : List Nat) (bs gap : Nat)
    (h : 24 ≤ gap) :
    emit24 (f + 1) bc out bs gap =
      emit24 f bc
        (out ++ [u32 (bs + u32 (65535 * 2 ^ bc)) % 2 ^ 8,
          u32 (bs + u32 (65535 * 2 ^ bc)) / 2 ^ 8 % 2 ^ 8])
        (u32 (bs + u32 (65535 * 2 ^ bc)) / 2 ^ 16) (gap - 24) := by
  simp only [emit24]
  rw [if_pos h]

theorem emit24_spec : ∀ (q fuel bc : Nat) (out : List Nat) (bs gap : Nat),
    gap / 24 = q →
    gap < fuel → bs < 2 ^ bc → bc ≤ 16 → (∀ b ∈ out, b < 256) →
    ∃ out' bs', emit24 fuel bc out bs gap = (out', bs', gap % 24) ∧
      (∀ b ∈ out', b < 256) ∧ bs' < 2 ^ bc ∧
      out'.length = out.length + 2 * q ∧
      bytesVal out' + bs' * 2 ^ (8 * out'.length) +
          2 ^ bc * 2 ^ (8 * out.length) =
        bytesVal out + bs * 2 ^ (8 * out.length) +
          2 ^ (16 * q) * (2 ^ bc * 2 ^ (8 * out.length)) := by
  intro q
  induction q with
  | zero =>
    intro fuel bc out bs gap h24 hf hbs hbc hout
    have hg : gap < 24 := by omega
    match fuel, hf with
    | f + 1, _ =>
      refine ⟨out, bs, ?_, hout, hbs, by omega, ?_⟩
      · simp only [emit24]
        rw [if_neg (by omega), Nat.mod_eq_of_lt hg]
      · rw [show 16 * 0 = 0 by ring, pow_zero, one_mul]
  | succ q ih =>
    intro fuel bc out bs gap h24 hf hbs hbc hout
    have hg : 24 ≤ gap := by omega
    have hYle : (2 : Nat) ^ bc ≤ 65536 := by
      calc (2 : Nat) ^ bc ≤ 2 ^ 16 := Nat.pow_le_pow_right (by norm_num) hbc
        _ = 65536 := by norm_num
    have hu1 : u32 (65535 * 2 ^ bc) = 65535 * 2 ^ bc := by
      unfold u32
      rw [Nat.mod_eq_of_lt]
      rw [show (2 : Nat) ^ 32 = 4294967296 by norm_num]
      omega
    have hu2 : u32 (bs + 65535 * 2 ^ bc) = bs + 65535 * 2 ^ bc := by
      unfold u32
      rw [Nat.mod_eq_of_lt]
      rw [show (2 : Nat) ^ 32 = 4294967296 by norm_num]
      omega
    match fuel, hf with
    | f + 1, _ =>
      rw [emit24_step f bc out bs gap hg, hu1, hu2]
      set bs1 := bs + 65535 * 2 ^ bc with hbs1def
      have hbs1lt : bs1 < 65536 * 2 ^ bc := by omega
      have hnb : bs1 / 2 ^ 16 < 2 ^ bc := by
        rw [Nat.div_lt_iff_lt_mul (by norm_num)]
        rw [show (2 : Nat) ^ 16 = 65536 by norm_num]
        omega
      have hob : ∀ b ∈ out ++ [bs1 % 2 ^ 8, bs1 / 2 ^ 8 % 2 ^ 8], b < 256 := by
        intro b hb
        simp only [List.mem_append, List.mem_cons] at hb
        rcases hb with h | h | h | h
        · exact hout b h
        · omega
        · omega
        · cases h
      obtain ⟨out', bs', heq, hout', hbs', hlen, hval⟩ :=
        ih f bc (out ++ [bs1 % 2 ^ 8, bs1 / 2 ^ 8 % 2 ^ 8]) (bs1 / 2 ^ 16)
          (gap - 24) (by omega) (by omega) hnb hbc hob
      refine ⟨out', bs', ?_, hout', hbs', ?_, ?_⟩
      · rw [heq, show (gap - 24) % 24 = gap % 24 by omega]
      · simp only [List.length_append, List.length_cons, List.length_nil] at hlen
        omega
      · have hlen2 : (out ++ [bs1 % 2 ^ 8, bs1 / 2 ^ 8 % 2 ^ 8]).length =
            out.length + 2 := by simp
        rw [hlen2] at hval
        rw [bytesVal_append, bytesVal_pair] at hval
        rw [show 8 * (out.length + 2) = 8 * out.length + 16 by ring, pow_add,
          show (2 : Nat) ^ 16 = 65536 by norm_num] at hval
        rw [show 16 * (q + 1) = 16 * q + 16 by ring, pow_add,
          show (2 : Nat) ^ 16 = 65536 by norm_num]
        set X := (2 : Nat) ^ (8 * out.length) with hX
        set Y := (2 : Nat) ^ bc with hY
        have hsplit : bs1 % 2 ^ 8 + 256 * (bs1 / 2 ^ 8 % 2 ^ 8) +
            65536 * (bs1 / 65536) = bs1 := by omega
        have hkey : (bs1 % 2 ^ 8 + 256 * (bs1 / 2 ^ 8 % 2 ^ 8)) * X +
            bs1 / 65536 * (X * 65536) = bs * X + 65535 * (Y * X) := by
          calc (bs1 % 2 ^ 8 + 256 * (bs1 / 2 ^ 8 % 2 ^ 8)) * X +
              bs1 / 65536 * (X * 65536)
              = (bs1 % 2 ^ 8 + 256 * (bs1 / 2 ^ 8 % 2 ^ 8) +
                65536 * (bs1 / 65536)) * X := by ring
            _ = bs1 * X := by rw [hsplit]
            _ = bs * X + 65535 * (Y * X) := by rw [hbs1def]; ring
        zify at hval hkey ⊢
        linear_combination hval + hkey

theorem emit3_spec : ∀ (q fuel bs bc gap : Nat), gap / 3 = q →
    gap < fuel → bs < 2 ^ bc → bc + 2 * q ≤ 32 →
    ∃ bs', emit3 fuel bs bc gap = (bs', bc + 2 * q, gap % 3) ∧
      bs' < 2 ^ (bc + 2 * q) ∧ bs' + 2 ^ bc = bs + 2 ^ (2 * q) * 2 ^ bc := by
  intro q
  induction q with
  | zero =>
    intro fuel bs bc gap h3 hf hbs hle
    have hg : gap < 3 := by omega
    match fuel, hf with
    | f + 1, _ =>
      refine ⟨bs, ?_, by simpa using hbs, by norm_num⟩
      simp only [emit3]
      rw [if_neg (by omega), Nat.mod_eq_of_lt hg]
      norm_num
  | succ q ih =>
    intro fuel bs bc gap h3 hf hbs hle
    have hg : 3 ≤ gap := by omega
    have hYle : (2 : Nat) ^ bc ≤ 1073741824 := by
      calc (2 : Nat) ^ bc ≤ 2 ^ 30 :=
            Nat.pow_le_pow_right (by norm_num) (by omega)
        _ = 1073741824 := by norm_num
    have hu1 : u32 (3 * 2 ^ bc) = 3 * 2 ^ bc := by
      unfold u32
      rw [Nat.mod_eq_of_lt]
      rw [show (2 : Nat) ^ 32 = 4294967296 by norm_num]
      omega
    have hu2 : u32 (bs + 3 * 2 ^ bc) = bs + 3 * 2 ^ bc := by
      unfold u32
      rw [Nat.mod_eq_of_lt]
      rw [show (2 : Nat) ^ 32 = 4294967296 by norm_num]
      omega
    have hbs1 : bs + 3 * 2 ^ bc < 2 ^ (bc + 2) := by
      rw [pow_add]
      have : (2 : Nat) ^ 2 = 4 := by norm_num
      rw [this]
      omega
    match fuel, hf with
    | f + 1, _ =>
      have hstep : emit3 (f + 1) bs bc gap =
          emit3 f (bs + 3 * 2 ^ bc) (bc + 2) (gap - 3) := by
        simp only [emit3]
        rw [if_pos hg, hu1, hu2]
      obtain ⟨bs', heq, hlt, hval⟩ := ih f (bs + 3 * 2 ^ bc) (bc + 2)
        (gap - 3) (by omega) (by omega) hbs1 (by omega)
      refine ⟨bs', ?_, ?_, ?_⟩
      · rw [hstep, heq, show (gap - 3) % 3 = gap % 3 by omega,
          show bc + 2 + 2 * q = bc + 2 * (q + 1) by ring]
      · rw [show bc + 2 * (q + 1) = bc + 2 + 2 * q by ring]
        exact hlt
      · zify at hval ⊢
        linear_combination hval

/-! ### The shared threshold state machine -/

theorem degrade_zero : ∀ (fuel thr nb : Nat), thr < fuel → 2 * thr = 2 ^ nb →
    degrade fuel (0 : Int) thr nb = some (0, 0) := by
  intro fuel
  induction fuel with
  | zero =>
    intro thr nb h _
    omega
  | succ f ih =>
    intro thr nb hf h2
    have hp : 0 < 2 ^ nb := pow_pos (by norm_num) nb
    have hthr : 1 ≤ thr := by omega
    simp only [degrade]
    rw [if_pos (by exact_mod_cast hthr), if_neg (by omega)]
    rcases Nat.lt_or_ge thr 2 with h1 | h2'
    · have ht1 : thr = 1 := by omega
      have hnb1 : nb = 1 := by
        match nb with
        | 0 => simp at h2
        | 1 => rfl
        | n + 2 =>
          exfalso
          have : 4 ≤ 2 ^ (n + 2) := by
            calc (4 : Nat) = 2 ^ 2 := by norm_num
              _ ≤ 2 ^ (n + 2) := Nat.pow_le_pow_right (by norm_num) (by omega)
          omega
      subst ht1 hnb1
      show degrade f 0 0 0 = some (0, 0)
      match f, (by omega : 1 ≤ f) with
      | g + 1, _ =>
        simp only [degrade]
        rw [if_neg (by norm_num)]
    · have hnb2 : 2 ≤ nb := by
        by_contra h
        push_neg at h
        interval_cases nb <;> omega
      have hthr_eq : thr = 2 ^ (nb - 1) := by
        rw [show nb = (nb - 1) + 1 by omega, pow_succ] at h2
        omega
      have hev : thr = 2 * 2 ^ (nb - 2) := by
        rw [hthr_eq, show nb - 1 = (nb - 2) + 1 by omega, pow_succ]
        ring
      have h2'' : 2 * (thr / 2) = 2 ^ (nb - 1) := by
        rw [show nb - 1 = (nb - 2) + 1 by omega, pow_succ]
        omega
      exact ih (thr / 2) (nb - 1) (by omega) h2''

theorem degrade_pos : ∀ (fuel thr nb : Nat) (r : Int), thr < fuel →
    2 * thr = 2 ^ nb → 1 ≤ r → r ≤ 2 * (thr : Int) - 1 →
    ∃ t' n', degrade fuel r thr nb = some (t', n') ∧
      2 * t' = 2 ^ n' ∧ (t' : Int) ≤ r ∧ r ≤ 2 * (t' : Int) - 1 ∧
      n' ≤ nb ∧ 1 ≤ t' := by
  intro fuel
  induction fuel with
  | zero =>
    intro thr nb r h _ _ _
    omega
  | succ f ih =>
    intro thr nb r hf h2 hr1 hr2
    have hp : 0 < 2 ^ nb := pow_pos (by norm_num) nb
    have hthr : 1 ≤ thr := by omega
    simp only [degrade]
    by_cases hc : r < (thr : Int)
    · rw [if_pos hc, if_neg (by omega)]
      have hthr2 : 2 ≤ thr := by
        by_contra h
        push_neg at h
        have : thr = 1 := by omega
        subst this
        simp at hc
        omega
      have hnb2 : 2 ≤ nb := by
        by_contra h
        push_neg at h
        interval_cases nb <;> omega
      have hev : thr = 2 * 2 ^ (nb - 2) := by
        have hthr_eq : thr = 2 ^ (nb - 1) := by
          rw [show nb = (nb - 1) + 1 by omega, pow_succ] at h2
          omega
        rw [hthr_eq, show nb - 1 = (nb - 2) + 1 by omega, pow_succ]
        ring
      have h2'' : 2 * (thr / 2) = 2 ^ (nb - 1) := by
        rw [show nb - 1 = (nb - 2) + 1 by omega, pow_succ]
        omega
      have hr2' : r ≤ 2 * ((thr / 2 : Nat) : Int) - 1 := by
        have hnn : 2 * (thr / 2) = thr := by omega
        have hcast : (2 : Int) * ((thr / 2 : Nat) : Int) = (thr : Int) := by
          exact_mod_cast hnn
        omega
      obtain ⟨t', n', heq, ha, hb, hc', hd, he⟩ :=
        ih (thr / 2) (nb - 1) r (by omega) h2'' hr1 hr2'
      exact ⟨t', n', heq, ha, hb, hc', by omega, he⟩
    · rw [if_neg hc]
      exact ⟨thr, nb, rfl, h2, by omega, hr2, le_refl _, hthr⟩

/-! ### List scanning helpers -/

theorem findIdx?_acc (p : Nat → Bool) : ∀ (l : List Nat) (s j : Nat),
    List.findIdx? p l s = some j →
    ∃ g, j = s + g ∧ g < l.length ∧ p (l.getD g 0) = true ∧
      ∀ i, i < g → p (l.getD i 0) = false := by
  intro l
  induction l with
  | nil =>
    intro s j h
    rw [List.findIdx?_nil] at h
    cases h
  | cons a as ih =>
    intro s j h
    rw [List.findIdx?_cons] at h
    by_cases hp : p a = true
    · rw [if_pos hp] at h
      cases h
      exact ⟨0, by omega, by simp, hp, fun i hi => by omega⟩
    · rw [if_neg hp] at h
      obtain ⟨g, hjg, hg, hpg, hall⟩ := ih (s + 1) j h
      refine ⟨g + 1, by omega, by simp; omega, hpg, ?_⟩
      intro i hi
      match i with
      | 0 =>
        show p a = false
        exact Bool.not_eq_true _ ▸ (by simpa using hp)
      | i + 1 =>
        exact hall i (by omega)

theorem findIdx?_isSome (p : Nat → Bool) : ∀ (l : List Nat) (s : Nat),
    (∃ x ∈ l, p x = true) → ∃ j, List.findIdx? p l s = some j := by
  intro l
  induction l with
  | nil =>
    intro s h
    obtain ⟨x, hx, _⟩ := h
    cases hx
  | cons a as ih =>
    intro s h
    rw [List.findIdx?_cons]
    by_cases hp : p a = true
    · rw [if_pos hp]
      exact ⟨s, rfl⟩
    · rw [if_neg hp]
      obtain ⟨x, hx, hpx⟩ := h
      rcases List.mem_cons.mp hx with rfl | hx2
      · exact absurd hpx hp
      · exact ih (s + 1) ⟨x, hx2, hpx⟩

theorem sum_nonzero_mem (l : List Nat) (h : l.sum ≠ 0) :
    ∃ x ∈ l, (x ≠ 0 : Bool) = true := by
  by_contra hc
  push_neg at hc
  apply h
  apply List.sum_eq_zero
  intro x hx
  have := hc x hx
  simpa using this

/-! ### Bit-field extraction from the buffer value -/

theorem bits_decomp (V tb zb k T Z e : Nat)
    (hmod : V % 2 ^ (tb + zb + k) = T + Z * 2 ^ tb + e * 2 ^ (tb + zb))
    (hT : T < 2 ^ tb) (hZ : Z < 2 ^ zb) (he : e < 2 ^ k) :
    V % 2 ^ tb = T ∧ V / 2 ^ tb % 2 ^ zb = Z ∧
    V / 2 ^ (tb + zb) % 2 ^ k = e ∧
    V / 2 ^ tb % 2 ^ (zb + k) = Z + e * 2 ^ zb := by
  have hsplit : V % 2 ^ (tb + zb + k) + 2 ^ (tb + zb + k) * (V / 2 ^ (tb + zb + k)) = V :=
    Nat.mod_add_div V _
  set R := V / 2 ^ (tb + zb + k) with hR
  have hV : V = T + (Z + e * 2 ^ zb + 2 ^ (zb + k) * R) * 2 ^ tb := by
    rw [← hsplit, hmod, show tb + zb + k = tb + (zb + k) by ring,
      pow_add, pow_add, pow_add]
    ring
  have h1 : V % 2 ^ tb = T := by
    rw [hV, add_mul_mod_pow _ _ _ hT]
  have hdiv : V / 2 ^ tb = Z + e * 2 ^ zb + 2 ^ (zb + k) * R := by
    rw [hV, add_mul_div_pow _ _ _ hT]
  have h2 : V / 2 ^ tb % 2 ^ zb = Z := by
    rw [hdiv, show Z + e * 2 ^ zb + 2 ^ (zb + k) * R =
      Z + (e + 2 ^ k * R) * 2 ^ zb by rw [pow_add]; ring,
      add_mul_mod_pow _ _ _ hZ]
  have h4 : V / 2 ^ tb % 2 ^ (zb + k) = Z + e * 2 ^ zb := by
    rw [hdiv, show Z + e * 2 ^ zb + 2 ^ (zb + k) * R =
      (Z + e * 2 ^ zb) + R * 2 ^ (zb + k) by ring,
      add_mul_mod_pow]
    calc Z + e * 2 ^ zb < (e + 1) * 2 ^ zb := by
          rw [add_mul, one_mul]
          omega
      _ ≤ 2 ^ k * 2 ^ zb := Nat.mul_le_mul_right _ he
      _ = 2 ^ (zb + k) := by rw [← pow_add]; ring_nf
  have h3 : V / 2 ^ (tb + zb) % 2 ^ k = e := by
    rw [pow_add, ← Nat.div_div_eq_div_mul, hdiv,
      show Z + e * 2 ^ zb + 2 ^ (zb + k) * R =
        Z + (e + R * 2 ^ k) * 2 ^ zb by rw [pow_add]; ring,
      add_mul_div_pow _ _ _ hZ, add_mul_mod_pow _ _ _ he]
  exact ⟨h1, h2, h3, h4⟩

/-! ### One iteration of the header-writer loop, fully characterized -/

theorem writeH_step (N : List Nat) (L : Nat) (hsumN : N.sum = 2 ^ L)
    (hL : L ≤ 12) (fuel : Nat) (W : WHState) (hInv : InvW N L W)
    (hpos : 1 ≤ W.remaining) :
    ∃ (g c e k Z zb : Nat) (W2 : WHState),
      writeHLoop N (fuel + 1) W = writeHLoop N fuel W2 ∧
      InvW N L W2 ∧
      W.charnum + g < N.length ∧
      (W.prev0 = false → g = 0) ∧
      (∀ i, i < g → N.getD (W.charnum + i) 0 = 0) ∧
      N.getD (W.charnum + g) 0 = c ∧
      (W.prev0 = true → c ≠ 0) ∧
      (c : Int) ≤ W.remaining ∧
      W2.charnum = W.charnum + g + 1 ∧
      W2.remaining = W.remaining - (c : Int) ∧
      W2.prev0 = decide (c = 0) ∧
      degrade (W.threshold + 1) (W.remaining - (c : Int)) W.threshold
        W.nbBits = some (W2.threshold, W2.nbBits) ∧
      e = (if W.threshold ≤ c then
        c + (2 * W.threshold - 1 - W.remaining.toNat) else c) ∧
      k = W.nbBits -
        (if e < 2 * W.threshold - 1 - W.remaining.toNat then 1 else 0) ∧
      e < 2 ^ k ∧ 1 ≤ k ∧ k ≤ 13 ∧
      zb = (if W.prev0 then 16 * (g / 24) + 2 * (g % 24 / 3) + 2 else 0) ∧
      Z + 1 = (1 + g % 3) * (2 ^ (2 * (g % 24 / 3)) * 2 ^ (16 * (g / 24))) ∧
      Z < 2 ^ zb ∧
      totalBits W2 = totalBits W + zb + k ∧
      totalVal W2 = totalVal W + Z * 2 ^ totalBits W +
        e * 2 ^ (totalBits W + zb) ∧
      W.out.length ≤ W2.out.length := by
  have hnpos : ¬ W.remaining ≤ 0 := by omega
  obtain ⟨h2t, hrth, hrem2⟩ := hInv.hthr hpos
  have hp2 : 0 < 2 ^ W.nbBits := pow_pos (by norm_num) W.nbBits
  have hthr1 : 1 ≤ W.threshold := by omega
  have hbc16 : W.bc ≤ 16 := hInv.hbc
  have hbslt : W.bs < 2 ^ W.bc := hInv.hbs
  have hchlen : W.charnum ≤ N.length := hInv.hch
  have hnbL : W.nbBits ≤ L + 1 := hInv.hnb
  have hnb1 : 1 ≤ W.nbBits := by
    by_contra h
    push_neg at h
    interval_cases W.nbBits
    omega
  have hnble : W.nbBits ≤ 13 := by
    have := hInv.hnb
    omega
  -- the residual sum equals `remaining`
  have hdropsum : ((N.drop W.charnum).sum : Int) = W.remaining := by
    have hnat : (N.take W.charnum).sum + (N.drop W.charnum).sum = 2 ^ L := by
      rw [List.sum_take_add_sum_drop]
      exact hsumN
    have hcast : ((N.take W.charnum).sum : Int) + ((N.drop W.charnum).sum : Int)
        = ((2 : Int) ^ L) := by exact_mod_cast hnat
    have := hInv.hrem
    omega
  -- find the zero gap g and the count c
  have hfind : ∃ g, (W.prev0 = false → g = 0) ∧
      W.charnum + g < N.length ∧
      (∀ i, i < g → N.getD (W.charnum + i) 0 = 0) ∧
      (W.prev0 = true →
        List.findIdx? (fun c => decide (c ≠ 0)) (N.drop W.charnum) = some g ∧
        N.getD (W.charnum + g) 0 ≠ 0) := by
    cases hprev : W.prev0 with
    | false =>
      refine ⟨0, fun _ => rfl, ?_, fun i hi => by omega, by simp⟩
      · -- charnum < N.length since the residual sum is positive
        by_contra h
        push_neg at h
        have : N.drop W.charnum = [] := List.drop_eq_nil_of_le h
        rw [this] at hdropsum
        simp at hdropsum
        omega
    | true =>
      have hex : ∃ x ∈ N.drop W.charnum, (x ≠ 0 : Bool) = true := by
        apply sum_nonzero_mem
        intro h0
        rw [h0] at hdropsum
        simp at hdropsum
        omega
      obtain ⟨j, hj⟩ := findIdx?_isSome _ (N.drop W.charnum) 0 hex
      obtain ⟨g, hjg, hg, hpg, hall⟩ := findIdx?_acc _ (N.drop W.charnum) 0 j hj
      subst hjg
      rw [Nat.zero_add] at hj
      have hgd : ∀ i, (N.drop W.charnum).getD i 0 = N.getD (W.charnum + i) 0 := by
        intro i
        rw [List.getD_eq_getElem?_getD, List.getD_eq_getElem?_getD,
          List.getElem?_drop]
      refine ⟨g, by simp, ?_, ?_, fun _ => ⟨hj, ?_⟩⟩
      · rw [List.length_drop] at hg
        omega
      · intro i hi
        have := hall i hi
        rw [hgd i] at this
        simpa using this
      · rw [hgd g] at hpg
        simpa using hpg
  obtain ⟨g, hgf, hglt, hzeros, hprevt⟩ := hfind
  set ch := W.charnum + g with hch
  set c := N.getD ch 0 with hcdef
  -- the count read succeeds
  have hget : N.get? ch = some c := by
    rw [List.get?_eq_getElem?, List.getElem?_eq_getElem hglt]
    rw [hcdef, List.getD_eq_getElem?_getD, List.getElem?_eq_getElem hglt]
    rfl
  -- c is bounded by the residual sum
  have hcsum : (c : Int) ≤ W.remaining := by
    have hds : N.drop ch = c :: N.drop (ch + 1) := by
      rw [List.drop_eq_getElem_cons hglt]
      congr 1
      rw [hcdef, List.getD_eq_getElem?_getD, List.getElem?_eq_getElem hglt]
      rfl
    have h1 : c ≤ (N.drop ch).sum := by
      rw [hds]
      simp
    have h2 : (N.drop ch).sum ≤ (N.drop W.charnum).sum := by
      have hdd : N.drop ch = List.drop g (N.drop W.charnum) := by
        rw [List.drop_drop]
      have := List.sum_take_add_sum_drop (N.drop W.charnum) g
      rw [← hdd] at this
      omega
    have hle := le_trans h1 h2
    have : (c : Int) ≤ ((N.drop W.charnum).sum : Int) := by exact_mod_cast hle
    omega
  -- the emitted value e and its width k, in Nat form
  set remN := W.remaining.toNat with hremN
  have hremNc : (remN : Int) = W.remaining := Int.toNat_of_nonneg (by omega)
  set maxN := 2 * W.threshold - 1 - remN with hmaxN
  set e := (if W.threshold ≤ c then c + maxN else c) with hedef
  set k := W.nbBits - (if e < maxN then 1 else 0) with hkdef
  have hcN : c ≤ remN := by omega
  have hmaxle : maxN ≤ W.threshold - 1 := by omega
  have hecase1 : W.threshold ≤ c → e = c + maxN := fun h => by
    rw [hedef, if_pos h]
  have hecase2 : ¬ W.threshold ≤ c → e = c := fun h => by
    rw [hedef, if_neg h]
  have hkcase1 : e < maxN → k = W.nbBits - 1 := fun h => by
    rw [hkdef, if_pos h]
  have hkcase2 : ¬ e < maxN → k = W.nbBits := fun h => by
    rw [hkdef, if_neg h, Nat.sub_zero]
  have hnb2small : e < maxN → 2 ≤ W.nbBits := by
    intro hsm
    have : 2 ≤ W.threshold := by omega
    by_contra h
    push_neg at h
    interval_cases W.nbBits <;> omega
  have hthr_eq : W.threshold = 2 ^ (W.nbBits - 1) := by
    rw [show W.nbBits = (W.nbBits - 1) + 1 by omega, pow_succ] at h2t
    omega
  have hek : e < 2 ^ k := by
    by_cases hsc : W.threshold ≤ c
    · have he := hecase1 hsc
      have hnots : ¬ e < maxN := by omega
      rw [hkcase2 hnots]
      omega
    · have he := hecase2 hsc
      push_neg at hsc
      by_cases hsm : e < maxN
      · rw [hkcase1 hsm, ← hthr_eq]
        omega
      · rw [hkcase2 hsm]
        omega
  have hk1 : 1 ≤ k := by
    by_cases hsm : e < maxN
    · have := hnb2small hsm
      rw [hkcase1 hsm]
      omega
    · rw [hkcase2 hsm]
      omega
  have hkle : k ≤ 13 := by
    by_cases hsm : e < maxN
    · rw [hkcase1 hsm]
      omega
    · rw [hkcase2 hsm]
      omega
  -- the Int-side emitted value equals e
  have hemit : (if (W.threshold : Int) ≤ (c : Nat) then
      (c : Int) + (2 * W.threshold - 1 - W.remaining) else (c : Int)) =
      (e : Int) := by
    by_cases hsc : W.threshold ≤ c
    · rw [if_pos (by exact_mod_cast hsc), hedef, if_pos hsc]
      push_cast
      omega
    · rw [if_neg (by exact_mod_cast hsc), hedef, if_neg hsc]
  have hdecide : decide ((e : Int) = 0) = decide (c = 0) := by
    apply decide_eq_decide.mpr
    constructor
    · intro h0
      by_cases hsc : W.threshold ≤ c
      · rw [hedef, if_pos hsc] at h0
        exfalso
        have : e = c + maxN := by rw [hedef, if_pos hsc]
        omega
      · rw [hedef, if_neg hsc] at h0
        exact_mod_cast h0
    · intro h0
      rw [hedef, h0, if_neg (by omega)]
      rfl
  have hite : (if ((e : Int) : Int) < 2 * (W.threshold : Int) - 1 - W.remaining
      then (1 : Nat) else 0) = (if e < maxN then 1 else 0) := by
    by_cases hsm : e < maxN
    · rw [if_pos hsm, if_pos (by push_cast; omega)]
    · rw [if_neg hsm, if_neg (by push_cast; omega)]
  -- the degrade call succeeds
  have hdeg : ∃ t1 n1, degrade (W.threshold + 1) (W.remaining - (c : Int))
      W.threshold W.nbBits = some (t1, n1) ∧ n1 ≤ W.nbBits ∧
      (1 ≤ W.remaining - (c : Int) → 2 * t1 = 2 ^ n1 ∧
        (t1 : Int) ≤ W.remaining - (c : Int) ∧
        W.remaining - (c : Int) ≤ 2 * (t1 : Int) - 1) ∧
      (W.remaining - (c : Int) ≤ 0 → t1 = 0 ∧ n1 = 0) := by
    by_cases hr : 1 ≤ W.remaining - (c : Int)
    · obtain ⟨t1, n1, heq, ha, hb, hc', hd, he⟩ := degrade_pos
        (W.threshold + 1) W.threshold W.nbBits (W.remaining - (c : Int))
        (by omega) h2t hr (by omega)
      exact ⟨t1, n1, heq, hd, fun _ => ⟨ha, hb, hc'⟩, fun h => by omega⟩
    · have hr0 : W.remaining - (c : Int) = 0 := by omega
      rw [hr0]
      exact ⟨0, 0, degrade_zero (W.threshold + 1) W.threshold W.nbBits
        (by omega) h2t, by omega, fun h => by omega, fun _ => ⟨rfl, rfl⟩⟩
  obtain ⟨t1, n1, hdeq, hn1le, hdpos, hdzero⟩ := hdeg
  -- partial-sum bookkeeping: the zero run contributes nothing
  have hNch : N[ch]? = some c := by
    rw [List.getElem?_eq_getElem hglt, hcdef, List.getD_eq_getElem?_getD,
      List.getElem?_eq_getElem hglt]
    rfl
  have htake0 : (N.take ch).sum = (N.take W.charnum).sum := by
    rw [hch, List.take_add, List.sum_append]
    have hz : (List.take g (List.drop W.charnum N)).sum = 0 := by
      apply List.sum_eq_zero
      intro x hx
      obtain ⟨i, hi, hxe⟩ := List.mem_iff_getElem.mp hx
      have hi2 : i < g := by
        simp [List.length_take] at hi
        omega
      rw [List.getElem_take, List.getElem_drop] at hxe
      have hb2 : W.charnum + i < N.length := by omega
      have hzz := hzeros i hi2
      rw [List.getD_eq_getElem?_getD, List.getElem?_eq_getElem hb2] at hzz
      simp at hzz
      rw [← hxe]
      exact hzz
    omega
  have htake1 : (N.take (ch + 1)).sum = (N.take W.charnum).sum + c := by
    rw [List.take_succ, hNch, Option.toList_some, List.sum_append, htake0]
    simp
  -- shared size bounds
  have hKle : (2 : Nat) ^ k ≤ 8192 := by
    calc (2 : Nat) ^ k ≤ 2 ^ 13 := Nat.pow_le_pow_right (by norm_num) hkle
      _ = 8192 := by norm_num
  cases hprev : W.prev0 with
  | false =>
    have hg0 : g = 0 := hgf hprev
    subst hg0
    have hchW : N.get? W.charnum = some c := by
      rw [show W.charnum = ch by omega]
      exact hget
    have hYle : (2 : Nat) ^ W.bc ≤ 65536 := by
      calc (2 : Nat) ^ W.bc ≤ 2 ^ 16 :=
            Nat.pow_le_pow_right (by norm_num) hInv.hbc
        _ = 65536 := by norm_num
    have hcomb : W.bs + e * 2 ^ W.bc < 2 ^ (W.bc + k) := by
      calc W.bs + e * 2 ^ W.bc < 2 ^ W.bc + e * 2 ^ W.bc := by
            have := hInv.hbs
            omega
        _ = (e + 1) * 2 ^ W.bc := by ring
        _ ≤ 2 ^ k * 2 ^ W.bc := Nat.mul_le_mul_right _ (by omega)
        _ = 2 ^ (W.bc + k) := by rw [← pow_add, Nat.add_comm]
    have hckle : (2 : Nat) ^ (W.bc + k) ≤ 536870912 := by
      calc (2 : Nat) ^ (W.bc + k) ≤ 2 ^ 29 :=
            Nat.pow_le_pow_right (by norm_num) (by omega)
        _ = 536870912 := by norm_num
    have hu32a : u32 (e * 2 ^ W.bc) = e * 2 ^ W.bc := by
      unfold u32
      rw [Nat.mod_eq_of_lt]
      rw [show (2 : Nat) ^ 32 = 4294967296 by norm_num]
      omega
    have hu32b : u32 (W.bs + e * 2 ^ W.bc) = W.bs + e * 2 ^ W.bc := by
      unfold u32
      rw [Nat.mod_eq_of_lt]
      rw [show (2 : Nat) ^ 32 = 4294967296 by norm_num]
      omega
    have hbck : W.bc + W.nbBits - (if e < maxN then 1 else 0) = W.bc + k := by
      by_cases hsm : e < maxN
      · rw [if_pos hsm, hkcase1 hsm]
        omega
      · rw [if_neg hsm, hkcase2 hsm]
        omega
    obtain ⟨hfo, hfbs, hfbc, hfval, hfbits, hflen⟩ := flush16_spec W.out
      (W.bs + e * 2 ^ W.bc) (W.bc + k) hcomb (by omega) hInv.hout
    refine ⟨0, c, e, k, 0, 0,
      { out := (flush16 W.out (W.bs + e * 2 ^ W.bc) (W.bc + k)).1,
        bs := (flush16 W.out (W.bs + e * 2 ^ W.bc) (W.bc + k)).2.1,
        bc := (flush16 W.out (W.bs + e * 2 ^ W.bc) (W.bc + k)).2.2,
        charnum := ch + 1, prev0 := decide (c = 0),
        remaining := W.remaining - (c : Int), threshold := t1, nbBits := n1 },
      ?_, ?_, hglt, fun _ => rfl, fun i hi => by omega, rfl, ?_, hcsum,
      rfl, rfl, rfl, hdeq, rfl, rfl, hek, hk1, hkle, ?_, ?_, ?_, ?_, ?_, ?_⟩
    · -- the loop-body equation
      show writeHLoop N (fuel + 1) W = _
      simp only [writeHLoop]
      rw [if_neg hnpos, hprev, if_neg Bool.false_ne_true]
      dsimp only
      rw [hchW]
      dsimp only
      rw [hemit, Int.toNat_natCast, hdecide, hite, hu32a, hu32b, hbck, hdeq]
      dsimp only
      rfl
    · -- invariant at the new state
      refine ⟨hfbs, hfbc, hfo, by dsimp only; omega, ?_, ?_, by
        dsimp only; omega, ?_⟩
      · show W.remaining - (c : Int) =
          (2 ^ L : Int) - ((N.take (ch + 1)).sum : Int)
        have hc1 : ((N.take (ch + 1)).sum : Int) =
            ((N.take W.charnum).sum : Int) + c := by exact_mod_cast htake1
        have := hInv.hrem
        omega
      · exact fun h => hdpos h
      · exact fun h => hdzero h
    · exact fun h => absurd h Bool.false_ne_true
    · norm_num
    · norm_num
    · norm_num
    · unfold totalBits
      dsimp only
      omega
    · unfold totalVal totalBits
      dsimp only
      have hXY : (2 : Nat) ^ (8 * W.out.length + W.bc + 0) =
          2 ^ (8 * W.out.length) * 2 ^ W.bc := by
        rw [Nat.add_zero, pow_add]
      rw [hXY]
      zify at hfval ⊢
      linear_combination hfval
    · exact hflen
  | true =>
    obtain ⟨hjfind, hcne⟩ := hprevt hprev
    have hq3le : g % 24 / 3 ≤ 7 := by omega
    obtain ⟨o1, bsA, h24eq, ho1, hbsA, hlen1, hval1⟩ :=
      emit24_spec (g / 24) (g + 1) W.bc W.out W.bs g rfl (by omega) hbslt
        hbc16 hInv.hout
    obtain ⟨bsB, h3eq, hbsB, hval3⟩ :=
      emit3_spec (g % 24 / 3) (g % 24 + 1) bsA W.bc (g % 24) rfl (by omega)
        hbsA (by omega)
    have hbcq : W.bc + 2 * (g % 24 / 3) ≤ 30 := by omega
    have hQYle : (2 : Nat) ^ (W.bc + 2 * (g % 24 / 3)) ≤ 1073741824 := by
      calc (2 : Nat) ^ (W.bc + 2 * (g % 24 / 3)) ≤ 2 ^ 30 :=
            Nat.pow_le_pow_right (by norm_num) hbcq
        _ = 1073741824 := by norm_num
    have hg3P : g % 3 * 2 ^ (W.bc + 2 * (g % 24 / 3)) ≤
        2 * 2 ^ (W.bc + 2 * (g % 24 / 3)) :=
      Nat.mul_le_mul_right _ (by omega)
    have hu3a : u32 (g % 3 * 2 ^ (W.bc + 2 * (g % 24 / 3))) = g % 3 * 2 ^ (W.bc + 2 * (g % 24 / 3)) := by
      unfold u32
      rw [Nat.mod_eq_of_lt]
      rw [show (2 : Nat) ^ 32 = 4294967296 by norm_num]
      omega
    have hu3b : u32 (bsB + g % 3 * 2 ^ (W.bc + 2 * (g % 24 / 3))) = bsB + g % 3 * 2 ^ (W.bc + 2 * (g % 24 / 3)) := by
      unfold u32
      rw [Nat.mod_eq_of_lt]
      rw [show (2 : Nat) ^ 32 = 4294967296 by norm_num]
      omega
    have hbs3lt : (bsB + g % 3 * 2 ^ (W.bc + 2 * (g % 24 / 3))) < 2 ^ (W.bc + 2 * (g % 24 / 3) + 2) := by
      have h4 : (2 : Nat) ^ (W.bc + 2 * (g % 24 / 3) + 2) = 4 * 2 ^ (W.bc + 2 * (g % 24 / 3)) := by
        rw [pow_add]
        ring
      rw [h4]
      omega
    obtain ⟨hzo, hzbs, hzbc, hzval, hzbits, hzlen⟩ :=
      flush16_spec o1 (bsB + g % 3 * 2 ^ (W.bc + 2 * (g % 24 / 3))) (W.bc + 2 * (g % 24 / 3) + 2) hbs3lt (by omega) ho1
    have hget2 : N.get? (W.charnum + g) = some c := hget
    have hfzYle : (2 : Nat) ^ (flush16 o1 (bsB + g % 3 * 2 ^ (W.bc + 2 * (g % 24 / 3))) (W.bc + 2 * (g % 24 / 3) + 2)).2.2 ≤ 65536 := by
      calc (2 : Nat) ^ (flush16 o1 (bsB + g % 3 * 2 ^ (W.bc + 2 * (g % 24 / 3))) (W.bc + 2 * (g % 24 / 3) + 2)).2.2 ≤ 2 ^ 16 :=
            Nat.pow_le_pow_right (by norm_num) hzbc
        _ = 65536 := by norm_num
    have hcomb2 : (flush16 o1 (bsB + g % 3 * 2 ^ (W.bc + 2 * (g % 24 / 3))) (W.bc + 2 * (g % 24 / 3) + 2)).2.1 + e * 2 ^ (flush16 o1 (bsB + g % 3 * 2 ^ (W.bc + 2 * (g % 24 / 3))) (W.bc + 2 * (g % 24 / 3) + 2)).2.2 < 2 ^ ((flush16 o1 (bsB + g % 3 * 2 ^ (W.bc + 2 * (g % 24 / 3))) (W.bc + 2 * (g % 24 / 3) + 2)).2.2 + k) := by
      calc (flush16 o1 (bsB + g % 3 * 2 ^ (W.bc + 2 * (g % 24 / 3))) (W.bc + 2 * (g % 24 / 3) + 2)).2.1 + e * 2 ^ (flush16 o1 (bsB + g % 3 * 2 ^ (W.bc + 2 * (g % 24 / 3))) (W.bc + 2 * (g % 24 / 3) + 2)).2.2
          < 2 ^ (flush16 o1 (bsB + g % 3 * 2 ^ (W.bc + 2 * (g % 24 / 3))) (W.bc + 2 * (g % 24 / 3) + 2)).2.2 + e * 2 ^ (flush16 o1 (bsB + g % 3 * 2 ^ (W.bc + 2 * (g % 24 / 3))) (W.bc + 2 * (g % 24 / 3) + 2)).2.2 := by
            omega
        _ = (e + 1) * 2 ^ (flush16 o1 (bsB + g % 3 * 2 ^ (W.bc + 2 * (g % 24 / 3))) (W.bc + 2 * (g % 24 / 3) + 2)).2.2 := by ring
        _ ≤ 2 ^ k * 2 ^ (flush16 o1 (bsB + g % 3 * 2 ^ (W.bc + 2 * (g % 24 / 3))) (W.bc + 2 * (g % 24 / 3) + 2)).2.2 := Nat.mul_le_mul_right _ (by omega)
        _ = 2 ^ ((flush16 o1 (bsB + g % 3 * 2 ^ (W.bc + 2 * (g % 24 / 3))) (W.bc + 2 * (g % 24 / 3) + 2)).2.2 + k) := by rw [← pow_add, Nat.add_comm]
    have hck2le : (2 : Nat) ^ ((flush16 o1 (bsB + g % 3 * 2 ^ (W.bc + 2 * (g % 24 / 3))) (W.bc + 2 * (g % 24 / 3) + 2)).2.2 + k) ≤ 536870912 := by
      calc (2 : Nat) ^ ((flush16 o1 (bsB + g % 3 * 2 ^ (W.bc + 2 * (g % 24 / 3))) (W.bc + 2 * (g % 24 / 3) + 2)).2.2 + k) ≤ 2 ^ 29 :=
            Nat.pow_le_pow_right (by norm_num) (by omega)
        _ = 536870912 := by norm_num
    have hu32a2 : u32 (e * 2 ^ (flush16 o1 (bsB + g % 3 * 2 ^ (W.bc + 2 * (g % 24 / 3))) (W.bc + 2 * (g % 24 / 3) + 2)).2.2) = e * 2 ^ (flush16 o1 (bsB + g % 3 * 2 ^ (W.bc + 2 * (g % 24 / 3))) (W.bc + 2 * (g % 24 / 3) + 2)).2.2 := by
      unfold u32
      rw [Nat.mod_eq_of_lt]
      rw [show (2 : Nat) ^ 32 = 4294967296 by norm_num]
      omega
    have hu32b2 : u32 ((flush16 o1 (bsB + g % 3 * 2 ^ (W.bc + 2 * (g % 24 / 3))) (W.bc + 2 * (g % 24 / 3) + 2)).2.1 + e * 2 ^ (flush16 o1 (bsB + g % 3 * 2 ^ (W.bc + 2 * (g % 24 / 3))) (W.bc + 2 * (g % 24 / 3) + 2)).2.2) =
        (flush16 o1 (bsB + g % 3 * 2 ^ (W.bc + 2 * (g % 24 / 3))) (W.bc + 2 * (g % 24 / 3) + 2)).2.1 + e * 2 ^ (flush16 o1 (bsB + g % 3 * 2 ^ (W.bc + 2 * (g % 24 / 3))) (W.bc + 2 * (g % 24 / 3) + 2)).2.2 := by
      unfold u32
      rw [Nat.mod_eq_of_lt]
      rw [show (2 : Nat) ^ 32 = 4294967296 by norm_num]
      omega
    have hbck2 : (flush16 o1 (bsB + g % 3 * 2 ^ (W.bc + 2 * (g % 24 / 3))) (W.bc + 2 * (g % 24 / 3) + 2)).2.2 + W.nbBits - (if e < maxN then 1 else 0) =
        (flush16 o1 (bsB + g % 3 * 2 ^ (W.bc + 2 * (g % 24 / 3))) (W.bc + 2 * (g % 24 / 3) + 2)).2.2 + k := by
      by_cases hsm : e < maxN
      · rw [if_pos hsm, hkcase1 hsm]
        omega
      · rw [if_neg hsm, hkcase2 hsm]
        omega
    obtain ⟨hfo, hfbs, hfbc, hfval, hfbits, hflen⟩ :=
      flush16_spec (flush16 o1 (bsB + g % 3 * 2 ^ (W.bc + 2 * (g % 24 / 3))) (W.bc + 2 * (g % 24 / 3) + 2)).1 ((flush16 o1 (bsB + g % 3 * 2 ^ (W.bc + 2 * (g % 24 / 3))) (W.bc + 2 * (g % 24 / 3) + 2)).2.1 + e * 2 ^ (flush16 o1 (bsB + g % 3 * 2 ^ (W.bc + 2 * (g % 24 / 3))) (W.bc + 2 * (g % 24 / 3) + 2)).2.2) ((flush16 o1 (bsB + g % 3 * 2 ^ (W.bc + 2 * (g % 24 / 3))) (W.bc + 2 * (g % 24 / 3) + 2)).2.2 + k)
        hcomb2 (by omega) hzo
    have hZp0 : 0 < (1 + g % 3) * (2 ^ (2 * (g % 24 / 3)) * 2 ^ (16 * (g / 24))) := by
      positivity
    have hZp : 1 ≤ (1 + g % 3) * (2 ^ (2 * (g % 24 / 3)) * 2 ^ (16 * (g / 24))) :=
      hZp0
    refine ⟨g, c, e, k,
      (1 + g % 3) * (2 ^ (2 * (g % 24 / 3)) * 2 ^ (16 * (g / 24))) - 1,
      16 * (g / 24) + 2 * (g % 24 / 3) + 2,
      { out := (flush16 (flush16 o1 (bsB + g % 3 * 2 ^ (W.bc + 2 * (g % 24 / 3))) (W.bc + 2 * (g % 24 / 3) + 2)).1 ((flush16 o1 (bsB + g % 3 * 2 ^ (W.bc + 2 * (g % 24 / 3))) (W.bc + 2 * (g % 24 / 3) + 2)).2.1 + e * 2 ^ (flush16 o1 (bsB + g % 3 * 2 ^ (W.bc + 2 * (g % 24 / 3))) (W.bc + 2 * (g % 24 / 3) + 2)).2.2) ((flush16 o1 (bsB + g % 3 * 2 ^ (W.bc + 2 * (g % 24 / 3))) (W.bc + 2 * (g % 24 / 3) + 2)).2.2 + k)).1, bs := (flush16 (flush16 o1 (bsB + g % 3 * 2 ^ (W.bc + 2 * (g % 24 / 3))) (W.bc + 2 * (g % 24 / 3) + 2)).1 ((flush16 o1 (bsB + g % 3 * 2 ^ (W.bc + 2 * (g % 24 / 3))) (W.bc + 2 * (g % 24 / 3) + 2)).2.1 + e * 2 ^ (flush16 o1 (bsB + g % 3 * 2 ^ (W.bc + 2 * (g % 24 / 3))) (W.bc + 2 * (g % 24 / 3) + 2)).2.2) ((flush16 o1 (bsB + g % 3 * 2 ^ (W.bc + 2 * (g % 24 / 3))) (W.bc + 2 * (g % 24 / 3) + 2)).2.2 + k)).2.1, bc := (flush16 (flush16 o1 (bsB + g % 3 * 2 ^ (W.bc + 2 * (g % 24 / 3))) (W.bc + 2 * (g % 24 / 3) + 2)).1 ((flush16 o1 (bsB + g % 3 * 2 ^ (W.bc + 2 * (g % 24 / 3))) (W.bc + 2 * (g % 24 / 3) + 2)).2.1 + e * 2 ^ (flush16 o1 (bsB + g % 3 * 2 ^ (W.bc + 2 * (g % 24 / 3))) (W.bc + 2 * (g % 24 / 3) + 2)).2.2) ((flush16 o1 (bsB + g % 3 * 2 ^ (W.bc + 2 * (g % 24 / 3))) (W.bc + 2 * (g % 24 / 3) + 2)).2.2 + k)).2.2,
        charnum := ch + 1, prev0 := decide (c = 0),
        remaining := W.remaining - (c : Int), threshold := t1, nbBits := n1 },
      ?_, ?_, hglt, fun h => absurd h (by simp), hzeros, rfl, fun _ => hcne,
      hcsum, rfl, rfl, rfl, hdeq, rfl, rfl, hek, hk1, hkle, ?_, ?_, ?_,
      ?_, ?_, ?_⟩
    · -- the loop-body equation
      show writeHLoop N (fuel + 1) W = _
      simp only [writeHLoop]
      rw [if_neg hnpos, hprev, if_pos rfl, hjfind]
      dsimp only
      rw [show W.charnum + g - W.charnum = g by omega, h24eq]
      dsimp only
      rw [h3eq]
      dsimp only
      rw [show g % 24 % 3 = g % 3 by omega, hu3a, hu3b, hget2]
      dsimp only
      rw [hemit, Int.toNat_natCast, hdecide, hite, hu32a2, hu32b2, hbck2, hdeq]
    · -- invariant at the new state
      refine ⟨hfbs, hfbc, hfo, by dsimp only; omega, ?_, ?_, by
        dsimp only; omega, ?_⟩
      · show W.remaining - (c : Int) =
          (2 ^ L : Int) - ((N.take (ch + 1)).sum : Int)
        have hc1 : ((N.take (ch + 1)).sum : Int) =
            ((N.take W.charnum).sum : Int) + c := by exact_mod_cast htake1
        have := hInv.hrem
        omega
      · exact fun h => hdpos h
      · exact fun h => hdzero h
    · rw [if_pos rfl]
    · omega
    · -- Z < 2 ^ zb
      have h2zb : (2 : Nat) ^ (16 * (g / 24) + 2 * (g % 24 / 3) + 2) =
          4 * (2 ^ (2 * (g % 24 / 3)) * 2 ^ (16 * (g / 24))) := by
        rw [pow_add, pow_add]
        ring
      rw [h2zb]
      have h3b : (1 + g % 3) * (2 ^ (2 * (g % 24 / 3)) * 2 ^ (16 * (g / 24))) ≤
          3 * (2 ^ (2 * (g % 24 / 3)) * 2 ^ (16 * (g / 24))) :=
        Nat.mul_le_mul_right _ (by omega)
      omega
    · -- total bit count
      unfold totalBits
      dsimp only
      omega
    · -- total value
      unfold totalVal totalBits
      dsimp only
      rw [hfval]
      have hXP : (2 : Nat) ^ (8 * o1.length) =
          2 ^ (16 * (g / 24)) * 2 ^ (8 * W.out.length) := by
        rw [hlen1, show 8 * (W.out.length + 2 * (g / 24)) =
          16 * (g / 24) + 8 * W.out.length by ring, pow_add]
      have hQY : (2 : Nat) ^ (W.bc + 2 * (g % 24 / 3)) = 2 ^ W.bc * 2 ^ (2 * (g % 24 / 3)) :=
        pow_add 2 W.bc (2 * (g % 24 / 3))
      have hYFrel : (2 : Nat) ^ (8 * (flush16 o1 (bsB + g % 3 * 2 ^ (W.bc + 2 * (g % 24 / 3))) (W.bc + 2 * (g % 24 / 3) + 2)).1.length) * 2 ^ (flush16 o1 (bsB + g % 3 * 2 ^ (W.bc + 2 * (g % 24 / 3))) (W.bc + 2 * (g % 24 / 3) + 2)).2.2 =
          2 ^ (16 * (g / 24)) * 2 ^ (8 * W.out.length) *
            (2 ^ (2 * (g % 24 / 3)) * 2 ^ W.bc) * 4 := by
        rw [← pow_add, hzbits, hlen1, show 8 * (W.out.length + 2 * (g / 24)) +
          (W.bc + 2 * (g % 24 / 3) + 2) = 16 * (g / 24) + 8 * W.out.length +
          2 * (g % 24 / 3) + W.bc + 2 by ring]
        rw [pow_add, pow_add, pow_add, pow_add]
        norm_num
        ring
      have hPtb : (2 : Nat) ^ (8 * W.out.length + W.bc) =
          2 ^ (8 * W.out.length) * 2 ^ W.bc := pow_add 2 _ _
      have hPtbz : (2 : Nat) ^ (8 * W.out.length + W.bc +
          (16 * (g / 24) + 2 * (g % 24 / 3) + 2)) =
          2 ^ (16 * (g / 24)) * 2 ^ (8 * W.out.length) *
            (2 ^ (2 * (g % 24 / 3)) * 2 ^ W.bc) * 4 := by
        rw [show 8 * W.out.length + W.bc +
          (16 * (g / 24) + 2 * (g % 24 / 3) + 2) = 16 * (g / 24) +
          8 * W.out.length + 2 * (g % 24 / 3) + W.bc + 2 by ring]
        rw [pow_add, pow_add, pow_add, pow_add]
        norm_num
        ring
      rw [hPtb, hPtbz]
      rw [hXP] at hval1 hzval
      zify [hZp] at hval1 hval3 hzval hYFrel hQY ⊢
      linear_combination hzval + hval1 +
        ((2 : Int) ^ (16 * (g / 24)) * 2 ^ (8 * W.out.length)) * hval3 +
        ((g : Int) % 3 * (2 ^ (16 * (g / 24)) * 2 ^ (8 * W.out.length))) * hQY +
        (e : Int) * hYFrel
    · dsimp only
      omega


/-! ### The header-writer loop: termination and produced-value shape -/

theorem writeH_run (N : List Nat) (L : Nat) (hsumN : N.sum = 2 ^ L)
    (hL : L ≤ 12) : ∀ (fuel : Nat) (W : WHState), InvW N L W →
    N.length + 1 - W.charnum ≤ fuel →
    ∃ Wf, writeHLoop N fuel W = some Wf ∧ InvW N L Wf ∧
      Wf.remaining = 0 ∧
      totalVal Wf % 2 ^ totalBits W = totalVal W ∧
      totalBits W ≤ totalBits Wf ∧ W.out.length ≤ Wf.out.length := by
  intro fuel
  induction fuel with
  | zero =>
    intro W hInv hfuel
    exfalso
    have := hInv.hch
    omega
  | succ f ih =>
    intro W hInv hfuel
    have htvlt : totalVal W < 2 ^ totalBits W :=
      totalVal_lt W hInv.hout hInv.hbs
    by_cases hr : W.remaining ≤ 0
    · have hr0 : W.remaining = 0 := by
        have h1 := hInv.hrem
        have hts : (N.take W.charnum).sum ≤ 2 ^ L := by
          have h2 := List.sum_take_add_sum_drop N W.charnum
          omega
        have hts' : ((N.take W.charnum).sum : Int) ≤ ((2 ^ L : Nat) : Int) := by
          exact_mod_cast hts
        have hpow : ((2 ^ L : Nat) : Int) = (2 ^ L : Int) := by push_cast; rfl
        omega
      refine ⟨W, ?_, hInv, hr0, Nat.mod_eq_of_lt htvlt, le_refl _, le_refl _⟩
      show writeHLoop N (f + 1) W = some W
      simp only [writeHLoop]
      rw [if_pos hr]
    · push_neg at hr
      obtain ⟨g, c, e, k, Z, zb, W2, hbody, hInv2, hlt, _, _, _, _, _,
        hch2, hrem2', _, _, _, _, hek, _, _, _, _, hZlt, hbits2, hval2,
        hlen2⟩ := writeH_step N L hsumN hL f W hInv (by omega)
      obtain ⟨Wf, heq, hInvf, hrf, hvalf, hbitsf, hlenf⟩ :=
        ih W2 hInv2 (by omega)
      refine ⟨Wf, by rw [hbody]; exact heq, hInvf, hrf, ?_, by omega,
        by omega⟩
      have hWf : totalVal Wf = totalVal W2 +
          2 ^ totalBits W2 * (totalVal Wf / 2 ^ totalBits W2) := by
        rw [← hvalf]
        exact (Nat.mod_add_div _ _).symm
      rw [hWf, hval2, hbits2]
      have hsplit : totalVal W + Z * 2 ^ totalBits W +
          e * 2 ^ (totalBits W + zb) +
          2 ^ (totalBits W + zb + k) *
            (totalVal Wf / 2 ^ (totalBits W + zb + k)) =
          totalVal W + (Z + e * 2 ^ zb + 2 ^ (zb + k) *
            (totalVal Wf / 2 ^ (totalBits W + zb + k))) * 2 ^ totalBits W := by
        rw [show totalBits W + zb + k = totalBits W + (zb + k) by ring,
          pow_add, pow_add, pow_add]
        ring
      rw [hsplit]
      exact add_mul_mod_pow _ _ _ htvlt

/-! ### Header-reader zero-run loops -/

theorem read3s_spec : ∀ (q fuel bs bc n0 g2 : Nat), q < fuel → g2 < 3 →
    bs % 2 ^ (2 * q + 2) = 2 ^ (2 * q) - 1 + g2 * 2 ^ (2 * q) →
    read3s fuel bs bc n0 = (bs / 2 ^ (2 * q), bc + 2 * q, n0 + 3 * q) ∧
    bs / 2 ^ (2 * q) % 4 = g2 := by
  intro q
  induction q with
  | zero =>
    intro fuel bs bc n0 g2 hf hg2 hbs
    have hbs4 : bs % 4 = g2 := by
      have : bs % 2 ^ 2 = 2 ^ 0 - 1 + g2 * 2 ^ 0 := hbs
      simpa using this
    match fuel, hf with
    | f + 1, _ =>
      constructor
      · simp only [read3s]
        rw [if_neg (by omega)]
        norm_num
      · simpa using hbs4
  | succ q ih =>
    intro fuel bs bc n0 g2 hf hg2 hbs
    have hp1 : (2 : Nat) ^ (2 * (q + 1)) = 4 * 2 ^ (2 * q) := by
      rw [show 2 * (q + 1) = 2 * q + 2 by ring, pow_add]
      ring
    have hp2 : (2 : Nat) ^ (2 * (q + 1) + 2) = 4 * 2 ^ (2 * q + 2) := by
      rw [show 2 * (q + 1) + 2 = (2 * q + 2) + 2 by ring, pow_add]
      ring
    have hq0 : 0 < (2 : Nat) ^ (2 * q) := pow_pos (by norm_num) _
    have hbs4 : bs % 4 = 3 := by
      have h1 : bs % 2 ^ (2 * (q + 1) + 2) % 4 = bs % 4 :=
        Nat.mod_mod_of_dvd bs (by rw [hp2]; exact Dvd.intro _ rfl)
      rw [hbs] at h1
      have h2 : (2 ^ (2 * (q + 1)) - 1 + g2 * 2 ^ (2 * (q + 1))) % 4 = 3 := by
        rw [hp1]
        have h3 : (1 + g2) * (4 * 2 ^ (2 * q)) % 4 = 0 := by
          have : (1 + g2) * (4 * 2 ^ (2 * q)) = 4 * ((1 + g2) * 2 ^ (2 * q)) := by
            ring
          omega
        have h5 : (1 + g2) * (4 * 2 ^ (2 * q)) =
            4 * 2 ^ (2 * q) + g2 * (4 * 2 ^ (2 * q)) := by ring
        omega
      omega
    have hnext : bs / 4 % 2 ^ (2 * q + 2) = 2 ^ (2 * q) - 1 + g2 * 2 ^ (2 * q) := by
      have h1 : bs % 2 ^ (2 * (q + 1) + 2) / 2 ^ 2 = bs / 2 ^ 2 % 2 ^ (2 * (q + 1) + 2 - 2) :=
        div_pow_mod_pow bs _ 2 (by omega)
      rw [hbs] at h1
      have heasy : 2 * (q + 1) + 2 - 2 = 2 * q + 2 := by omega
      rw [heasy] at h1
      have h2 : (2 ^ (2 * (q + 1)) - 1 + g2 * 2 ^ (2 * (q + 1))) / 2 ^ 2 =
          2 ^ (2 * q) - 1 + g2 * 2 ^ (2 * q) := by
        rw [hp1]
        have h5 : 4 * 2 ^ (2 * q) - 1 + g2 * (4 * 2 ^ (2 * q)) =
            4 * (2 ^ (2 * q) - 1 + g2 * 2 ^ (2 * q)) + 3 := by
          have h6 : g2 * (4 * 2 ^ (2 * q)) = 4 * (g2 * 2 ^ (2 * q)) := by ring
          omega
        rw [h5]
        omega
      rw [h2] at h1
      rw [show (2 : Nat) ^ 2 = 4 by norm_num] at h1
      exact h1.symm
    match fuel, hf with
    | f + 1, _ =>
      obtain ⟨hrec, hmod⟩ := ih f (bs / 4) (bc + 2) (n0 + 3) g2 (by omega) hg2 hnext
      have hdd : bs / 4 / 2 ^ (2 * q) = bs / 2 ^ (2 * (q + 1)) := by
        rw [Nat.div_div_eq_div_mul, hp1]
      constructor
      · simp only [read3s]
        rw [if_pos hbs4, hrec, hdd]
        have e1 : bc + 2 + 2 * q = bc + 2 * (q + 1) := by ring
        have e2 : n0 + 3 + 3 * q = n0 + 3 * (q + 1) := by ring
        rw [e1, e2]
      · rw [← hdd]
        exact hmod

theorem read24s_spec (B : List Nat) (hB : ∀ b ∈ B, b < 256) (bc : Nat)
    (hbc : bc < 8) : ∀ (q fuel ip n0 H : Nat), q < fuel →
    bytesVal B / 2 ^ (8 * ip + bc) = 2 ^ (16 * q) - 1 + H * 2 ^ (16 * q) →
    H % 2 ^ 16 ≠ 65535 →
    read24s B bc fuel (load32 B ip / 2 ^ bc) ip n0 =
      some (load32 B (ip + 2 * q) / 2 ^ bc, ip + 2 * q, n0 + 24 * q) := by
  intro q
  induction q with
  | zero =>
    intro fuel ip n0 H hf hF hH
    have hFH : bytesVal B / 2 ^ (8 * ip + bc) = H := by simpa using hF
    have hwin : load32 B ip / 2 ^ bc % 2 ^ 16 =
        bytesVal B / 2 ^ (8 * ip + bc) % 2 ^ 16 :=
      window_mod B hB ip bc 16 (by omega) (by omega)
    match fuel, hf with
    | f + 1, _ =>
      simp only [read24s]
      rw [if_neg (by rw [hwin, hFH]; simpa using hH)]
      norm_num
  | succ q ih =>
    intro fuel ip n0 H hf hF hH
    have hp1 : (2 : Nat) ^ (16 * (q + 1)) = 65536 * 2 ^ (16 * q) := by
      rw [show 16 * (q + 1) = 16 * q + 16 by ring, pow_add]
      have : (2 : Nat) ^ 16 = 65536 := by norm_num
      rw [this]
      ring
    have hq0 : 0 < (2 : Nat) ^ (16 * q) := pow_pos (by norm_num) _
    have hstop : bytesVal B / 2 ^ (8 * ip + bc) % 2 ^ 16 = 65535 := by
      rw [hF, hp1]
      have h4 : 65536 * ((1 + H) * 2 ^ (16 * q)) =
          65536 * 2 ^ (16 * q) + H * (65536 * 2 ^ (16 * q)) := by ring
      have h4b : H * (65536 * 2 ^ (16 * q)) = 65536 * (H * 2 ^ (16 * q)) := by
        ring
      have h5 : (2 : Nat) ^ 16 = 65536 := by norm_num
      omega
    have hwin : load32 B ip / 2 ^ bc % 2 ^ 16 =
        bytesVal B / 2 ^ (8 * ip + bc) % 2 ^ 16 :=
      window_mod B hB ip bc 16 (by omega) (by omega)
    have hnext : bytesVal B / 2 ^ (8 * (ip + 2) + bc) =
        2 ^ (16 * q) - 1 + H * 2 ^ (16 * q) := by
      have h1 : bytesVal B / 2 ^ (8 * ip + bc) / 2 ^ 16 =
          bytesVal B / 2 ^ (8 * (ip + 2) + bc) := by
        rw [Nat.div_div_eq_div_mul, ← pow_add,
          show 8 * ip + bc + 16 = 8 * (ip + 2) + bc by ring]
      rw [← h1, hF, hp1]
      have h5 : 65536 * 2 ^ (16 * q) - 1 + H * (65536 * 2 ^ (16 * q)) =
          65536 * (2 ^ (16 * q) - 1 + H * 2 ^ (16 * q)) + 65535 := by
        have h6 : H * (65536 * 2 ^ (16 * q)) = 65536 * (H * 2 ^ (16 * q)) := by
          ring
        omega
      have h7 : (2 : Nat) ^ 16 = 65536 := by norm_num
      rw [h5, h7]
      omega
    match fuel, hf with
    | f + 1, _ =>
      simp only [read24s]
      rw [if_pos (by rw [hwin]; simpa using hstop)]
      rw [ih f (ip + 2) (n0 + 24) H (by omega) hnext hH]
      have e1 : ip + 2 + 2 * q = ip + 2 * (q + 1) := by ring
      have e2 : n0 + 24 + 24 * q = n0 + 24 * (q + 1) := by ring
      rw [e1, e2]

/-! ### Filling the decoded zero run -/

theorem take_fill_zeros (N : List Nat) (ch g : Nat) (h : ch + g ≤ N.length)
    (hz : ∀ i, i < g → N.getD (ch + i) 0 = 0) :
    N.take ch ++ List.replicate g 0 = N.take (ch + g) := by
  rw [List.take_add]
  congr 1
  symm
  rw [List.eq_replicate_iff]
  constructor
  · rw [List.length_take, List.length_drop]
    omega
  · intro b hb
    obtain ⟨i, hi, hxe⟩ := List.mem_iff_getElem.mp hb
    have hi2 : i < g := by
      rw [List.length_take] at hi
      omega
    rw [List.getElem_take, List.getElem_drop] at hxe
    have hb2 : ch + i < N.length := by omega
    have hzz := hz i hi2
    rw [List.getD_eq_getElem?_getD, List.getElem?_eq_getElem hb2] at hzz
    simp at hzz
    rw [← hxe]
    exact hzz

/-! ### Decoding one count field -/

theorem count_decode (thr nb : Nat) (rem : Int) (c e k maxN : Nat) (F : Nat)
    (h2t : 2 * thr = 2 ^ nb) (hrth : (thr : Int) ≤ rem)
    (hrem2 : rem ≤ 2 * (thr : Int) - 1) (hpos : 1 ≤ rem)
    (hc : (c : Int) ≤ rem)
    (hmaxN : maxN = 2 * thr - 1 - rem.toNat)
    (he : e = if thr ≤ c then c + maxN else c)
    (hk : k = nb - if e < maxN then 1 else 0)
    (hF : F % 2 ^ k = e) :
    ((((F % thr : Nat) : Int) < 2 * (thr : Int) - 1 - rem) ↔ e < maxN) ∧
    (e < maxN → ((F % thr : Nat) : Int) = (c : Int)) ∧
    (¬ e < maxN →
      (if (thr : Int) ≤ ((F % (2 * thr) : Nat) : Int) then
        ((F % (2 * thr) : Nat) : Int) - (2 * (thr : Int) - 1 - rem)
      else ((F % (2 * thr) : Nat) : Int)) = (c : Int)) := by
  have hp2 : 0 < 2 ^ nb := pow_pos (by norm_num) nb
  have hthr1 : 1 ≤ thr := by omega
  have hnb1 : 1 ≤ nb := by
    by_contra h
    push_neg at h
    interval_cases nb
    omega
  have hthr_eq : thr = 2 ^ (nb - 1) := by
    rw [show nb = (nb - 1) + 1 by omega, pow_succ] at h2t
    omega
  have hremNc : (rem.toNat : Int) = rem := Int.toNat_of_nonneg (by omega)
  have hcN : c ≤ rem.toNat := by omega
  have hmaxI : ((maxN : Nat) : Int) = 2 * (thr : Int) - 1 - rem := by
    rw [hmaxN]
    omega
  have hmaxle : maxN ≤ thr - 1 := by omega
  by_cases hsc : thr ≤ c
  · have heq : e = c + maxN := by rw [he, if_pos hsc]
    have hnots : ¬ e < maxN := by omega
    have hknb : k = nb := by rw [hk, if_neg hnots, Nat.sub_zero]
    rw [hknb] at hF
    have hF2 : F % (2 * thr) = e := by rw [h2t]; exact hF
    have hFt : F % thr = e - thr := by
      have h1 : F % thr = e % thr := by
        rw [hthr_eq]
        calc F % 2 ^ (nb - 1) = F % 2 ^ nb % 2 ^ (nb - 1) :=
              (Nat.mod_mod_of_dvd F (pow_dvd_pow 2 (by omega))).symm
          _ = e % 2 ^ (nb - 1) := by rw [hF]
      have he2 : e < 2 * thr := by omega
      have he1 : thr ≤ e := by omega
      have h3 : e % thr = e - thr := by
        rw [Nat.mod_eq_sub_mod he1, Nat.mod_eq_of_lt (by omega)]
      rw [h1, h3]
    refine ⟨?_, fun h => absurd h hnots, fun _ => ?_⟩
    · rw [hFt]
      constructor
      · intro h
        exfalso
        omega
      · intro h
        exact absurd h hnots
    · rw [hF2, if_pos (by omega)]
      omega
  · have heq : e = c := by rw [he, if_neg hsc]
    push_neg at hsc
    by_cases hsm : e < maxN
    · have hknb : k = nb - 1 := by rw [hk, if_pos hsm]
      rw [hknb] at hF
      have hFt : F % thr = c := by
        rw [hthr_eq, hF, heq]
      refine ⟨?_, fun _ => by rw [hFt], fun h => absurd hsm h⟩
      rw [hFt]
      constructor
      · intro _
        omega
      · intro _
        omega
    · have hknb : k = nb := by rw [hk, if_neg hsm, Nat.sub_zero]
      rw [hknb] at hF
      have hF2 : F % (2 * thr) = c := by rw [h2t, hF, heq]
      have hFt : F % thr = c := by
        have h1 : F % thr = c % thr := by
          rw [hthr_eq]
          calc F % 2 ^ (nb - 1) = F % 2 ^ nb % 2 ^ (nb - 1) :=
                (Nat.mod_mod_of_dvd F (pow_dvd_pow 2 (by omega))).symm
            _ = c % 2 ^ (nb - 1) := by rw [hF, heq]
        rw [h1, Nat.mod_eq_of_lt hsc]
      refine ⟨?_, fun h => absurd h hsm, fun _ => ?_⟩
      · rw [hFt]
        constructor
        · intro h
          exfalso
          omega
        · intro h
          exact absurd h hsm
      · rw [hF2, if_neg (by omega)]

/-! ### Value shape of a successful writer run -/

theorem writeH_val (N : List Nat) (L : Nat) (hsumN : N.sum = 2 ^ L)
    (hL : L ≤ 12) : ∀ (fuel : Nat) (W Wf : WHState), InvW N L W →
    writeHLoop N fuel W = some Wf →
    totalVal Wf % 2 ^ totalBits W = totalVal W ∧
    totalBits W ≤ totalBits Wf ∧ W.out.length ≤ Wf.out.length ∧
    InvW N L Wf ∧ Wf.remaining = 0 := by
  intro fuel
  induction fuel with
  | zero =>
    intro W Wf hInv hw
    exact Option.noConfusion hw
  | succ f ih =>
    intro W Wf hInv hw
    have htvlt : totalVal W < 2 ^ totalBits W :=
      totalVal_lt W hInv.hout hInv.hbs
    by_cases hr : W.remaining ≤ 0
    · have hWfW : W = Wf := by
        have h0 : writeHLoop N (f + 1) W = some W := by
          simp only [writeHLoop]
          rw [if_pos hr]
        rw [h0] at hw
        exact Option.some.inj hw
      have hr0 : W.remaining = 0 := by
        have h1 := hInv.hrem
        have hts : (N.take W.charnum).sum ≤ 2 ^ L := by
          have h2 := List.sum_take_add_sum_drop N W.charnum
          omega
        have hts' : ((N.take W.charnum).sum : Int) ≤ ((2 ^ L : Nat) : Int) := by
          exact_mod_cast hts
        have hpow : ((2 ^ L : Nat) : Int) = (2 ^ L : Int) := by push_cast; rfl
        omega
      rw [← hWfW]
      exact ⟨Nat.mod_eq_of_lt htvlt, le_refl _, le_refl _, hInv, hr0⟩
    · push_neg at hr
      obtain ⟨g, c, e, k, Z, zb, W2, hbody, hInv2, _, _, _, _, _, _, hch2,
        _, _, _, _, _, hek, _, _, _, _, hZlt, hbits2, hval2, hlen2⟩ :=
        writeH_step N L hsumN hL f W hInv (by omega)
      rw [hbody] at hw
      obtain ⟨hvalf, hbitsf, hlenf, hInvf, hremf⟩ := ih W2 Wf hInv2 hw
      refine ⟨?_, by omega, by omega, hInvf, hremf⟩
      have hWf : totalVal Wf = totalVal W2 +
          2 ^ totalBits W2 * (totalVal Wf / 2 ^ totalBits W2) := by
        rw [← hvalf]
        exact (Nat.mod_add_div _ _).symm
      rw [hWf, hval2, hbits2]
      have hsplit : totalVal W + Z * 2 ^ totalBits W +
          e * 2 ^ (totalBits W + zb) +
          2 ^ (totalBits W + zb + k) *
            (totalVal Wf / 2 ^ (totalBits W + zb + k)) =
          totalVal W + (Z + e * 2 ^ zb + 2 ^ (zb + k) *
            (totalVal Wf / 2 ^ (totalBits W + zb + k))) * 2 ^ totalBits W := by
        rw [show totalBits W + zb + k = totalBits W + (zb + k) by ring,
          pow_add, pow_add, pow_add]
        ring
      rw [hsplit]
      exact add_mul_mod_pow _ _ _ htvlt

/-! ### Small bridges for the reader step -/

theorem decide_int_nat (c : Nat) :
    (decide ((c : Int) = 0)) = decide (c = 0) :=
  decide_eq_decide.mpr Int.natCast_eq_zero

theorem stored_eq (c : Nat) (hc : c < 4294967296) :
    (((c : Int)).emod (2 ^ 32)).toNat = c := by
  show (((c : Int)) % (2 ^ 32)).toNat = c
  rw [Int.emod_eq_of_lt (by omega) (by
    rw [show ((2 : Int) ^ 32) = 4294967296 by norm_num]
    exact_mod_cast hc), Int.toNat_natCast]

theorem take_succ_getD (N : List Nat) (ch : Nat) (h : ch < N.length) :
    N.take (ch + 1) = N.take ch ++ [N.getD ch 0] := by
  rw [List.take_succ, List.getElem?_eq_getElem h]
  have : N.getD ch 0 = N[ch] := by
    rw [List.getD_eq_getElem?_getD, List.getElem?_eq_getElem h]
    rfl
  rw [this]
  rfl

/-! ### The reader tracks the writer, iteration by iteration -/

theorem readH_sim (N : List Nat) (L : Nat) (hsumN : N.sum = 2 ^ L)
    (hL : L ≤ 12) (B : List Nat) (hB : ∀ b ∈ B, b < 256)
    (Wf : WHState) (hV : bytesVal B = totalVal Wf)
    (hBlen : Wf.out.length + 2 ≤ B.length) :
    ∀ (fuel : Nat) (W : WHState) (R : RHState), InvW N L W →
    MatchWR N B W R → writeHLoop N fuel W = some Wf →
    ∃ Rf, readHLoop B fuel R = some Rf ∧ MatchWR N B Wf Rf := by
  intro fuel
  induction fuel with
  | zero =>
    intro W R hInv hM hw
    exact Option.noConfusion hw
  | succ f ih =>
    intro W R hInv hM hw
    by_cases hr : W.remaining ≤ 0
    · have hWfW : W = Wf := by
        have h0 : writeHLoop N (f + 1) W = some W := by
          simp only [writeHLoop]
          rw [if_pos hr]
        rw [h0] at hw
        exact Option.some.inj hw
      refine ⟨R, ?_, hWfW ▸ hM⟩
      show readHLoop B (f + 1) R = some R
      simp only [readHLoop]
      rw [if_pos (by rw [hM.hrem]; exact hr)]
    · push_neg at hr
      obtain ⟨g, c, e, k, Z, zb, W2, hbody, hInv2, hlt, hgf, hzeros, hgetD,
        hprevt, hcsum, hch2, hrem2', hprev2, hdeq2, hedef, hkdef, hek, hk1,
        hkle, hzbdef, hZ1, hZlt, hbits2, hval2, hlen2⟩ :=
        writeH_step N L hsumN hL f W hInv (by omega)
      rw [hbody] at hw
      obtain ⟨hvalf, hbitsf, hlenf, hInvf, _⟩ :=
        writeH_val N L hsumN hL f W2 Wf hInv2 hw
      -- shared facts
      obtain ⟨h2t, hrth, hrem2i⟩ := hInv.hthr hr
      have hp2 : 0 < 2 ^ W.nbBits := pow_pos (by norm_num) W.nbBits
      have hthr1 : 1 ≤ W.threshold := by omega
      have hnb1 : 1 ≤ W.nbBits := by
        by_contra h
        push_neg at h
        interval_cases W.nbBits
        omega
      have hnble : W.nbBits ≤ 13 := by
        have := hInv.hnb
        omega
      have hthr_eq : W.threshold = 2 ^ (W.nbBits - 1) := by
        rw [show W.nbBits = (W.nbBits - 1) + 1 by omega, pow_succ] at h2t
        omega
      have htvW : totalVal W < 2 ^ totalBits W :=
        totalVal_lt W hInv.hout hInv.hbs
      have hmod : bytesVal B % 2 ^ (totalBits W + zb + k) =
          totalVal W + Z * 2 ^ totalBits W + e * 2 ^ (totalBits W + zb) := by
        rw [hV, ← hbits2, hvalf, hval2]
      obtain ⟨hT, hZw, hEw, hZE⟩ := bits_decomp (bytesVal B) (totalBits W)
        zb k (totalVal W) Z e hmod htvW hZlt hek
      have hremNc : ((W.remaining.toNat : Nat) : Int) = W.remaining :=
        Int.toNat_of_nonneg (by omega)
      have hthr_le : W.threshold ≤ 4096 := by
        rw [hthr_eq]
        calc (2 : Nat) ^ (W.nbBits - 1) ≤ 2 ^ 12 :=
              Nat.pow_le_pow_right (by norm_num) (by omega)
          _ = 4096 := by norm_num
      have hclt : c < 4294967296 := by omega
      have hclen : R.counts.length = W.charnum := by
        rw [hM.hcounts, List.length_take]
        have := hInv.hch
        omega
      have hbclt : R.bc < 8 := hM.hbc
      cases hprevW : W.prev0 with
      | false =>
        have hg0 : g = 0 := hgf hprevW
        subst hg0
        have hgetD' : N.getD W.charnum 0 = c := by simpa using hgetD
        have hzb0 : zb = 0 := by
          rw [hzbdef, hprevW]
          norm_num
        subst hzb0
        have hEw' : bytesVal B / 2 ^ totalBits W % 2 ^ k = e := by
          simpa using hEw
        -- window views of the count field
        have hw1 : load32 B R.ip / 2 ^ R.bc % W.threshold =
            bytesVal B / 2 ^ totalBits W % W.threshold := by
          rw [hthr_eq, window_mod B hB R.ip R.bc (W.nbBits - 1) (by omega)
            (by omega), hM.hpos]
        have hw2 : load32 B R.ip / 2 ^ R.bc % (2 * W.threshold) =
            bytesVal B / 2 ^ totalBits W % (2 * W.threshold) := by
          rw [h2t, window_mod B hB R.ip R.bc W.nbBits (by omega)
            (by omega), hM.hpos]
        obtain ⟨hA, hBs, hC⟩ := count_decode W.threshold W.nbBits W.remaining
          c e k (2 * W.threshold - 1 - W.remaining.toNat)
          (bytesVal B / 2 ^ totalBits W) h2t hrth hrem2i (by omega) hcsum
          rfl hedef hkdef hEw'
        -- the body equation of one reader iteration
        have hne : ¬ R.remaining ≤ 0 := by
          rw [hM.hrem]
          omega
        have hstep : ∀ R2 : RHState,
            R2 = { ip := R.ip + (R.bc + k) / 8, bc := (R.bc + k) % 8,
                   bs := load32 B (R.ip + (R.bc + k) / 8) /
                     2 ^ ((R.bc + k) % 8),
                   counts := R.counts ++ [c], prev0 := decide (c = 0),
                   remaining := W.remaining - (c : Int),
                   threshold := W2.threshold, nbBits := W2.nbBits } →
            readHLoop B (f + 1) R = readHLoop B f R2 := by
          intro R2 hR2
          simp only [readHLoop]
          rw [if_neg hne, hM.hprev, hprevW, if_neg Bool.false_ne_true]
          dsimp only
          rw [hM.hbs, hM.hthr, hM.hnb, hM.hrem, hw1, hw2]
          by_cases hsm : e < 2 * W.threshold - 1 - W.remaining.toNat
          · have hnotthr : ¬ W.threshold ≤ c := by
              intro h
              have h2 : c + (2 * W.threshold - 1 - W.remaining.toNat) <
                  2 * W.threshold - 1 - W.remaining.toNat := by
                rw [hedef, if_pos h] at hsm
                exact hsm
              omega
            have hce : e = c := by rw [hedef, if_neg hnotthr]
            rw [if_pos (hA.mpr hsm), hBs hsm, decide_int_nat,
              stored_eq c hclt, hdeq2]
            dsimp only
            rw [if_pos (show (c : Int) < 2 * (W.threshold : Int) - 1 -
              W.remaining by omega)]
            rw [hR2, show R.bc + W.nbBits - 1 = R.bc + k by
              rw [hkdef, if_pos hsm]; omega]
          · rw [if_neg (fun h => hsm (hA.mp h)), hC hsm, decide_int_nat,
              stored_eq c hclt, hdeq2]
            dsimp only
            rw [if_neg (fun h => hsm (hA.mp h))]
            rw [hR2, show R.bc + W.nbBits - 0 = R.bc + k by
              rw [hkdef, if_neg hsm]; omega]
        have hM2 : MatchWR N B W2
            { ip := R.ip + (R.bc + k) / 8, bc := (R.bc + k) % 8,
              bs := load32 B (R.ip + (R.bc + k) / 8) / 2 ^ ((R.bc + k) % 8),
              counts := R.counts ++ [c], prev0 := decide (c = 0),
              remaining := W.remaining - (c : Int),
              threshold := W2.threshold, nbBits := W2.nbBits } := by
          refine ⟨?_, ?_, ?_, rfl, rfl, ?_, by
            show (R.bc + k) % 8 < 8
            omega, rfl⟩
          · show R.counts ++ [c] = N.take W2.charnum
            rw [hM.hcounts, hch2, show W.charnum + 0 + 1 = W.charnum + 1 by
              omega, take_succ_getD N W.charnum (by omega), hgetD']
          · show decide (c = 0) = W2.prev0
            rw [hprev2]
          · show W.remaining - (c : Int) = W2.remaining
            rw [hrem2']
          · show 8 * (R.ip + (R.bc + k) / 8) + (R.bc + k) % 8 = totalBits W2
            have hp := hM.hpos
            omega
        obtain ⟨Rf, hrl, hMf⟩ := ih W2 _ hInv2 hM2 hw
        exact ⟨Rf, by rw [hstep _ rfl]; exact hrl, hMf⟩
      | true =>
        have hzbv : zb = 16 * (g / 24) + 2 * (g % 24 / 3) + 2 := by
          rw [hzbdef, if_pos hprevW]
        have hq3le : g % 24 / 3 ≤ 7 := by omega
        have hg2le : g % 3 ≤ 2 := by omega
        have hP1 : (1 : Nat) ≤ 2 ^ (16 * (g / 24)) := Nat.one_le_two_pow
        have hQ0 : (0 : Nat) < 2 ^ (2 * (g % 24 / 3)) := pow_pos (by norm_num) _
        have hzbP : (2 : Nat) ^ zb =
            4 * (2 ^ (2 * (g % 24 / 3)) * 2 ^ (16 * (g / 24))) := by
          rw [hzbv, pow_add, pow_add]
          ring
        have hzbkP : (2 : Nat) ^ (zb + k) =
            2 ^ k * (4 * (2 ^ (2 * (g % 24 / 3)) * 2 ^ (16 * (g / 24)))) := by
          rw [pow_add, hzbP]
          ring
        have hdd : bytesVal B / 2 ^ totalBits W / 2 ^ (zb + k) =
            bytesVal B / 2 ^ (totalBits W + zb + k) := by
          rw [Nat.div_div_eq_div_mul, ← pow_add,
            show totalBits W + (zb + k) = totalBits W + zb + k by ring]
        have hFdec : bytesVal B / 2 ^ totalBits W = Z + e * 2 ^ zb +
            2 ^ (zb + k) * (bytesVal B / 2 ^ (totalBits W + zb + k)) := by
          conv_lhs => rw [← Nat.mod_add_div (bytesVal B / 2 ^ totalBits W)
            (2 ^ (zb + k))]
          rw [hZE, hdd]
        have hQg0 : (0 : Nat) < (1 + g % 3) * 2 ^ (2 * (g % 24 / 3)) := by
          positivity
        have hQg1 : (1 : Nat) ≤ (1 + g % 3) * 2 ^ (2 * (g % 24 / 3)) := hQg0
        have hHH : bytesVal B / 2 ^ totalBits W =
            2 ^ (16 * (g / 24)) - 1 +
            ((1 + g % 3) * 2 ^ (2 * (g % 24 / 3)) - 1 +
              (e + bytesVal B / 2 ^ (totalBits W + zb + k) * 2 ^ k) *
                (4 * 2 ^ (2 * (g % 24 / 3)))) * 2 ^ (16 * (g / 24)) := by
          rw [hFdec]
          zify [hP1, hQg1]
          zify at hZ1 hzbP hzbkP
          linear_combination hZ1 + (e : Int) * hzbP +
            ((bytesVal B : Int) / 2 ^ (totalBits W + zb + k)) * hzbkP
        have h4Q : (4 : Nat) * 2 ^ (2 * (g % 24 / 3)) =
            2 ^ (2 * (g % 24 / 3) + 2) := by
          rw [pow_add]
          ring
        have h3Q : (1 + g % 3) * 2 ^ (2 * (g % 24 / 3)) ≤
            3 * 2 ^ (2 * (g % 24 / 3)) :=
          Nat.mul_le_mul_right _ (by omega)
        have hHHmod : ((1 + g % 3) * 2 ^ (2 * (g % 24 / 3)) - 1 +
              (e + bytesVal B / 2 ^ (totalBits W + zb + k) * 2 ^ k) *
                (4 * 2 ^ (2 * (g % 24 / 3)))) % 2 ^ (2 * (g % 24 / 3) + 2) =
            (1 + g % 3) * 2 ^ (2 * (g % 24 / 3)) - 1 := by
          rw [h4Q]
          exact add_mul_mod_pow _ _ _ (by rw [← h4Q]; omega)
        have hHne : ((1 + g % 3) * 2 ^ (2 * (g % 24 / 3)) - 1 +
              (e + bytesVal B / 2 ^ (totalBits W + zb + k) * 2 ^ k) *
                (4 * 2 ^ (2 * (g % 24 / 3)))) % 2 ^ 16 ≠ 65535 := by
          intro hcontra
          have h1 : ((1 + g % 3) * 2 ^ (2 * (g % 24 / 3)) - 1 +
              (e + bytesVal B / 2 ^ (totalBits W + zb + k) * 2 ^ k) *
                (4 * 2 ^ (2 * (g % 24 / 3)))) % 2 ^ (2 * (g % 24 / 3) + 2) =
              ((1 + g % 3) * 2 ^ (2 * (g % 24 / 3)) - 1 +
              (e + bytesVal B / 2 ^ (totalBits W + zb + k) * 2 ^ k) *
                (4 * 2 ^ (2 * (g % 24 / 3)))) % 2 ^ 16 % 2 ^ (2 * (g % 24 / 3) + 2) :=
            (Nat.mod_mod_of_dvd _ (pow_dvd_pow 2 (by omega))).symm
          rw [hcontra, hHHmod] at h1
          have h65 : 65535 % 2 ^ (2 * (g % 24 / 3) + 2) =
              2 ^ (2 * (g % 24 / 3) + 2) - 1 := by
            have hb7 : g % 24 / 3 ≤ 7 := hq3le
            set m3 := g % 24 / 3 with hm3
            interval_cases m3 <;> norm_num
          rw [h65] at h1
          have h4 : (1 + g % 3) * 2 ^ (2 * (g % 24 / 3)) =
              2 ^ (2 * (g % 24 / 3)) + (g % 3) * 2 ^ (2 * (g % 24 / 3)) := by
            ring
          have h5 : (g % 3) * 2 ^ (2 * (g % 24 / 3)) ≤
              2 * 2 ^ (2 * (g % 24 / 3)) :=
            Nat.mul_le_mul_right _ (by omega)
          rw [← h4Q] at h1
          omega
        have hFH2 : bytesVal B / 2 ^ (8 * R.ip + R.bc) =
            2 ^ (16 * (g / 24)) - 1 + ((1 + g % 3) * 2 ^ (2 * (g % 24 / 3)) - 1 +
              (e + bytesVal B / 2 ^ (totalBits W + zb + k) * 2 ^ k) *
                (4 * 2 ^ (2 * (g % 24 / 3)))) * 2 ^ (16 * (g / 24)) := by
          rw [hM.hpos]
          exact hHH
        have hbcWf : Wf.bc ≤ 16 := hInvf.hbc
        have hq24lt : g / 24 < B.length + 2 := by
          have h1 : totalBits Wf = 8 * Wf.out.length + Wf.bc := rfl
          omega
        have hr24 := read24s_spec B hB R.bc hM.hbc (g / 24) (B.length + 2)
          R.ip R.counts.length _ hq24lt hFH2 hHne
        have hHdiv : bytesVal B / 2 ^ (8 * (R.ip + 2 * (g / 24)) + R.bc) =
            ((1 + g % 3) * 2 ^ (2 * (g % 24 / 3)) - 1 +
              (e + bytesVal B / 2 ^ (totalBits W + zb + k) * 2 ^ k) *
                (4 * 2 ^ (2 * (g % 24 / 3)))) := by
          have h1 : 8 * (R.ip + 2 * (g / 24)) + R.bc =
              totalBits W + 16 * (g / 24) := by
            have := hM.hpos
            omega
          have h2 : bytesVal B / 2 ^ (totalBits W + 16 * (g / 24)) =
              bytesVal B / 2 ^ totalBits W / 2 ^ (16 * (g / 24)) := by
            rw [Nat.div_div_eq_div_mul, ← pow_add]
          rw [h1, h2, hHH]
          exact add_mul_div_pow _ _ _ (by omega)
        have hwin3 : load32 B (R.ip + 2 * (g / 24)) / 2 ^ R.bc %
            2 ^ (2 * (g % 24 / 3) + 2) =
            2 ^ (2 * (g % 24 / 3)) - 1 + (g % 3) * 2 ^ (2 * (g % 24 / 3)) := by
          rw [window_mod B hB _ R.bc _ (by omega) (by omega), hHdiv, hHHmod]
          have h4 : (1 + g % 3) * 2 ^ (2 * (g % 24 / 3)) =
              2 ^ (2 * (g % 24 / 3)) + (g % 3) * 2 ^ (2 * (g % 24 / 3)) := by
            ring
          omega
        obtain ⟨hr3eq, hg2eq⟩ := read3s_spec (g % 24 / 3) 17
          (load32 B (R.ip + 2 * (g / 24)) / 2 ^ R.bc) R.bc
          (R.counts.length + 24 * (g / 24)) (g % 3) (by omega) (by omega)
          hwin3
        have hcounts1 : R.counts ++ List.replicate
            (R.counts.length + 24 * (g / 24) + 3 * (g % 24 / 3) + g % 3 -
              R.counts.length) 0 = N.take (W.charnum + g) := by
          rw [show R.counts.length + 24 * (g / 24) + 3 * (g % 24 / 3) +
            g % 3 - R.counts.length = g by omega]
          rw [hM.hcounts]
          exact take_fill_zeros N W.charnum g (by omega) hzeros
        have hpos1 : 8 * (R.ip + 2 * (g / 24) + (R.bc + 2 * (g % 24 / 3) + 2) / 8) + ((R.bc + 2 * (g % 24 / 3) + 2) % 8) = totalBits W + zb := by
          have := hM.hpos
          omega
        have hw1 : load32 B (R.ip + 2 * (g / 24) + (R.bc + 2 * (g % 24 / 3) + 2) / 8) / 2 ^ ((R.bc + 2 * (g % 24 / 3) + 2) % 8) % W.threshold =
            bytesVal B / 2 ^ (totalBits W + zb) % W.threshold := by
          rw [hthr_eq, window_mod B hB _ _ (W.nbBits - 1) (by omega)
            (by omega), hpos1]
        have hw2 : load32 B (R.ip + 2 * (g / 24) + (R.bc + 2 * (g % 24 / 3) + 2) / 8) / 2 ^ ((R.bc + 2 * (g % 24 / 3) + 2) % 8) % (2 * W.threshold) =
            bytesVal B / 2 ^ (totalBits W + zb) % (2 * W.threshold) := by
          rw [h2t, window_mod B hB _ _ W.nbBits (by omega) (by omega), hpos1]
        obtain ⟨hA, hBs, hC⟩ := count_decode W.threshold W.nbBits W.remaining
          c e k (2 * W.threshold - 1 - W.remaining.toNat)
          (bytesVal B / 2 ^ (totalBits W + zb)) h2t hrth hrem2i (by omega)
          hcsum rfl hedef hkdef hEw
        have hne : ¬ R.remaining ≤ 0 := by
          rw [hM.hrem]
          omega
        have hstep : ∀ R2 : RHState,
            R2 = { ip := (R.ip + 2 * (g / 24) + (R.bc + 2 * (g % 24 / 3) + 2) / 8) + (((R.bc + 2 * (g % 24 / 3) + 2) % 8) + k) / 8, bc := (((R.bc + 2 * (g % 24 / 3) + 2) % 8) + k) % 8,
                   bs := load32 B ((R.ip + 2 * (g / 24) + (R.bc + 2 * (g % 24 / 3) + 2) / 8) + (((R.bc + 2 * (g % 24 / 3) + 2) % 8) + k) / 8) /
                     2 ^ ((((R.bc + 2 * (g % 24 / 3) + 2) % 8) + k) % 8),
                   counts := N.take (W.charnum + g) ++ [c],
                   prev0 := decide (c = 0),
                   remaining := W.remaining - (c : Int),
                   threshold := W2.threshold, nbBits := W2.nbBits } →
            readHLoop B (f + 1) R = readHLoop B f R2 := by
          intro R2 hR2
          simp only [readHLoop]
          rw [if_neg hne, hM.hprev, hprevW, if_pos rfl, hM.hbs, hr24]
          dsimp only
          rw [hr3eq]
          dsimp only
          rw [hg2eq, hcounts1]
          rw [hM.hthr, hM.hnb, hM.hrem, hw1, hw2]
          by_cases hsm : e < 2 * W.threshold - 1 - W.remaining.toNat
          · have hnotthr : ¬ W.threshold ≤ c := by
              intro h
              have h2 : c + (2 * W.threshold - 1 - W.remaining.toNat) <
                  2 * W.threshold - 1 - W.remaining.toNat := by
                rw [hedef, if_pos h] at hsm
                exact hsm
              omega
            have hce : e = c := by rw [hedef, if_neg hnotthr]
            rw [if_pos (hA.mpr hsm), hBs hsm, decide_int_nat,
              stored_eq c hclt, hdeq2]
            dsimp only
            rw [if_pos (show (c : Int) < 2 * (W.threshold : Int) - 1 -
              W.remaining by omega)]
            rw [hR2, show ((R.bc + 2 * (g % 24 / 3) + 2) % 8) + W.nbBits - 1 = ((R.bc + 2 * (g % 24 / 3) + 2) % 8) + k by
              rw [hkdef, if_pos hsm]; omega]
          · rw [if_neg (fun h => hsm (hA.mp h)), hC hsm, decide_int_nat,
              stored_eq c hclt, hdeq2]
            dsimp only
            rw [if_neg (fun h => hsm (hA.mp h))]
            rw [hR2, show ((R.bc + 2 * (g % 24 / 3) + 2) % 8) + W.nbBits - 0 = ((R.bc + 2 * (g % 24 / 3) + 2) % 8) + k by
              rw [hkdef, if_neg hsm]; omega]
        have hM2 : MatchWR N B W2
            { ip := (R.ip + 2 * (g / 24) + (R.bc + 2 * (g % 24 / 3) + 2) / 8) + (((R.bc + 2 * (g % 24 / 3) + 2) % 8) + k) / 8, bc := (((R.bc + 2 * (g % 24 / 3) + 2) % 8) + k) % 8,
              bs := load32 B ((R.ip + 2 * (g / 24) + (R.bc + 2 * (g % 24 / 3) + 2) / 8) + (((R.bc + 2 * (g % 24 / 3) + 2) % 8) + k) / 8) /
                2 ^ ((((R.bc + 2 * (g % 24 / 3) + 2) % 8) + k) % 8),
              counts := N.take (W.charnum + g) ++ [c],
              prev0 := decide (c = 0),
              remaining := W.remaining - (c : Int),
              threshold := W2.threshold, nbBits := W2.nbBits } := by
          refine ⟨?_, ?_, ?_, rfl, rfl, ?_, by
            show (((R.bc + 2 * (g % 24 / 3) + 2) % 8) + k) % 8 < 8
            omega, rfl⟩
          · show N.take (W.charnum + g) ++ [c] = N.take W2.charnum
            rw [hch2, take_succ_getD N (W.charnum + g) hlt, hgetD]
          · show decide (c = 0) = W2.prev0
            rw [hprev2]
          · show W.remaining - (c : Int) = W2.remaining
            rw [hrem2']
          · show 8 * ((R.ip + 2 * (g / 24) + (R.bc + 2 * (g % 24 / 3) + 2) / 8) + (((R.bc + 2 * (g % 24 / 3) + 2) % 8) + k) / 8) + (((R.bc + 2 * (g % 24 / 3) + 2) % 8) + k) % 8 =
              totalBits W2
            rw [hbits2]
            omega
        obtain ⟨Rf, hrl, hMf⟩ := ih W2 _ hInv2 hM2 hw
        exact ⟨Rf, by rw [hstep _ rfl]; exact hrl, hMf⟩

theorem getD_eq_getElem_of_lt (N : List Nat) (i : Nat) (h : i < N.length) :
    N.getD i 0 = N[i] := by
  rw [List.getD_eq_getElem?_getD, List.getElem?_eq_getElem h]
  rfl

theorem charnum_final (N : List Nat) (L : Nat) (hsum : N.sum = 2 ^ L)
    (hlast : N.getD (N.length - 1) 0 ≠ 0)
    (Wf : WHState) (hInv : InvW N L Wf) (hr0 : Wf.remaining = 0) :
    Wf.charnum = N.length := by
  by_contra hne'
  have hch := hInv.hch
  have hlt : Wf.charnum < N.length := lt_of_le_of_ne hch hne'
  have hrem := hInv.hrem
  have hpow : ((2 ^ L : Nat) : Int) = (2 ^ L : Int) := by push_cast; rfl
  have htake : (N.take Wf.charnum).sum = 2 ^ L := by
    have h1 : ((N.take Wf.charnum).sum : Int) = ((2 ^ L : Nat) : Int) := by
      omega
    exact_mod_cast h1
  have hdrop : (N.drop Wf.charnum).sum = 0 := by
    have h2 := List.sum_take_add_sum_drop N Wf.charnum
    omega
  have hlen : N.length - 1 - Wf.charnum < (N.drop Wf.charnum).length := by
    rw [List.length_drop]
    omega
  have hmem : N.getD (N.length - 1) 0 ∈ N.drop Wf.charnum := by
    have hidx : Wf.charnum + (N.length - 1 - Wf.charnum) = N.length - 1 := by
      omega
    have hg : (N.drop Wf.charnum)[N.length - 1 - Wf.charnum] =
        N.getD (N.length - 1) 0 := by
      rw [List.getElem_drop, getD_eq_getElem_of_lt N (N.length - 1) (by omega)]
      simp only [hidx]
    exact List.mem_iff_getElem.mpr ⟨_, hlen, hg⟩
  have hle := List.single_le_sum (fun (x : Nat) _ => Nat.zero_le x) _ hmem
  omega

/-- C3: header round-trip.  For every normalized-count vector `N` whose
entries sum to `2^L` with `L` between `FSE_MIN_TABLELOG` and
`FSE_MAX_TABLELOG` and whose last entry is nonzero, `FSE_readHeader`
applied to the buffer `FSE_writeHeader` produced returns exactly the counts
`N` (hence `nbSymbols = N.length`), the table log `L`, and consumes exactly
the byte length the writer reported.  (The spec's wording omits the
last-entry condition: when trailing counts are zero the reader returns a
shorter vector, see the counterexample.) -/
theorem C3_header_roundtrip (N : List Nat) (L : Nat)
    (hL1 : FSE_MIN_TABLELOG ≤ L) (hL2 : L ≤ FSE_MAX_TABLELOG)
    (hsum : N.sum = 2 ^ L) (hlast : N.getD (N.length - 1) 0 ≠ 0) :
    ∃ buf len, FSE_writeHeader N N.length L = some (buf, len) ∧
      FSE_readHeader buf (N.length + 2) = some (N, L, len) := by
  have hL1' : 5 ≤ L := hL1
  have hL2' : L ≤ 12 := hL2
  have hInv0 : InvW N L
      { out := [], bs := 2 + (L - FSE_MIN_TABLELOG) * 2 ^ 2, bc := 6,
        charnum := 0, prev0 := false, remaining := ((2 ^ L : Nat) : Int),
        threshold := 2 ^ L, nbBits := L + 1 } := by
    have h1L : (1 : Int) ≤ ((2 ^ L : Nat) : Int) := by
      exact_mod_cast Nat.one_le_two_pow
    refine ⟨?_, by norm_num, by simp, Nat.zero_le _, ?_, ?_, le_refl _, ?_⟩
    · show 2 + (L - 5) * 4 < 64
      omega
    · show ((2 ^ L : Nat) : Int) = (2 ^ L : Int) - ((0 : Nat) : Int)
      push_cast
      ring
    · intro _
      refine ⟨?_, le_refl _, by
        show ((2 ^ L : Nat) : Int) ≤ 2 * ((2 ^ L : Nat) : Int) - 1
        omega⟩
      show 2 * 2 ^ L = 2 ^ (L + 1)
      rw [pow_succ]
      ring
    · intro h
      exfalso
      have h' : ((2 ^ L : Nat) : Int) ≤ 0 := h
      omega
  obtain ⟨Wf, hwl, hInvf, hr0, hvalf, hbitsf, hlenf⟩ :=
    writeH_run N L hsum hL2' (N.length + 2)
      { out := [], bs := 2 + (L - FSE_MIN_TABLELOG) * 2 ^ 2, bc := 6,
        charnum := 0, prev0 := false, remaining := ((2 ^ L : Nat) : Int),
        threshold := 2 ^ L, nbBits := L + 1 } hInv0
      (show N.length + 1 - 0 ≤ N.length + 2 by omega)
  have hwrite : FSE_writeHeader N N.length L =
      some (Wf.out ++ [Wf.bs % 2 ^ 8, Wf.bs / 2 ^ 8 % 2 ^ 8],
        Wf.out.length + (Wf.bc + 7) / 8) := by
    simp only [FSE_writeHeader]
    rw [if_neg (not_lt.mpr hL2), if_neg (not_lt.mpr hL1), hwl]
    dsimp only
    rw [if_neg (show ¬ Wf.remaining < 0 by omega),
      if_neg (not_lt.mpr hInvf.hch)]
  have hchfin : Wf.charnum = N.length := charnum_final N L hsum hlast Wf hInvf hr0
  have hbs16 : Wf.bs < 2 ^ 16 :=
    lt_of_lt_of_le hInvf.hbs (Nat.pow_le_pow_right (by norm_num) hInvf.hbc)
  have hBval : bytesVal (Wf.out ++ [Wf.bs % 2 ^ 8, Wf.bs / 2 ^ 8 % 2 ^ 8]) =
      totalVal Wf := by
    rw [bytesVal_append, bytesVal_pair]
    show bytesVal Wf.out +
        (Wf.bs % 256 + 256 * (Wf.bs / 256 % 256)) * 2 ^ (8 * Wf.out.length) =
      bytesVal Wf.out + Wf.bs * 2 ^ (8 * Wf.out.length)
    have hb : Wf.bs % 256 + 256 * (Wf.bs / 256 % 256) = Wf.bs := by omega
    rw [hb]
  have hBbytes : ∀ b ∈ Wf.out ++ [Wf.bs % 2 ^ 8, Wf.bs / 2 ^ 8 % 2 ^ 8],
      b < 256 := by
    intro b hb
    rcases List.mem_append.mp hb with h | h
    · exact hInvf.hout b h
    · rcases List.mem_cons.mp h with h1 | h1
      · omega
      · rcases List.mem_cons.mp h1 with h2 | h2
        · omega
        · exact absurd h2 (List.not_mem_nil b)
  have hBlen : Wf.out.length + 2 ≤
      (Wf.out ++ [Wf.bs % 2 ^ 8, Wf.bs / 2 ^ 8 % 2 ^ 8]).length := by
    rw [List.length_append]
    exact Nat.le_refl _
  have hmod6 : totalVal Wf % 64 = 2 + (L - 5) * 4 := by
    have h := hvalf
    generalize totalVal Wf = V at h ⊢
    simp only [totalVal, totalBits, bytesVal, List.length_nil,
      FSE_MIN_TABLELOG] at h
    norm_num at h
    omega
  have hb0 : load32 (Wf.out ++ [Wf.bs % 2 ^ 8, Wf.bs / 2 ^ 8 % 2 ^ 8]) 0 =
      totalVal Wf % 2 ^ 32 := by
    have h1 := load32_eq (Wf.out ++ [Wf.bs % 2 ^ 8, Wf.bs / 2 ^ 8 % 2 ^ 8])
      hBbytes 0
    rw [h1, hBval]
    norm_num
  have hLb : load32 (Wf.out ++ [Wf.bs % 2 ^ 8, Wf.bs / 2 ^ 8 % 2 ^ 8]) 0 / 4 %
      2 ^ 4 + FSE_MIN_TABLELOG = L := by
    rw [hb0]
    show totalVal Wf % 2 ^ 32 / 4 % 2 ^ 4 + 5 = L
    omega
  have hM0 : MatchWR N (Wf.out ++ [Wf.bs % 2 ^ 8, Wf.bs / 2 ^ 8 % 2 ^ 8])
      { out := [], bs := 2 + (L - FSE_MIN_TABLELOG) * 2 ^ 2, bc := 6,
        charnum := 0, prev0 := false, remaining := ((2 ^ L : Nat) : Int),
        threshold := 2 ^ L, nbBits := L + 1 }
      { ip := 0, bc := 6,
        bs := load32 (Wf.out ++ [Wf.bs % 2 ^ 8, Wf.bs / 2 ^ 8 % 2 ^ 8]) 0 /
          2 ^ 6,
        counts := [], prev0 := false, remaining := ((2 ^ L : Nat) : Int),
        threshold := 2 ^ L, nbBits := L + 1 } :=
    ⟨rfl, rfl, rfl, rfl, rfl, rfl, by norm_num, rfl⟩
  obtain ⟨Rf, hrl, hMf⟩ := readH_sim N L hsum hL2'
    (Wf.out ++ [Wf.bs % 2 ^ 8, Wf.bs / 2 ^ 8 % 2 ^ 8]) hBbytes Wf hBval hBlen
    (N.length + 2)
    { out := [], bs := 2 + (L - FSE_MIN_TABLELOG) * 2 ^ 2, bc := 6,
      charnum := 0, prev0 := false, remaining := ((2 ^ L : Nat) : Int),
      threshold := 2 ^ L, nbBits := L + 1 }
    { ip := 0, bc := 6,
      bs := load32 (Wf.out ++ [Wf.bs % 2 ^ 8, Wf.bs / 2 ^ 8 % 2 ^ 8]) 0 /
        2 ^ 6,
      counts := [], prev0 := false, remaining := ((2 ^ L : Nat) : Int),
      threshold := 2 ^ L, nbBits := L + 1 } hInv0 hM0 hwl
  have hnb0 : Wf.nbBits = 0 := (hInvf.hzero (le_of_eq hr0)).2
  have hread : FSE_readHeader (Wf.out ++ [Wf.bs % 2 ^ 8, Wf.bs / 2 ^ 8 % 2 ^ 8])
      (N.length + 2) = some (N, L, Wf.out.length + (Wf.bc + 7) / 8) := by
    simp only [FSE_readHeader]
    rw [hLb, hrl]
    dsimp only
    rw [if_neg (show ¬ Rf.remaining < 0 by rw [hMf.hrem]; omega),
      if_neg (show ¬ FSE_MAX_TABLELOG < Rf.nbBits by
        rw [hMf.hnb, hnb0]; decide)]
    have hcounts : Rf.counts = N := by
      rw [hMf.hcounts, hchfin, List.take_length]
    have hip : Rf.ip + (if 0 < Rf.bc then 1 else 0) =
        Wf.out.length + (Wf.bc + 7) / 8 := by
      have h1 : 8 * Rf.ip + Rf.bc = 8 * Wf.out.length + Wf.bc := hMf.hpos
      have h2 := hMf.hbc
      have h3 := hInvf.hbc
      by_cases h0 : 0 < Rf.bc
      · rw [if_pos h0]
        omega
      · rw [if_neg h0]
        omega
    rw [hcounts, hip]
  exact ⟨_, _, hwrite, hread⟩

/-- Witness for C3 at `N = [16, 16]`, `L = 5`. -/
theorem C3_witness :
    ∃ buf len, FSE_writeHeader [16, 16] 2 5 = some (buf, len) ∧
      FSE_readHeader buf 4 = some ([16, 16], 5, len) :=
  C3_header_roundtrip [16, 16] 5 (by decide) (by decide) (by decide)
    (by decide)

/-- The round-trip is not the identity on every valid normalized vector:
`[32, 0]` sums to `2^5` and has a positive entry, but the header encodes no
trailing zero, so the reader returns the shorter vector `[32]` with
`nbSymbols = 1`, not `2`. -/
theorem C3_counterexample :
    FSE_writeHeader [32, 0] 2 5 = some ([194, 15], 2) ∧
    FSE_readHeader [194, 15] 4 = some ([32], 5, 2) ∧
    ([32] : List Nat) ≠ [32, 0] := by
  refine ⟨by decide, by decide, by decide⟩

